import Mathlib

/-!
Verification development for a log-structured segment/topic storage engine
(sources: src/segment.rs, src/topic.rs).  Bytes are modelled as `Nat`
(values kept below 256 where the source casts to `u8`), files as `List Nat`
together with an explicit cursor, and panics / fallible operations as
`Option` / `Except` results.
-/

/-- Chunk header layout constant CRC_OFFSET from src/segment.rs. -/
def CRC_OFFSET : Nat := 0

/-- Chunk header layout constant LEN_OFFSET from src/segment.rs. -/
def LEN_OFFSET : Nat := 4

/-- Chunk header layout constant TYPE_OFFSET from src/segment.rs. -/
def TYPE_OFFSET : Nat := 8

/-- Chunk header layout constant PAYLOAD_OFFSET from src/segment.rs. -/
def PAYLOAD_OFFSET : Nat := 9

/-- Chunk header size: crc(4) + length(4) + type(1), from src/segment.rs. -/
def NUM_HEADER_BYTES : Nat := 9

/-- Footer layout constant FOOTER_MAGIC_OFFSET from src/segment.rs. -/
def FOOTER_MAGIC_OFFSET : Nat := 0

/-- Footer field offset for the segment index (bytes 1-8). -/
def FOOTER_INDEX_OFFSET : Nat := 1

/-- Footer field offset for the block size (bytes 9-16). -/
def FOOTER_BUFFER_SIZE_OFFSET : Nat := 9

/-- Footer field offset for the start offset (bytes 17-24). -/
def FOOTER_START_INDEX_OFFSET : Nat := 17

/-- Footer field offset for the next offset (bytes 25-32). -/
def FOOTER_NEXT_INDEX_OFFSET : Nat := 25

/-- Footer magic byte (42) from src/segment.rs. -/
def FOOTER_MAGIC_BYTE : Nat := 42

/-- Footer total size (33 bytes) from src/segment.rs. -/
def FOOTER_BYTE_COUNT : Nat := 33

/-- Slice `l[a..b]` of a byte list, as Rust `&buffer[a..b]` (which panics when
out of bounds; the model truncates instead, a difference visible only at
indices the source never reaches). -/
def listSlice (l : List Nat) (a b : Nat) : List Nat :=
  (l.drop a).take (b - a)

/-- Overwrite the bytes of `l` starting at `i` with `data`: the specification
form of the byte-store loops of the source, and the model of writing `data`
at cursor position `i` of a file. -/
def overwrite (l : List Nat) (i : Nat) (data : List Nat) : List Nat :=
  l.take i ++ data ++ l.drop (i + data.length)

theorem overwrite_length (l : List Nat) (i : Nat) (data : List Nat)
    (h : i + data.length ≤ l.length) : (overwrite l i data).length = l.length := by
  simp only [overwrite, List.length_append, List.length_take, List.length_drop]
  omega

theorem overwrite_nil (l : List Nat) (i : Nat) : overwrite l i [] = l := by
  simp [overwrite]

/-- Writing at the end of the file appends. -/
theorem overwrite_end (l : List Nat) (data : List Nat) :
    overwrite l l.length data = l ++ data := by
  simp [overwrite, List.drop_eq_nil_of_le]

theorem slice_length (l : List Nat) (a b : Nat) (h : b ≤ l.length) (hab : a ≤ b) :
    (listSlice l a b).length = b - a := by
  simp only [listSlice, List.length_take, List.length_drop]
  omega

/-- A listSlice starting at the front of a list-append. -/
theorem slice_append_left (x y : List Nat) (b : Nat) (h : b ≤ x.length) :
    listSlice (x ++ y) 0 b = x.take b := by
  simp only [listSlice, List.drop_zero, Nat.sub_zero]
  exact List.take_append_of_le_length h

/-- A listSlice aligned after a known-length front part. -/
theorem slice_shift (x y : List Nat) (a b : Nat) :
    listSlice (x ++ y) (x.length + a) (x.length + b) = listSlice y a b := by
  simp only [listSlice, List.drop_append, Nat.add_sub_add_left]

/-- Two adjacent overwrites compose (second after the first). -/
theorem overwrite_append (l : List Nat) (i : Nat) (d1 d2 : List Nat)
    (h : i + d1.length ≤ l.length) :
    overwrite (overwrite l i d1) (i + d1.length) d2 = overwrite l i (d1 ++ d2) := by
  have hti : (l.take i).length = i := by simp; omega
  simp only [overwrite, List.length_append, List.append_assoc]
  generalize hC : l.drop (i + d1.length) = C
  generalize hA : l.take i = A at hti
  have hR : l.drop (i + (d1.length + d2.length)) = C.drop d2.length := by
    rw [← hC, List.drop_drop]; congr 1; omega
  rw [hR,
      show i + d1.length = A.length + d1.length by rw [hti],
      List.take_append, List.take_left,
      show A.length + d1.length + d2.length = A.length + (d1.length + d2.length) by omega,
      List.drop_append, List.drop_append]
  simp

/-- Two adjacent overwrites compose (second immediately before the first). -/
theorem overwrite_before (l : List Nat) (i : Nat) (d1 d2 : List Nat)
    (h1 : i + d1.length ≤ l.length) :
    overwrite (overwrite l (i + d1.length) d2) i d1 = overwrite l i (d1 ++ d2) := by
  have hti : (l.take (i + d1.length)).length = i + d1.length := by simp; omega
  have htake : (l.take (i + d1.length)).take i = l.take i := by
    rw [List.take_take, Nat.min_eq_left (by omega)]
  simp only [overwrite, List.length_append, List.append_assoc]
  generalize hD : l.drop (i + d1.length + d2.length) = D
  have hR : l.drop (i + (d1.length + d2.length)) = D := by
    rw [← hD]; congr 1; omega
  rw [hR]
  generalize hA : l.take (i + d1.length) = A at hti htake
  rw [List.take_append_of_le_length (by omega : i ≤ A.length), htake]
  rw [show i + d1.length = A.length from hti.symm, List.drop_left]

/-- Reading an element inside the overwritten region. -/
theorem overwrite_getD_inside (l : List Nat) (i : Nat) (data : List Nat) (j : Nat)
    (hj : j < data.length) (hb : i + data.length ≤ l.length) :
    (overwrite l i data).getD (i + j) 0 = data.getD j 0 := by
  have hti : (l.take i).length = i := by simp; omega
  simp only [overwrite, List.append_assoc]
  rw [show i + j = (l.take i).length + j by rw [hti]]
  rw [List.getD_eq_getElem?_getD, List.getElem?_append_right (by omega : (l.take i).length ≤ (l.take i).length + j)]
  simp only [Nat.add_sub_cancel_left]
  rw [List.getElem?_append_left hj, ← List.getD_eq_getElem?_getD]

/-- Reading an element strictly before the overwritten region. -/
theorem overwrite_getD_before (l : List Nat) (i : Nat) (data : List Nat) (j : Nat)
    (hj : j < i) (hb : i ≤ l.length) :
    (overwrite l i data).getD j 0 = l.getD j 0 := by
  have hti : (l.take i).length = i := by simp; omega
  simp only [overwrite, List.append_assoc]
  rw [List.getD_eq_getElem?_getD, List.getElem?_append_left (by omega : j < (l.take i).length)]
  rw [← List.getD_eq_getElem?_getD]
  simp only [List.getD_eq_getElem?_getD]
  rw [List.getElem?_take_of_lt hj]

/-- The listSlice of the overwritten region recovers the written data. -/
theorem overwrite_listSlice (l : List Nat) (i : Nat) (data : List Nat)
    (hb : i + data.length ≤ l.length) :
    listSlice (overwrite l i data) i (i + data.length) = data := by
  have hti : (l.take i).length = i := by simp; omega
  simp only [overwrite, listSlice, List.append_assoc, Nat.add_sub_cancel_left]
  generalize hA : l.take i = A at hti
  rw [show i = A.length from hti.symm, List.drop_left,
      List.take_append_of_le_length (le_refl _)]
  simp

/-- A listSlice strictly before the overwritten region is unchanged. -/
theorem overwrite_slice_before (l : List Nat) (i : Nat) (data : List Nat)
    (a b : Nat) (hb : b ≤ i) (hil : i ≤ l.length) :
    listSlice (overwrite l i data) a b = listSlice l a b := by
  rcases Nat.le_total a b with hab | hab
  · simp only [listSlice, overwrite, List.append_assoc]
    rw [List.drop_append_of_le_length (by simp; omega : a ≤ (l.take i).length)]
    rw [List.take_append_of_le_length
      (by simp only [List.length_drop, List.length_take]; omega :
        b - a ≤ ((l.take i).drop a).length)]
    rw [List.drop_take, List.take_take, Nat.min_eq_left (by omega)]
  · simp [listSlice, Nat.sub_eq_zero_of_le hab]

/-- Reading a whole aligned block out of a rendered sequence of blocks. -/
theorem slice_join_block (pre blk post : List Nat) (a : Nat)
    (ha : a = pre.length) (hb : 0 < blk.length) :
    listSlice (pre ++ blk ++ post) a (a + blk.length) = blk := by
  subst ha
  simp only [List.append_assoc, listSlice, List.drop_left, Nat.add_sub_cancel_left]
  rw [List.take_append_of_le_length (le_refl _)]
  simp

/-- Little-endian byte list of width `n` for value `v`: the bytes the
Persistable write loop of src/segment.rs stores. -/
def leBytes (n v : Nat) : List Nat :=
  (List.range n).map (fun i => v / 256 ^ i % 256)

/-- Model of the `Persistable::write_bytes` implementations of src/segment.rs:
the loop `buffer[index + i] = (self >> (i << 3)) as u8` for `i in 0..n`.
When there is not enough space the source returns an error `Result`, which
every caller discards, so the observable effect is an unchanged buffer. -/
def writeBytesLE (n v : Nat) (buffer : List Nat) (index : Nat) : List Nat :=
  if buffer.length < index + n then buffer
  else (List.range n).foldl (fun b i => b.set (index + i) ((v >>> (i <<< 3)) % 256)) buffer

/-- Model of the `Persistable::read_bytes` implementations of src/segment.rs:
the loop `result |= next_byte << (i << 3)`, with `none` when there are not
enough readable bytes. -/
def readBytesLE (n : Nat) (buffer : List Nat) (index : Nat) : Option Nat :=
  if buffer.length < index + n then none
  else some ((List.range n).foldl (fun r i => r ||| ((buffer.getD (index + i) 0) <<< (i <<< 3))) 0)

theorem leBytes_length (n v : Nat) : (leBytes n v).length = n := by
  simp [leBytes]

theorem leBytes_lt (n v : Nat) : ∀ b ∈ leBytes n v, b < 256 := by
  intro b hb
  simp only [leBytes, List.mem_map] at hb
  obtain ⟨i, _, rfl⟩ := hb
  exact Nat.mod_lt _ (by norm_num)

theorem leBytes_getD (n v i : Nat) (h : i < n) :
    (leBytes n v).getD i 0 = v / 256 ^ i % 256 := by
  simp [leBytes, List.getD_eq_getElem?_getD, List.getElem?_map, List.getElem?_range h]

/-- The stored byte expression of the source equals the `leBytes` entry. -/
theorem shift_byte_eq (v i : Nat) : (v >>> (i <<< 3)) % 256 = v / 256 ^ i % 256 := by
  rw [Nat.shiftRight_eq_div_pow, Nat.shiftLeft_eq_mul_pow]
  congr 2
  rw [show i * 2 ^ 3 = 8 * i by ring, pow_mul]
  norm_num

theorem set_eq_overwrite (l : List Nat) (k x : Nat) (h : k < l.length) :
    l.set k x = overwrite l k [x] := by
  rw [List.set_eq_take_append_cons_drop, if_pos h, overwrite]
  simp

/-- The write loop is an overwrite with the little-endian bytes. -/
theorem writeBytesLE_eq_overwrite (n v : Nat) (buffer : List Nat) (index : Nat)
    (h : index + n ≤ buffer.length) :
    writeBytesLE n v buffer index = overwrite buffer index (leBytes n v) := by
  induction n with
  | zero =>
    rw [writeBytesLE, if_neg (by omega)]
    simp [leBytes, overwrite]
  | succ n ih =>
    rw [writeBytesLE, if_neg (by omega), List.range_succ, List.foldl_append]
    have hw : (List.range n).foldl
        (fun b i => b.set (index + i) ((v >>> (i <<< 3)) % 256)) buffer =
        overwrite buffer index (leBytes n v) := by
      have h2 := ih (by omega)
      rw [writeBytesLE, if_neg (by omega)] at h2
      exact h2
    rw [hw]
    simp only [List.foldl_cons, List.foldl_nil]
    rw [set_eq_overwrite _ _ _
      (by rw [overwrite_length _ _ _ (by rw [leBytes_length]; omega)]; omega),
      show index + n = index + (leBytes n v).length by rw [leBytes_length],
      overwrite_append _ _ _ _ (by rw [leBytes_length]; omega)]
    congr 1
    rw [leBytes, leBytes, List.range_succ, List.map_append]
    simp [shift_byte_eq]

/-- Disjoint bitwise or is addition. -/
theorem shiftLeft_lor_eq_add (k : Nat) : ∀ y x : Nat, x < 2 ^ k →
    (y <<< k) ||| x = y <<< k + x := by
  induction k with
  | zero =>
    intro y x hx
    have hx0 : x = 0 := by omega
    subst hx0
    simp
  | succ k ih =>
    intro y x hx
    have hd : 2 * Nat.div2 x + (Nat.bodd x).toNat = x := by
      have h1 := Nat.bit_decomp x
      rw [Nat.bit_val] at h1
      omega
    have h2 : y <<< (k + 1) = Nat.bit false (y <<< k) := by
      rw [Nat.bit_val, Nat.shiftLeft_succ]
      simp [Nat.mul_comm]
    have h3 : x = Nat.bit (Nat.bodd x) (Nat.div2 x) := (Nat.bit_decomp x).symm
    rw [h2, h3, Nat.lor_bit]
    have h4 : Nat.div2 x < 2 ^ k := by
      rw [Nat.div2_val]
      rw [pow_succ] at hx
      omega
    rw [ih y (Nat.div2 x) h4]
    cases hb : Nat.bodd x <;> simp [Nat.bit_val] <;> omega

/-- The or-accumulating read loop recovers the little-endian value modulo
the width. -/
theorem readFoldLE (buffer : List Nat) (index v : Nat) :
    ∀ n, (∀ i, i < n → buffer.getD (index + i) 0 = v / 256 ^ i % 256) →
    (List.range n).foldl (fun r i => r ||| ((buffer.getD (index + i) 0) <<< (i <<< 3))) 0 =
      v % 256 ^ n := by
  intro n
  induction n with
  | zero => intro _; simp [Nat.mod_one]
  | succ n ih =>
    intro hb
    rw [List.range_succ, List.foldl_append]
    rw [ih (fun i hi => hb i (by omega))]
    simp only [List.foldl_cons, List.foldl_nil]
    rw [hb n (by omega)]
    have hpow : (2:Nat) ^ (n <<< 3) = 256 ^ n := by
      rw [Nat.shiftLeft_eq_mul_pow, show n * 2 ^ 3 = 8 * n by ring, pow_mul]
      norm_num
    have hlt : v % 256 ^ n < 2 ^ (n <<< 3) := by
      rw [hpow]
      exact Nat.mod_lt _ (pow_pos (by norm_num) n)
    rw [Nat.lor_comm, shiftLeft_lor_eq_add _ _ _ hlt, Nat.shiftLeft_eq_mul_pow, hpow,
        pow_succ, Nat.mod_mul]
    ring

/-- Reading a region that holds the little-endian bytes of `v`. -/
theorem readBytesLE_spec (n : Nat) (buffer : List Nat) (index v : Nat)
    (h : index + n ≤ buffer.length)
    (hb : ∀ i, i < n → buffer.getD (index + i) 0 = v / 256 ^ i % 256) :
    readBytesLE n buffer index = some (v % 256 ^ n) := by
  rw [readBytesLE, if_neg (by omega)]
  rw [readFoldLE buffer index v n hb]

theorem slice_getD (l : List Nat) (a b i : Nat) (hi : i < b - a) :
    (listSlice l a b).getD i 0 = l.getD (a + i) 0 := by
  simp [listSlice, List.getD_eq_getElem?_getD, List.getElem?_take_of_lt hi, List.getElem?_drop]

/-- Reading back a slice that carries a little-endian value. -/
theorem readBytesLE_of_slice (n v : Nat) (buffer : List Nat) (index : Nat)
    (h : index + n ≤ buffer.length)
    (hs : listSlice buffer index (index + n) = leBytes n v) :
    readBytesLE n buffer index = some (v % 256 ^ n) := by
  apply readBytesLE_spec _ _ _ _ h
  intro i hi
  have hg : buffer.getD (index + i) 0 = (listSlice buffer index (index + n)).getD i 0 :=
    (slice_getD buffer index (index + n) i (by omega)).symm
  rw [hg, hs, leBytes_getD _ _ _ hi]

/-- One bit step of the reflected CRC-32 computation with polynomial
0xEDB88320, the IEEE polynomial of the crc crate used by src/segment.rs. -/
def crcStep (c : Nat) : Nat :=
  if c % 2 = 1 then (c / 2) ^^^ 0xEDB88320 else c / 2

/-- Fold one byte into the running CRC state: xor the byte into the low
eight bits, then eight bit steps.  This is the bitwise form of the table
update `table[(value as u8) ^ byte] ^ (value >> 8)` of the crc crate. -/
def crcByte (c b : Nat) : Nat :=
  crcStep^[8] (c ^^^ b % 256)

/-- Model of `calculate_crc` of src/segment.rs: the crc crate CRC-32/IEEE
digest (initial value 0xFFFFFFFF, final complement) over the bytes. -/
def calculate_crc (payload : List Nat) : Nat :=
  (payload.foldl crcByte 0xFFFFFFFF) ^^^ 0xFFFFFFFF

theorem xor_lt_32 (a b : Nat) (ha : a < 2 ^ 32) (hb : b < 2 ^ 32) :
    a ^^^ b < 2 ^ 32 :=
  Nat.xor_lt_two_pow ha hb

theorem crcStep_lt (c : Nat) (h : c < 2 ^ 32) : crcStep c < 2 ^ 32 := by
  rw [crcStep]
  split
  · exact xor_lt_32 _ _ (by omega) (by norm_num)
  · omega

theorem crcIter_lt (k c : Nat) (h : c < 2 ^ 32) : crcStep^[k] c < 2 ^ 32 := by
  induction k generalizing c with
  | zero => simpa
  | succ k ih =>
    rw [Function.iterate_succ_apply]
    exact ih _ (crcStep_lt _ h)

theorem crcByte_lt (c b : Nat) (h : c < 2 ^ 32) : crcByte c b < 2 ^ 32 :=
  crcIter_lt 8 _ (xor_lt_32 _ _ h (lt_trans (Nat.mod_lt _ (by norm_num)) (by norm_num)))

theorem crcFold_lt (l : List Nat) (c : Nat) (h : c < 2 ^ 32) :
    l.foldl crcByte c < 2 ^ 32 := by
  induction l generalizing c with
  | nil => simpa
  | cons x xs ih =>
    rw [List.foldl_cons]
    exact ih _ (crcByte_lt _ _ h)

/-- The computed CRC always fits in 32 bits, so storing it in the four-byte
CRC field and reading it back is lossless. -/
theorem calculate_crc_lt (payload : List Nat) : calculate_crc payload < 2 ^ 32 :=
  xor_lt_32 _ _ (crcFold_lt _ _ (by norm_num)) (by norm_num)

/-- Chunk type tag of src/segment.rs (`Null=0, Full=1, Start=2, Middle=3,
End=4`).  The last constructor is named `fin` because `end` is a reserved
word. -/
inductive ChunkType
  | null
  | full
  | start
  | middle
  | fin
deriving Repr, DecidableEq

/-- Integer encoding `ChunkType as u8` of the source. -/
def ChunkType.toByte : ChunkType → Nat
  | .null => 0
  | .full => 1
  | .start => 2
  | .middle => 3
  | .fin => 4

/-- Model of `ChunkType::from_byte`, which panics on an unknown tag byte. -/
def ChunkType.fromByte (x : Nat) : Option ChunkType :=
  if x = 0 then some .null
  else if x = 1 then some .full
  else if x = 2 then some .start
  else if x = 3 then some .middle
  else if x = 4 then some .fin
  else none

theorem fromByte_toByte (t : ChunkType) : ChunkType.fromByte t.toByte = some t := by
  cases t <;> rfl

/-- Abstract view of one framed chunk: its type tag and payload bytes. -/
structure Chunk where
  ctype : ChunkType
  payload : List Nat
deriving Repr, DecidableEq

/-- The CRC-covered part of a chunk: length field, type byte, payload. -/
def chunkBody (c : Chunk) : List Nat :=
  leBytes 4 c.payload.length ++ [c.ctype.toByte] ++ c.payload

/-- On-disk bytes of a chunk: the CRC field followed by the covered body. -/
def chunkBytes (c : Chunk) : List Nat :=
  leBytes 4 (calculate_crc (chunkBody c)) ++ chunkBody c

/-- Size in bytes of a chunk (header plus payload). -/
def chunkSize (c : Chunk) : Nat := NUM_HEADER_BYTES + c.payload.length

/-- Bytes occupied by a list of chunks packed end to end. -/
def blockUsed (cs : List Chunk) : Nat := (cs.map chunkSize).sum

/-- A rendered on-disk block: the chunks end to end, zero padding to `bs`. -/
def blockBytes (bs : Nat) (cs : List Chunk) : List Nat :=
  (cs.map chunkBytes).flatten ++ List.replicate (bs - blockUsed cs) 0

/-- Rendered bytes of a list of blocks. -/
def renderBlocks (bs : Nat) (L : List (List Chunk)) : List Nat :=
  (L.map (blockBytes bs)).flatten

theorem chunkBody_length (c : Chunk) :
    (chunkBody c).length = 5 + c.payload.length := by
  simp [chunkBody, leBytes_length]
  omega

theorem chunkBytes_length (c : Chunk) : (chunkBytes c).length = chunkSize c := by
  simp [chunkBytes, chunkBody_length, leBytes_length, chunkSize, NUM_HEADER_BYTES]
  omega

theorem chunksJoin_length (cs : List Chunk) :
    ((cs.map chunkBytes).flatten).length = blockUsed cs := by
  induction cs with
  | nil => simp [blockUsed]
  | cons c cs ih =>
    simp only [List.map_cons, List.flatten_cons, List.length_append, ih, blockUsed,
      List.map_cons, List.sum_cons, chunkBytes_length]

theorem blockBytes_length (bs : Nat) (cs : List Chunk) (h : blockUsed cs ≤ bs) :
    (blockBytes bs cs).length = bs := by
  rw [blockBytes, List.length_append, chunksJoin_length, List.length_replicate]
  omega

theorem renderBlocks_nil (bs : Nat) : renderBlocks bs [] = [] := by
  simp [renderBlocks]

theorem renderBlocks_append (bs : Nat) (L1 L2 : List (List Chunk)) :
    renderBlocks bs (L1 ++ L2) = renderBlocks bs L1 ++ renderBlocks bs L2 := by
  simp [renderBlocks]

theorem renderBlocks_length (bs : Nat) (L : List (List Chunk))
    (h : ∀ cs ∈ L, blockUsed cs ≤ bs) :
    (renderBlocks bs L).length = L.length * bs := by
  induction L with
  | nil => simp [renderBlocks]
  | cons cs L ih =>
    simp only [renderBlocks, List.map_cons, List.flatten_cons, List.length_append]
    rw [show ((L.map (blockBytes bs)).flatten).length = (renderBlocks bs L).length from rfl,
        ih (fun c hc => h c (List.mem_cons_of_mem _ hc)),
        blockBytes_length bs cs (h cs (List.mem_cons_self _ _))]
    simp [List.length_cons]
    ring

/-- In-memory segment descriptor of src/segment.rs. -/
structure SegmentInfo where
  path : String
  index : Nat
  buffer_size : Nat
  start_offset : Nat
  next_offset : Nat
deriving Repr, DecidableEq

/-- Model of `SegmentInfo::new`, which starts with `next_offset =
start_offset`. -/
def SegmentInfo.new (path : String) (index : Nat) (start_offset : Nat)
    (buffer_size : Nat) : SegmentInfo :=
  { path := path, index := index, buffer_size := buffer_size,
    start_offset := start_offset, next_offset := start_offset }

/-- Failure modes of the writer; the source panics instead of returning. -/
inductive WError
  | emptyMessage
deriving Repr, DecidableEq

/-- Model of the segment writer of src/segment.rs.  The owned file handle is
modelled by the file bytes plus the cursor position `pos`. -/
structure SegmentWriter where
  segment_info : SegmentInfo
  file : List Nat
  pos : Nat
  write_buffer : List Nat
  buffer_offset : Nat
  num_payload_bytes_per_chunk : Nat
deriving Repr, DecidableEq

/-- Model of `SegmentWriter::new`; `File::create` truncates, so the file
starts empty with the cursor at 0. -/
def SegmentWriter.new (segment_info : SegmentInfo) : SegmentWriter :=
  { segment_info := segment_info
    file := []
    pos := 0
    write_buffer := List.replicate segment_info.buffer_size 0
    buffer_offset := 0
    num_payload_bytes_per_chunk := segment_info.buffer_size - NUM_HEADER_BYTES }

/-- Model of `buffer_payload_capacity` of src/segment.rs. -/
def SegmentWriter.buffer_payload_capacity (w : SegmentWriter) : Nat :=
  let num_used_bytes := w.buffer_offset + NUM_HEADER_BYTES
  if w.write_buffer.length ≤ num_used_bytes then 0
  else w.write_buffer.length - num_used_bytes

def SegmentWriter.is_buffer_hungry (w : SegmentWriter) : Bool :=
  decide (0 < w.buffer_payload_capacity)

def SegmentWriter.is_buffer_clean (w : SegmentWriter) : Bool :=
  decide (w.buffer_offset = 0)

def SegmentWriter.is_buffer_dirty (w : SegmentWriter) : Bool :=
  !w.is_buffer_clean

/-- Model of `seek_buffer_start`: when the trailing block is dirty, seek the
cursor back one block so the next write rewrites it in place. -/
def SegmentWriter.seek_buffer_start (w : SegmentWriter) : SegmentWriter :=
  if w.is_buffer_dirty then { w with pos := w.pos - w.write_buffer.length } else w

/-- Model of `num_chunks`: `(len + per_chunk - 1) / per_chunk`. -/
def SegmentWriter.num_chunks (w : SegmentWriter) (payload : List Nat) : Nat :=
  (payload.length + w.num_payload_bytes_per_chunk - 1) / w.num_payload_bytes_per_chunk

/-- Model of `clear_buffer`: zero the block buffer, reset `buffer_offset`. -/
def SegmentWriter.clear_buffer (w : SegmentWriter) : SegmentWriter :=
  { w with write_buffer := List.replicate w.write_buffer.length 0, buffer_offset := 0 }

/-- Model of `SegmentWriter::write`: `write_all` of the whole block buffer at
the cursor. -/
def SegmentWriter.write (w : SegmentWriter) : SegmentWriter :=
  { w with file := overwrite w.file w.pos w.write_buffer,
           pos := w.pos + w.write_buffer.length }

/-- Byte-copy loop `buffer[offset + i] = payload[i]` of `write_chunk`. -/
def listBlit : List Nat → Nat → List Nat → List Nat
  | buf, _, [] => buf
  | buf, start, x :: xs => listBlit (buf.set start x) (start + 1) xs

/-- The type-tag selection of `write_chunk` as a function of the chunk
index within its message and the total chunk count. -/
def chunkTypeOf (chunk_index num_chunks : Nat) : ChunkType :=
  if chunk_index = 0 ∧ num_chunks = 1 then .full
  else if chunk_index = 0 then .start
  else if chunk_index + 1 = num_chunks then .fin
  else .middle

/-- Model of `SegmentWriter::write_chunk`: fill in the length field, type
tag, payload bytes and CRC at `buffer_offset`, write the whole block buffer
to the file, and advance `buffer_offset` to the end of the chunk. -/
def SegmentWriter.write_chunk (w : SegmentWriter) (payload : List Nat)
    (chunk_index num_chunks : Nat) : SegmentWriter :=
  let num_chunk_bytes := payload.length + NUM_HEADER_BYTES
  let chunk_end := w.buffer_offset + num_chunk_bytes
  let buf1 := writeBytesLE 4 payload.length w.write_buffer (w.buffer_offset + LEN_OFFSET)
  let tb : ChunkType := chunkTypeOf chunk_index num_chunks
  let buf2 := buf1.set (w.buffer_offset + TYPE_OFFSET) tb.toByte
  let buf3 := listBlit buf2 (w.buffer_offset + PAYLOAD_OFFSET) payload
  let crc_start := w.buffer_offset + LEN_OFFSET
  let record_crc := calculate_crc (listSlice buf3 crc_start chunk_end)
  let buf4 := writeBytesLE 4 record_crc buf3 (w.buffer_offset + CRC_OFFSET)
  let w2 := SegmentWriter.write { w with write_buffer := buf4 }
  { w2 with buffer_offset := chunk_end }

/-- Fuel-driven model of Rust `slice::chunks`: split into pieces of `n`
bytes each, the last piece possibly shorter.  The fuel (`l.length` at the
top-level call) suffices whenever `0 < n`. -/
def listChunksAux (n : Nat) : Nat → List Nat → List (List Nat)
  | 0, _ => []
  | fuel + 1, l =>
    if n = 0 then []
    else if l.isEmpty then []
    else l.take n :: listChunksAux n fuel (l.drop n)

/-- Rust `remaining_payload.chunks(num_payload_bytes_per_chunk)`. -/
def listChunks (n : Nat) (l : List Nat) : List (List Nat) :=
  listChunksAux n l.length l

/-- The `while let Some((i, next_chunk)) = chunks_iter.next()` loop of
`write_payload`: clear the buffer and write each remaining chunk. -/
def SegmentWriter.writeChunksLoop (w : SegmentWriter) :
    List (List Nat) → Nat → Nat → Nat → SegmentWriter
  | [], _, _, _ => w
  | c :: cs, i, num_pre_chunks, num_chunks =>
      SegmentWriter.writeChunksLoop
        ((w.clear_buffer).write_chunk c (i + num_pre_chunks) num_chunks)
        cs (i + 1) num_pre_chunks num_chunks

/-- Model of `SegmentWriter::write_payload`.  The source panics on an empty
payload before touching any state; the model returns `emptyMessage`.  The
`flush`/`sync_all` at the end of the source only affect durability, which the
byte-list file model renders as the identity. -/
def SegmentWriter.write_payload (w : SegmentWriter) (payload : List Nat) :
    Except WError SegmentWriter :=
  if payload.length = 0 then .error .emptyMessage
  else
    let step1 :=
      if w.is_buffer_hungry && w.is_buffer_dirty then
        let open_buffer_size := w.buffer_payload_capacity
        let ws := w.seek_buffer_start
        if payload.length ≤ open_buffer_size then
          (ws.write_chunk payload 0 1, ([] : List Nat), 1)
        else
          (ws.write_chunk (payload.take open_buffer_size) 0 2,
           payload.drop open_buffer_size, 1)
      else (w, payload, 0)
    let w1 := step1.1
    let remaining := step1.2.1
    let num_pre_chunks := step1.2.2
    if 0 < remaining.length then
      let num_chunks := num_pre_chunks + w1.num_chunks remaining
      .ok (SegmentWriter.writeChunksLoop w1
        (listChunks w1.num_payload_bytes_per_chunk remaining) 0 num_pre_chunks num_chunks)
    else .ok w1

/-- Model of `SegmentWriter::append`: write the payload, then advance
`next_offset`. -/
def SegmentWriter.append (w : SegmentWriter) (payload : List Nat) :
    Except WError SegmentWriter :=
  (w.write_payload payload).map fun w1 =>
    { w1 with segment_info := { w1.segment_info with
        next_offset := w1.segment_info.next_offset + 1 } }

def SegmentWriter.segment_info_snapshot (w : SegmentWriter) : SegmentInfo :=
  w.segment_info

/-- Model of `append_footer` of src/segment.rs: fill the 33-byte footer
(magic, then index, buffer size, start offset and next offset as

little-endian u64 fields). -/
def SegmentWriter.append_footer (w : SegmentWriter) (buffer : List Nat) : List Nat :=
  let b1 := writeBytesLE 1 FOOTER_MAGIC_BYTE buffer FOOTER_MAGIC_OFFSET
  let b2 := writeBytesLE 8 w.segment_info.index b1 FOOTER_INDEX_OFFSET
  let b3 := writeBytesLE 8 w.segment_info.buffer_size b2 FOOTER_BUFFER_SIZE_OFFSET
  let b4 := writeBytesLE 8 w.segment_info.start_offset b3 FOOTER_START_INDEX_OFFSET
  writeBytesLE 8 w.segment_info.next_offset b4 FOOTER_NEXT_INDEX_OFFSET

/-- Model of `write_footer` (run by `Drop`): append the footer at the cursor
and flush. -/
def SegmentWriter.write_footer (w : SegmentWriter) : SegmentWriter :=
  let footer := w.append_footer (List.replicate FOOTER_BYTE_COUNT 0)
  { w with file := overwrite w.file w.pos footer, pos := w.pos + footer.length }

/-- Model of `SegmentInfo::from_file`: seek to 33 bytes before the end (the
source panics when that fails), read the footer, check the magic byte
(panic `Magic byte is missing!` modelled as `none`), and deserialize the
four little-endian u64 fields. -/
def SegmentInfo.from_file (path : String) (file : List Nat) : Option SegmentInfo :=
  if file.length < FOOTER_BYTE_COUNT then none
  else
    let footer_bytes := listSlice file (file.length - FOOTER_BYTE_COUNT) file.length
    match readBytesLE 1 footer_bytes FOOTER_MAGIC_OFFSET with
    | none => none
    | some m =>
      if m ≠ FOOTER_MAGIC_BYTE then none
      else
        match readBytesLE 8 footer_bytes FOOTER_INDEX_OFFSET,
              readBytesLE 8 footer_bytes FOOTER_BUFFER_SIZE_OFFSET,
              readBytesLE 8 footer_bytes FOOTER_START_INDEX_OFFSET,
              readBytesLE 8 footer_bytes FOOTER_NEXT_INDEX_OFFSET with
        | some idx, some bsz, some so, some no =>
            some { path := path, index := idx, buffer_size := bsz,
                   start_offset := so, next_offset := no }
        | _, _, _, _ => none

/-- Model of the segment iterator of src/segment.rs.  The read-only file
handle is modelled by passing the current file bytes to each operation and
keeping the cursor `pos` in the state; the writer may grow the file between
calls, which is why `file` is an argument rather than a field. -/
structure SegmentIterator where
  pos : Nat
  buffer : List Nat
  offset : Nat
deriving Repr, DecidableEq

/-- Model of `SegmentIterator::new`: zeroed buffer, `offset = buffer_size`
(exhausted), cursor at the start of the file. -/
def SegmentIterator.new (buffer_size : Nat) : SegmentIterator :=
  { pos := 0, buffer := List.replicate buffer_size 0, offset := buffer_size }

/-- Model of `SegmentInfo::iter`. -/
def SegmentInfo.iter (info : SegmentInfo) : SegmentIterator :=
  SegmentIterator.new info.buffer_size

/-- Model of `is_stale`: the type byte of the chunk at `offset` is `Null`
(`from_byte` panics on an unknown tag, modelled as `none`). -/
def SegmentIterator.is_stale (it : SegmentIterator) : Option Bool :=
  (ChunkType.fromByte (it.buffer.getD (it.offset + TYPE_OFFSET) 0)).map
    (fun t => decide (t = ChunkType.null))

/-- Model of `is_buffer_exhausted`: `offset + NUM_HEADER_BYTES >= buffer.len()`. -/
def SegmentIterator.is_buffer_exhausted (it : SegmentIterator) : Bool :=
  decide (it.buffer.length ≤ it.offset + NUM_HEADER_BYTES)

/-- Model of `load_buffer`: `read_exact` of one block at the cursor.  On
success the cursor advances and `offset` resets; on failure (fewer than a
block of bytes remains) the state is unchanged.  (A failed `read_exact` may
consume the remaining tail of the file; every later read then fails too, so
modelling the failure as consuming nothing is observationally equal.) -/
def SegmentIterator.load_buffer (file : List Nat) (it : SegmentIterator) :
    SegmentIterator × Bool :=
  if it.pos + it.buffer.length ≤ file.length then
    ({ it with buffer := listSlice file it.pos (it.pos + it.buffer.length),
               pos := it.pos + it.buffer.length, offset := 0 }, true)
  else (it, false)

/-- Model of `reload_buffer`: seek back one block and re-read it, leaving
the cursor where it was.  The source `expect`s both file operations, so
their failure is a panic (`none`). -/
def SegmentIterator.reload_buffer (file : List Nat) (it : SegmentIterator) :
    Option SegmentIterator :=
  if it.buffer.length ≤ it.pos ∧ it.pos ≤ file.length then
    some { it with buffer := listSlice file (it.pos - it.buffer.length) it.pos }
  else none

/-- Model of `ensure_buffer_loaded`. -/
def SegmentIterator.ensure_buffer_loaded (file : List Nat) (it : SegmentIterator) :
    SegmentIterator × Bool :=
  if it.is_buffer_exhausted then it.load_buffer file else (it, true)

/-- Model of the free function `read_message` of src/segment.rs: parse the
chunk at `offset`, verify its CRC (`panic!("Invalid crc")` modelled as
`none`), and append its payload bytes to the accumulator.  Returns the chunk
type and the offset just past the chunk. -/
def read_message (buffer : List Nat) (offset : Nat) (payload : List Nat) :
    Option (ChunkType × Nat × List Nat) :=
  match ChunkType.fromByte (buffer.getD (offset + TYPE_OFFSET) 0) with
  | none => none
  | some chunk_type =>
    if chunk_type = ChunkType.null then some (chunk_type, offset, payload)
    else
      match readBytesLE 4 buffer (offset + LEN_OFFSET) with
      | none => none
      | some payload_size =>
        let payload_start := offset + PAYLOAD_OFFSET
        let payload_end := offset + PAYLOAD_OFFSET + payload_size
        let expected_crc :=
          calculate_crc (listSlice buffer (offset + LEN_OFFSET) payload_end)
        match readBytesLE 4 buffer (offset + CRC_OFFSET) with
        | none => none
        | some actual_crc =>
          if expected_crc ≠ actual_crc then none
          else some (chunk_type, payload_end,
                     payload ++ listSlice buffer payload_start payload_end)

/-- The `loop` of `SegmentIterator::next`, with fuel; exhausted fuel models
divergence (which the source exhibits only for block sizes below the header
size).  The outer `none` is a panic; `(it, none)` is end of stream. -/
def SegmentIterator.nextLoop (file : List Nat) :
    Nat → SegmentIterator → List Nat → Option (SegmentIterator × Option (List Nat))
  | 0, _, _ => none
  | fuel + 1, it, payload =>
    match it.ensure_buffer_loaded file with
    | (it1, false) => some (it1, none)
    | (it1, true) =>
      match read_message it1.buffer it1.offset payload with
      | none => none
      | some (chunk_type, offset, payload1) =>
        let it2 := { it1 with offset := offset }
        match chunk_type with
        | .full => some (it2, some payload1)
        | .fin => some (it2, some payload1)
        | .null => some (it2, none)
        | .start => SegmentIterator.nextLoop file fuel it2 payload1
        | .middle => SegmentIterator.nextLoop file fuel it2 payload1

/-- Model of `SegmentIterator::next`: the stale-trailing-block re-read
protocol, then the chunk loop. -/
def SegmentIterator.next (file : List Nat) (it : SegmentIterator) :
    Option (SegmentIterator × Option (List Nat)) :=
  let fuel := file.length + it.buffer.length + 2
  if !it.is_buffer_exhausted then
    match it.is_stale with
    | none => none
    | some true =>
      match it.reload_buffer file with
      | none => none
      | some it1 =>
        match it1.is_stale with
        | none => none
        | some true => some (it1, none)
        | some false => SegmentIterator.nextLoop file fuel it1 []
    | some false => SegmentIterator.nextLoop file fuel it []
  else SegmentIterator.nextLoop file fuel it []

/-- A minimal file system: an association list from path to file bytes
(newest entry first). -/
structure Fs where
  files : List (String × List Nat)
deriving Repr, DecidableEq

def Fs.empty : Fs := { files := [] }

/-- Read a file; `none` models `File::open` panicking on a missing path. -/
def Fs.read (fs : Fs) (path : String) : Option (List Nat) :=
  (fs.files.find? (fun e => e.1 == path)).map (fun e => e.2)

/-- Create or overwrite a file. -/
def Fs.write (fs : Fs) (path : String) (contents : List Nat) : Fs :=
  { files := (path, contents) :: fs.files }

/-- Model of the topic iterator of src/topic.rs: the queue of remaining
segments and the current per-segment iterator, paired with the descriptor
whose file the open handle reads. -/
structure TopicIterator where
  segments : List SegmentInfo
  segment_iter : Option (SegmentInfo × SegmentIterator)
deriving Repr, DecidableEq

def TopicIterator.new (segments : List SegmentInfo) : TopicIterator :=
  { segments := segments, segment_iter := none }

/-- The pop-front branch of `TopicIterator::next`: open an iterator on the
next queued segment (if any) and return that iterator's first result.  When
the queue is empty the current (exhausted) iterator is left in place, as in
the source. -/
def TopicIterator.advance (fs : Fs) (ti : TopicIterator) :
    Option (TopicIterator × Option (List Nat)) :=
  match ti.segments with
  | [] => some (ti, none)
  | seg :: rest =>
    match fs.read seg.path with
    | none => none
    | some file =>
      match (seg.iter).next file with
      | none => none
      | some (it1, msg) =>
          some ({ segments := rest, segment_iter := some (seg, it1) }, msg)

/-- Model of `TopicIterator::next`: drive the current segment iterator; when
it yields nothing, pop the next segment and yield its first message. -/
def TopicIterator.next (fs : Fs) (ti : TopicIterator) :
    Option (TopicIterator × Option (List Nat)) :=
  match ti.segment_iter with
  | some (info, it) =>
    match fs.read info.path with
    | none => none
    | some file =>
      match it.next file with
      | none => none
      | some (it1, some value) =>
          some ({ ti with segment_iter := some (info, it1) }, some value)
      | some (it1, none) =>
          TopicIterator.advance fs { ti with segment_iter := some (info, it1) }
  | none => TopicIterator.advance fs ti

/-- Model of the topic of src/topic.rs. -/
structure Topic where
  dir : String
  segments : List SegmentInfo
  open_segment : Option SegmentWriter
  buffer_size : Nat
deriving Repr, DecidableEq

/-- Digit-string parse standing for `str::parse::<usize>` (whose `unwrap`
in the source makes a non-numeric suffix a panic; `parse` also accepts a
leading `+`, which no file the engine ever writes has). -/
def parseNatAux : List Char → Nat → Option Nat
  | [], acc => some acc
  | c :: cs, acc =>
    if c.isDigit then parseNatAux cs (acc * 10 + (c.toNat - 48)) else none

/-- Parse a non-empty all-digit character list as a natural number. -/
def parseNatDigits : List Char → Option Nat
  | [] => none
  | c :: cs => parseNatAux (c :: cs) 0

/-- Model of `file_name_str.replace("segment_", "")`: remove every
occurrence of the pattern, scanning left to right. -/
def stripSegmentMarker : List Char → List Char
  | 's' :: 'e' :: 'g' :: 'm' :: 'e' :: 'n' :: 't' :: '_' :: rest =>
      stripSegmentMarker rest
  | c :: rest => c :: stripSegmentMarker rest
  | [] => []

/-- Model of the directory scan of `Topic::new` (src/topic.rs lines 57-77):
for each entry name, skip names not starting with `segment_`, panic
(`none`) when the remaining text does not parse as a number, and otherwise
record a fresh `SegmentInfo` in enumeration order.  The source builds the
descriptor with `SegmentInfo::new(&path, offset, buffer_size)` — three
arguments for the four-parameter `SegmentInfo::new(path, index,
start_offset, buffer_size)`, so the crate as given does not type-check; the
model keeps the information the call provides and leaves both offsets at
zero.  No footer is read on this path. -/
def Topic.scanSegments (dir : String) (buffer_size : Nat) :
    List String → Option (List SegmentInfo)
  | [] => some []
  | name :: rest =>
    if ("segment_".data).isPrefixOf name.data then
      match parseNatDigits (stripSegmentMarker name.data) with
      | none => none
      | some offset =>
        (Topic.scanSegments dir buffer_size rest).map
          (fun l => SegmentInfo.mk (dir ++ "/" ++ name) offset buffer_size 0 0 :: l)
    else Topic.scanSegments dir buffer_size rest

/-- Model of `Topic::new` over an existing directory, abstracted over the
names `read_dir` enumerates, in its (unspecified) enumeration order. -/
def Topic.new (dir : String) (buffer_size : Nat) (entries : List String) :
    Option Topic :=
  (Topic.scanSegments dir buffer_size entries).map
    (fun segs => { dir := dir, segments := segs, open_segment := none,
                   buffer_size := buffer_size })

/-- Model of `Topic::new` on a fresh directory (no prior segment files). -/
def Topic.newFresh (dir : String) (buffer_size : Nat) : Topic :=
  { dir := dir, segments := [], open_segment := none, buffer_size := buffer_size }

/-- Decimal digits of `n` (fuel-driven so the definition reduces). -/
def natDigitsAux : Nat → Nat → List Char
  | 0, _ => []
  | fuel + 1, n =>
    if n < 10 then [Nat.digitChar n]
    else natDigitsAux fuel (n / 10) ++ [Nat.digitChar (n % 10)]

def natDigits (n : Nat) : List Char := natDigitsAux (n + 1) n

/-- Model of `format!("segment_{:09}", next_offset)` without the fixed text:
the decimal digits of the index, zero-padded on the left to a minimum width
of nine characters. -/
def pad9 (n : Nat) : String :=
  if n < 1000000000 then
    String.mk ((List.range 9).map (fun i => Nat.digitChar (n / 10 ^ (8 - i) % 10)))
  else String.mk (natDigits n)

/-- Total messages in the closed segments.  Modelled from the spec:
"start_offset = accumulated_prior_messages" (spec §4.5 Produce); the source
supplies no start offset at all — `Topic::produce` calls
`SegmentInfo::new(&path, next_offset, self.buffer_size)` with three
arguments against the four-parameter signature, so the crate does not
type-check. -/
def Topic.accumulatedPriorMessages (t : Topic) : Nat :=
  (t.segments.map (fun s => s.next_offset - s.start_offset)).sum

/-- Model of `Topic::produce`: when no segment is open, create one whose
index is one past the last segment (0 for none) at path
`segment_{index:09}`, with the spec-modelled start offset; then delegate the
append to the open writer. -/
def Topic.produce (t : Topic) (message : List Nat) : Except WError Topic :=
  let w :=
    match t.open_segment with
    | some w => w
    | none =>
      let next_offset := (t.segments.getLast?.map (fun (s : SegmentInfo) => s.index + 1)).getD 0
      let path := t.dir ++ "/" ++ ("segment_" ++ pad9 next_offset)
      let segment_info :=
        SegmentInfo.new path next_offset t.accumulatedPriorMessages t.buffer_size
      SegmentWriter.new segment_info
  (w.append message).map (fun w1 => { t with open_segment := some w1 })

/-- Model of `Topic::close`: take the open writer if any; dropping it writes
the footer into the segment file, and the snapshot of its `SegmentInfo` is
pushed onto the closed-segment list. -/
def Topic.close (t : Topic) (fs : Fs) : Topic × Fs :=
  match t.open_segment with
  | none => (t, fs)
  | some w =>
    let snapshot := w.segment_info_snapshot
    let w1 := w.write_footer
    ({ t with open_segment := none, segments := t.segments ++ [snapshot] },
     fs.write w1.segment_info.path w1.file)

/-- Model of `Topic::iter`: queue up the closed segments in list order. -/
def Topic.iter (t : Topic) : TopicIterator :=
  TopicIterator.new t.segments

/-- Repeated `Topic::produce` over a list of messages. -/
def Topic.produceAll (t : Topic) : List (List Nat) → Except WError Topic
  | [] => .ok t
  | m :: ms => (t.produce m).bind (fun t1 => t1.produceAll ms)

/-- Drive a topic iterator, collecting the messages it yields until the
first `None`; `none` when a panic occurs or the fuel runs out first. -/
def TopicIterator.collect (fs : Fs) : Nat → TopicIterator → Option (List (List Nat))
  | 0, _ => none
  | fuel + 1, ti =>
    match ti.next fs with
    | none => none
    | some (_, none) => some []
    | some (ti1, some m) => (TopicIterator.collect fs fuel ti1).map (fun l => m :: l)

/-- Ceiling division `(len + n - 1) / n` of `num_chunks`. -/
def chunksCeil (n len : Nat) : Nat := (len + n - 1) / n

/-- Abstract layout of the fresh-block loop of `write_payload`: each
remaining piece becomes a new block holding a single chunk whose tag
follows `chunkTypeOf`. -/
def packPieces (num_chunks : Nat) : Nat → List (List Nat) → List (List Chunk)
  | _, [] => []
  | ci, p :: ps =>
      [Chunk.mk (chunkTypeOf ci num_chunks) p] :: packPieces num_chunks (ci + 1) ps

/-- Apply `f` to the final block of a layout. -/
def modifyLastBlock (f : List Chunk → List Chunk) : List (List Chunk) → List (List Chunk)
  | [] => []
  | [b] => [f b]
  | b :: rest => b :: modifyLastBlock f rest

/-- Abstract per-message packing: the block layout `write_payload` leaves
behind, read off from its control flow — a tail fill of the trailing block
when it is dirty and hungry, then fresh single-chunk blocks. -/
def packMsg (bs : Nat) (L : List (List Chunk)) (m : List Nat) : List (List Chunk) :=
  let u := blockUsed (L.getLast?.getD [])
  if 0 < u ∧ u + NUM_HEADER_BYTES < bs then
    let cap := bs - u - NUM_HEADER_BYTES
    if m.length ≤ cap then
      modifyLastBlock (fun cs => cs ++ [Chunk.mk .full m]) L
    else
      let rest := m.drop cap
      let total := 1 + chunksCeil (bs - NUM_HEADER_BYTES) rest.length
      modifyLastBlock (fun cs => cs ++ [Chunk.mk .start (m.take cap)]) L ++
        packPieces total 1 (listChunks (bs - NUM_HEADER_BYTES) rest)
  else
    L ++ packPieces (chunksCeil (bs - NUM_HEADER_BYTES) m.length) 0
      (listChunks (bs - NUM_HEADER_BYTES) m)

/-- Layout after packing a message sequence into a fresh segment. -/
def packAll (bs : Nat) (ms : List (List Nat)) : List (List Chunk) :=
  ms.foldl (packMsg bs) []

theorem listChunksAux_succ (n fuel : Nat) (l : List Nat) :
    listChunksAux n (fuel + 1) l =
      if n = 0 then []
      else if l.isEmpty then []
      else l.take n :: listChunksAux n fuel (l.drop n) := rfl

theorem listChunksAux_nil (n fuel : Nat) : listChunksAux n fuel [] = [] := by
  cases fuel with
  | zero => rfl
  | succ f => rw [listChunksAux_succ]; simp

/-- The fuel of `listChunksAux` does not matter once it covers the length. -/
theorem listChunksAux_fuel (n : Nat) :
    ∀ fuel l, l.length ≤ fuel → listChunksAux n fuel l = listChunksAux n l.length l := by
  intro fuel
  induction fuel using Nat.strong_induction_on with
  | _ fuel ih =>
    intro l hl
    rcases eq_or_ne l [] with rfl | hne
    · rw [listChunksAux_nil, List.length_nil, listChunksAux_nil]
    · have hlen : 0 < l.length := List.length_pos.mpr hne
      obtain ⟨f, hf⟩ : ∃ f, fuel = f + 1 := ⟨fuel - 1, by omega⟩
      obtain ⟨k, hk⟩ : ∃ k, l.length = k + 1 := ⟨l.length - 1, by omega⟩
      rcases Nat.eq_zero_or_pos n with rfl | hn
      · simp [hf, hk, listChunksAux_succ]
      · have hnn : ¬ (n = 0) := by omega
        have hie : ¬ (l.isEmpty = true) := by
          simp only [List.isEmpty_iff]
          exact hne
        rw [hf, hk, listChunksAux_succ, listChunksAux_succ,
            if_neg hnn, if_neg hnn, if_neg hie, if_neg hie]
        have hdf : (l.drop n).length ≤ f := by
          rw [List.length_drop]; omega
        have hdk : (l.drop n).length ≤ k := by
          rw [List.length_drop]; omega
        rw [ih f (by omega) (l.drop n) hdf, ih k (by omega) (l.drop n) hdk]

theorem listChunks_nil (n : Nat) : listChunks n [] = [] := rfl

/-- Unfolding of `listChunks` on a non-empty list. -/
theorem listChunks_cons_eq (n : Nat) (hn : 0 < n) (l : List Nat) (hl : l ≠ []) :
    listChunks n l = l.take n :: listChunks n (l.drop n) := by
  have hpos : 0 < l.length := List.length_pos.mpr hl
  obtain ⟨k, hk⟩ : ∃ k, l.length = k + 1 := ⟨l.length - 1, by omega⟩
  have hnn : ¬ (n = 0) := by omega
  have hie : ¬ (l.isEmpty = true) := by
    simp only [List.isEmpty_iff]
    exact hl
  rw [listChunks, hk, listChunksAux_succ, if_neg hnn, if_neg hie,
      listChunks, listChunksAux_fuel n k (l.drop n) (by rw [List.length_drop]; omega)]

theorem listChunks_flatten_aux (n : Nat) (hn : 0 < n) :
    ∀ bound l, l.length ≤ bound → (listChunks n l).flatten = l := by
  intro bound
  induction bound with
  | zero =>
    intro l hl
    have h0 : l = [] := List.length_eq_zero.mp (by omega)
    subst h0
    rfl
  | succ b ih =>
    intro l hl
    rcases eq_or_ne l [] with rfl | hne
    · rfl
    · have hpos : 0 < l.length := List.length_pos.mpr hne
      rw [listChunks_cons_eq n hn l hne, List.flatten_cons,
          ih (l.drop n) (by rw [List.length_drop]; omega)]
      exact List.take_append_drop n l

/-- Rust `chunks` pieces concatenate back to the original slice. -/
theorem listChunks_flatten (n : Nat) (hn : 0 < n) (l : List Nat) :
    (listChunks n l).flatten = l :=
  listChunks_flatten_aux n hn l.length l (le_refl _)

theorem listChunks_length_aux (n : Nat) (hn : 0 < n) :
    ∀ bound l, l.length ≤ bound → (listChunks n l).length = chunksCeil n l.length := by
  intro bound
  induction bound with
  | zero =>
    intro l hl
    have h0 : l = [] := List.length_eq_zero.mp (by omega)
    subst h0
    rw [listChunks_nil, chunksCeil, List.length_nil, List.length_nil,
        Nat.div_eq_of_lt (by omega : 0 + n - 1 < n)]
  | succ b ih =>
    intro l hl
    rcases eq_or_ne l [] with rfl | hne
    · rw [listChunks_nil, chunksCeil, List.length_nil, List.length_nil,
          Nat.div_eq_of_lt (by omega : 0 + n - 1 < n)]
    · have hpos : 0 < l.length := List.length_pos.mpr hne
      rw [listChunks_cons_eq n hn l hne, List.length_cons,
          ih (l.drop n) (by rw [List.length_drop]; omega),
          List.length_drop, chunksCeil, chunksCeil]
      rcases Nat.le_total l.length n with hle | hgt
      · have h1 : l.length - n = 0 := by omega
        rw [h1, Nat.div_eq_of_lt (by omega : 0 + n - 1 < n)]
        rw [Nat.div_eq_of_lt_le (by omega : 1 * n ≤ l.length + n - 1)
            (by omega : l.length + n - 1 < (1 + 1) * n)]
      · rw [show l.length + n - 1 = (l.length - 1) + n by omega,
            Nat.add_div_right _ hn,
            show l.length - n + n - 1 = l.length - 1 by omega]

/-- The number of pieces `chunks` yields is the ceiling division that
`num_chunks` computes. -/
theorem listChunks_length (n : Nat) (hn : 0 < n) (l : List Nat) :
    (listChunks n l).length = chunksCeil n l.length :=
  listChunks_length_aux n hn l.length l (le_refl _)

theorem listChunks_piece_bounds_aux (n : Nat) (hn : 0 < n) :
    ∀ bound l, l.length ≤ bound →
      ∀ p ∈ listChunks n l, 1 ≤ p.length ∧ p.length ≤ n := by
  intro bound
  induction bound with
  | zero =>
    intro l hl p hp
    have h0 : l = [] := List.length_eq_zero.mp (by omega)
    subst h0
    simp [listChunks_nil] at hp
  | succ b ih =>
    intro l hl p hp
    rcases eq_or_ne l [] with rfl | hne
    · simp [listChunks_nil] at hp
    · have hpos : 0 < l.length := List.length_pos.mpr hne
      rw [listChunks_cons_eq n hn l hne] at hp
      rcases List.mem_cons.mp hp with rfl | hp2
      · constructor
        · rw [List.length_take]; omega
        · rw [List.length_take]; omega
      · exact ih (l.drop n) (by rw [List.length_drop]; omega) p hp2

/-- Every `chunks` piece is non-empty and at most `n` bytes. -/
theorem listChunks_piece_bounds (n : Nat) (hn : 0 < n) (l : List Nat) :
    ∀ p ∈ listChunks n l, 1 ≤ p.length ∧ p.length ≤ n :=
  listChunks_piece_bounds_aux n hn l.length l (le_refl _)

theorem listChunks_full_aux (n : Nat) (hn : 0 < n) :
    ∀ bound l, l.length ≤ bound →
      ∀ i, i + 1 < (listChunks n l).length →
        ((listChunks n l).getD i []).length = n := by
  intro bound
  induction bound with
  | zero =>
    intro l hl i hi
    have h0 : l = [] := List.length_eq_zero.mp (by omega)
    subst h0
    simp [listChunks_nil] at hi
  | succ b ih =>
    intro l hl i hi
    rcases eq_or_ne l [] with rfl | hne
    · simp [listChunks_nil] at hi
    · have hpos : 0 < l.length := List.length_pos.mpr hne
      rw [listChunks_cons_eq n hn l hne] at hi ⊢
      cases i with
      | zero =>
        have hrest : listChunks n (l.drop n) ≠ [] := by
          intro h0
          rw [List.length_cons, h0] at hi
          simp at hi
        have hdrop : l.drop n ≠ [] := by
          intro h0
          rw [h0, listChunks_nil] at hrest
          exact hrest rfl
        have : n < l.length := by
          by_contra hcon
          exact hdrop (List.drop_eq_nil_of_le (by omega))
        simp only [List.getD_cons_zero, List.length_take]
        omega
      | succ i =>
        simp only [List.getD_cons_succ]
        rw [List.length_cons] at hi
        exact ih (l.drop n) (by rw [List.length_drop]; omega) i (by omega)

/-- Every `chunks` piece except the last has exactly `n` bytes. -/
theorem listChunks_full (n : Nat) (hn : 0 < n) (l : List Nat) :
    ∀ i, i + 1 < (listChunks n l).length →
      ((listChunks n l).getD i []).length = n :=
  listChunks_full_aux n hn l.length l (le_refl _)

theorem listBlit_eq_overwrite :
    ∀ (data buf : List Nat) (start : Nat), start + data.length ≤ buf.length →
      listBlit buf start data = overwrite buf start data := by
  intro data
  induction data with
  | nil =>
    intro buf start h
    rw [overwrite_nil]
    rfl
  | cons x xs ih =>
    intro buf start h
    simp only [List.length_cons] at h
    show listBlit (buf.set start x) (start + 1) xs = overwrite buf start (x :: xs)
    rw [ih (buf.set start x) (start + 1) (by rw [List.length_set]; omega)]
    rw [set_eq_overwrite buf start x (by omega)]
    rw [show start + 1 = start + ([x] : List Nat).length by simp]
    rw [overwrite_append buf start [x] xs (by simp; omega)]
    rfl

theorem blockUsed_append (cs ds : List Chunk) :
    blockUsed (cs ++ ds) = blockUsed cs + blockUsed ds := by
  simp [blockUsed]

theorem blockUsed_single (c : Chunk) : blockUsed [c] = chunkSize c := by
  simp [blockUsed]

/-- Appending one more chunk to a rendered block is an in-place overwrite of
the zero padding at the used boundary. -/
theorem blockBytes_snoc (bs : Nat) (cs : List Chunk) (c : Chunk)
    (hfit : blockUsed cs + chunkSize c ≤ bs) :
    overwrite (blockBytes bs cs) (blockUsed cs) (chunkBytes c) =
      blockBytes bs (cs ++ [c]) := by
  have hJ : ((cs.map chunkBytes).flatten).length = blockUsed cs := chunksJoin_length cs
  rw [overwrite, blockBytes]
  rw [List.take_append_of_le_length (by omega),
      List.take_of_length_le (by omega)]
  rw [chunkBytes_length c]
  rw [show blockUsed cs + chunkSize c =
        ((cs.map chunkBytes).flatten).length + chunkSize c by rw [hJ],
      List.drop_append, List.drop_replicate]
  rw [blockBytes, List.map_append, List.flatten_append, blockUsed_append, blockUsed_single]
  simp only [List.map_cons, List.map_nil, List.flatten_cons, List.flatten_nil, List.append_nil]
  simp only [List.append_assoc, List.append_cancel_left_eq]
  congr 1
  omega

/-- Writing a chunk into a partially used block buffer renders exactly the
block with that chunk appended, both in the buffer and in the file at the
cursor. -/
theorem write_chunk_spec (w : SegmentWriter) (p : List Nat) (ci nc : Nat)
    (cs : List Chunk) (bs : Nat)
    (hbuf : w.write_buffer = blockBytes bs cs)
    (hoff : w.buffer_offset = blockUsed cs)
    (hfit : blockUsed cs + (NUM_HEADER_BYTES + p.length) ≤ bs) :
    w.write_chunk p ci nc =
      { w with
        write_buffer := blockBytes bs (cs ++ [Chunk.mk (chunkTypeOf ci nc) p]),
        buffer_offset := blockUsed (cs ++ [Chunk.mk (chunkTypeOf ci nc) p]),
        file := overwrite w.file w.pos
          (blockBytes bs (cs ++ [Chunk.mk (chunkTypeOf ci nc) p])),
        pos := w.pos + bs } := by
  have hfit9 : blockUsed cs + (9 + p.length) ≤ bs := by
    simpa only [NUM_HEADER_BYTES] using hfit
  have hused : blockUsed cs ≤ bs := by omega
  have hlen : (blockBytes bs cs).length = bs := blockBytes_length bs cs hused
  set u : Nat := blockUsed cs with hu
  set c : Chunk := Chunk.mk (chunkTypeOf ci nc) p with hc
  have hbody_len : (chunkBody c).length = 5 + p.length := chunkBody_length c
  have hhead_len : (leBytes 4 p.length ++ [c.ctype.toByte]).length = 5 := by
    simp [leBytes_length]
  simp only [SegmentWriter.write_chunk, SegmentWriter.write, hbuf, hoff]
  have h1 : writeBytesLE 4 p.length (blockBytes bs cs) (u + LEN_OFFSET) =
      overwrite (blockBytes bs cs) (u + LEN_OFFSET) (leBytes 4 p.length) :=
    writeBytesLE_eq_overwrite 4 p.length _ _
      (by rw [hlen]; simp only [LEN_OFFSET]; omega)
  rw [h1]
  have hlen1 : (overwrite (blockBytes bs cs) (u + LEN_OFFSET)
      (leBytes 4 p.length)).length = bs := by
    rw [overwrite_length _ _ _ (by rw [hlen]; simp only [LEN_OFFSET, leBytes_length]; omega),
        hlen]
  have h2 : (overwrite (blockBytes bs cs) (u + LEN_OFFSET)
        (leBytes 4 p.length)).set (u + TYPE_OFFSET) (ChunkType.toByte c.ctype) =
      overwrite (blockBytes bs cs) (u + LEN_OFFSET)
        (leBytes 4 p.length ++ [c.ctype.toByte]) := by
    rw [set_eq_overwrite _ _ _ (by rw [hlen1]; simp only [TYPE_OFFSET]; omega)]
    rw [show u + TYPE_OFFSET = (u + LEN_OFFSET) + (leBytes 4 p.length).length by
        simp only [TYPE_OFFSET, LEN_OFFSET, leBytes_length]]
    exact overwrite_append _ _ _ _
      (by rw [hlen]; simp only [LEN_OFFSET, leBytes_length]; omega)
  rw [show (chunkTypeOf ci nc).toByte = ChunkType.toByte c.ctype by rw [hc], h2]
  have hlen2 : (overwrite (blockBytes bs cs) (u + LEN_OFFSET)
      (leBytes 4 p.length ++ [c.ctype.toByte])).length = bs := by
    rw [overwrite_length _ _ _ (by rw [hlen, hhead_len]; simp only [LEN_OFFSET]; omega), hlen]
  have h3 : listBlit (overwrite (blockBytes bs cs) (u + LEN_OFFSET)
        (leBytes 4 p.length ++ [c.ctype.toByte])) (u + PAYLOAD_OFFSET) p =
      overwrite (blockBytes bs cs) (u + LEN_OFFSET) (chunkBody c) := by
    rw [listBlit_eq_overwrite p _ _ (by rw [hlen2]; simp only [PAYLOAD_OFFSET]; omega)]
    rw [show u + PAYLOAD_OFFSET =
          (u + LEN_OFFSET) + (leBytes 4 p.length ++ [c.ctype.toByte]).length by
        rw [hhead_len]; simp only [PAYLOAD_OFFSET, LEN_OFFSET]]
    rw [overwrite_append _ _ _ _ (by rw [hlen, hhead_len]; simp only [LEN_OFFSET]; omega)]
    rw [chunkBody, List.append_assoc]
  rw [h3]
  have hlen3 : (overwrite (blockBytes bs cs) (u + LEN_OFFSET) (chunkBody c)).length = bs := by
    rw [overwrite_length _ _ _ (by rw [hlen, hbody_len]; simp only [LEN_OFFSET]; omega), hlen]
  have h4 : listSlice (overwrite (blockBytes bs cs) (u + LEN_OFFSET) (chunkBody c))
        (u + LEN_OFFSET) (u + (p.length + NUM_HEADER_BYTES)) =
      chunkBody c := by
    rw [show u + (p.length + NUM_HEADER_BYTES) = (u + LEN_OFFSET) + (chunkBody c).length by
        rw [hbody_len]; simp only [NUM_HEADER_BYTES, LEN_OFFSET]; omega]
    exact overwrite_listSlice _ _ _ (by rw [hlen, hbody_len]; simp only [LEN_OFFSET]; omega)
  rw [h4]
  have h5 : writeBytesLE 4 (calculate_crc (chunkBody c))
        (overwrite (blockBytes bs cs) (u + LEN_OFFSET) (chunkBody c))
        (u + CRC_OFFSET) =
      blockBytes bs (cs ++ [c]) := by
    rw [writeBytesLE_eq_overwrite 4 _ _ _ (by rw [hlen3]; simp only [CRC_OFFSET]; omega)]
    rw [show u + LEN_OFFSET = (u + CRC_OFFSET) + (leBytes 4 (calculate_crc (chunkBody c))).length by
        simp only [LEN_OFFSET, CRC_OFFSET, leBytes_length]]
    rw [overwrite_before _ _ _ _
      (by rw [hlen]; simp only [CRC_OFFSET, leBytes_length]; omega)]
    rw [show u + CRC_OFFSET = u by simp [CRC_OFFSET]]
    rw [show leBytes 4 (calculate_crc (chunkBody c)) ++ chunkBody c = chunkBytes c from rfl]
    exact blockBytes_snoc bs cs c (by simp only [chunkSize, NUM_HEADER_BYTES]; omega)
  rw [h5]
  have husedc : blockUsed (cs ++ [c]) = u + (p.length + NUM_HEADER_BYTES) := by
    rw [blockUsed_append, blockUsed_single]
    simp only [chunkSize, NUM_HEADER_BYTES, hc]
    omega
  have hlen5 : (blockBytes bs (cs ++ [c])).length = bs := by
    rw [blockBytes_length bs (cs ++ [c]) (by rw [husedc]; simp only [NUM_HEADER_BYTES]; omega)]
  simp [SegmentWriter.mk.injEq, hlen5, husedc]

/-- Correspondence between a live writer state and an abstract packed
layout: the file is the rendered blocks, the cursor sits at the end of the
file, and the block buffer mirrors the trailing block. -/
structure mirrors (bs : Nat) (L : List (List Chunk)) (w : SegmentWriter) : Prop where
  hfile : w.file = renderBlocks bs L
  hpos : w.pos = w.file.length
  hbuf : w.write_buffer = blockBytes bs (L.getLast?.getD [])
  hoff : w.buffer_offset = blockUsed (L.getLast?.getD [])
  hnp : w.num_payload_bytes_per_chunk = bs - NUM_HEADER_BYTES

theorem blockBytes_nil (bs : Nat) : blockBytes bs [] = List.replicate bs 0 := by
  simp [blockBytes, blockUsed]

/-- A fresh writer mirrors the empty layout. -/
theorem mirrors_new (info : SegmentInfo) :
    mirrors info.buffer_size [] (SegmentWriter.new info) := by
  constructor <;> simp [SegmentWriter.new, renderBlocks, blockBytes_nil, blockUsed]

theorem modifyLastBlock_nil (f : List Chunk → List Chunk) :
    modifyLastBlock f [] = [] := rfl

/-- Structure of `modifyLastBlock` on a non-empty layout. -/
theorem modifyLastBlock_eq (f : List Chunk → List Chunk) :
    ∀ L : List (List Chunk), L ≠ [] →
      modifyLastBlock f L = L.dropLast ++ [f (L.getLast?.getD [])] := by
  intro L
  induction L with
  | nil => intro h; exact absurd rfl h
  | cons a t ih =>
    intro _
    cases t with
    | nil => rfl
    | cons b t2 =>
      show a :: modifyLastBlock f (b :: t2) = (a :: b :: t2).dropLast ++ _
      rw [ih (by simp)]
      rfl

/-- Decomposition of a non-empty layout into its front and last block. -/
theorem layout_decomp (L : List (List Chunk)) (h : L ≠ []) :
    L = L.dropLast ++ [L.getLast?.getD []] := by
  conv_lhs => rw [← List.dropLast_append_getLast h]
  rw [List.getLast?_eq_getLast L h]
  rfl

theorem renderBlocks_single (bs : Nat) (x : List Chunk) :
    renderBlocks bs [x] = blockBytes bs x := by
  simp [renderBlocks]

theorem getLast_concat_getD (L : List (List Chunk)) (x : List Chunk) :
    ((L ++ [x]).getLast?.getD []) = x := by
  rw [List.getLast?_concat]
  rfl

/-- Overwriting a suffix of exactly the remaining length truncates and
appends. -/
theorem overwrite_tail (l : List Nat) (i : Nat) (d : List Nat)
    (h : i + d.length = l.length) : overwrite l i d = l.take i ++ d := by
  rw [overwrite, h, List.drop_eq_nil_of_le (le_refl _), List.append_nil]

theorem packPieces_cons (total ci : Nat) (p : List Nat) (ps : List (List Nat)) :
    packPieces total ci (p :: ps) =
      [Chunk.mk (chunkTypeOf ci total) p] :: packPieces total (ci + 1) ps := rfl

/-- The fresh-block loop: starting from a writer that mirrors `L`, writing
the remaining pieces appends one single-chunk block per piece. -/
theorem writeChunksLoop_spec (bs : Nat) :
    ∀ (pieces : List (List Nat)) (w : SegmentWriter) (L : List (List Chunk))
      (i pre total : Nat),
      mirrors bs L w →
      blockUsed (L.getLast?.getD []) ≤ bs →
      (∀ p ∈ pieces, 1 ≤ p.length ∧ NUM_HEADER_BYTES + p.length ≤ bs) →
      mirrors bs (L ++ packPieces total (i + pre) pieces)
          (SegmentWriter.writeChunksLoop w pieces i pre total) ∧
        (SegmentWriter.writeChunksLoop w pieces i pre total).segment_info =
          w.segment_info := by
  intro pieces
  induction pieces with
  | nil =>
    intro w L i pre total hmir hlast hp
    exact ⟨by rw [show packPieces total (i + pre) ([] : List (List Nat)) = [] from rfl,
                  List.append_nil]; exact hmir, rfl⟩
  | cons p ps ih =>
    intro w L i pre total hmir hlast hp
    obtain ⟨hp1, hp2⟩ := hp p (List.mem_cons_self _ _)
    simp only [NUM_HEADER_BYTES] at hp2
    have hblen : w.write_buffer.length = bs := by
      rw [hmir.hbuf, blockBytes_length bs _ hlast]
    have hclear : w.clear_buffer =
        { w with write_buffer := blockBytes bs [], buffer_offset := 0 } := by
      rw [SegmentWriter.clear_buffer, hblen, blockBytes_nil]
    have hwc := write_chunk_spec (w.clear_buffer) p (i + pre) total [] bs
      (by rw [hclear]) (by rw [hclear]; rfl)
      (by simp only [blockUsed, List.map_nil, List.sum_nil, NUM_HEADER_BYTES]; omega)
    set c : Chunk := Chunk.mk (chunkTypeOf (i + pre) total) p with hc
    have husedc : blockUsed [c] ≤ bs := by
      rw [blockUsed_single]
      simp only [chunkSize, hc, NUM_HEADER_BYTES]
      omega
    have hnewlen : (blockBytes bs [c]).length = bs := blockBytes_length bs [c] husedc
    have hmir1 : mirrors bs (L ++ [[c]]) ((w.clear_buffer).write_chunk p (i + pre) total) := by
      rw [hwc, hclear]
      constructor
      · show overwrite w.file w.pos (blockBytes bs [c]) = renderBlocks bs (L ++ [[c]])
        rw [hmir.hpos, overwrite_end, hmir.hfile, renderBlocks_append, renderBlocks_single]
      · show w.pos + bs = (overwrite w.file w.pos (blockBytes bs [c])).length
        rw [hmir.hpos, overwrite_end, List.length_append, hnewlen]
      · show blockBytes bs [c] = blockBytes bs ((L ++ [[c]]).getLast?.getD [])
        rw [getLast_concat_getD]
      · show blockUsed [c] = blockUsed ((L ++ [[c]]).getLast?.getD [])
        rw [getLast_concat_getD]
      · show w.num_payload_bytes_per_chunk = bs - NUM_HEADER_BYTES
        exact hmir.hnp
    have hrec := ih ((w.clear_buffer).write_chunk p (i + pre) total) (L ++ [[c]])
      (i + 1) pre total hmir1
      (by rw [getLast_concat_getD]; exact husedc)
      (fun q hq => hp q (List.mem_cons_of_mem _ hq))
    show mirrors bs (L ++ packPieces total (i + pre) (p :: ps)) _ ∧ _
    rw [packPieces_cons]
    constructor
    · have heq : L ++ ([Chunk.mk (chunkTypeOf (i + pre) total) p] :: packPieces total (i + pre + 1) ps)
          = (L ++ [[c]]) ++ packPieces total (i + 1 + pre) ps := by
        rw [hc, show i + 1 + pre = i + pre + 1 by omega]
        simp [List.append_assoc]
      rw [heq]
      exact hrec.1
    · exact hrec.2.trans (by rw [hwc]; rfl)

theorem getD_append_left_any {α : Type} (x y : List α) (i : Nat) (d : α)
    (h : i < x.length) : (x ++ y).getD i d = x.getD i d := by
  simp [List.getD_eq_getElem?_getD, List.getElem?_append_left h]

theorem getD_append_right_any {α : Type} (x y : List α) (i : Nat) (d : α)
    (h : x.length ≤ i) : (x ++ y).getD i d = y.getD (i - x.length) d := by
  simp [List.getD_eq_getElem?_getD, List.getElem?_append_right h]

theorem modifyLastBlock_length (f : List Chunk → List Chunk) (L : List (List Chunk)) :
    (modifyLastBlock f L).length = L.length := by
  induction L with
  | nil => rfl
  | cons a t ih =>
    cases t with
    | nil => rfl
    | cons b t2 =>
      show (a :: modifyLastBlock f (b :: t2)).length = _
      simp only [List.length_cons, ih]

theorem packPieces_length (total : Nat) :
    ∀ (ci : Nat) (ps : List (List Nat)), (packPieces total ci ps).length = ps.length := by
  intro ci ps
  induction ps generalizing ci with
  | nil => rfl
  | cons p t ih => simp only [packPieces_cons, List.length_cons, ih]

theorem packPieces_getD (total : Nat) :
    ∀ (ps : List (List Nat)) (ci i : Nat), i < ps.length →
      (packPieces total ci ps).getD i [] =
        [Chunk.mk (chunkTypeOf (ci + i) total) (ps.getD i [])] := by
  intro ps
  induction ps with
  | nil => intro ci i h; simp at h
  | cons p t ih =>
    intro ci i h
    cases i with
    | zero => simp [packPieces_cons]
    | succ i =>
      rw [packPieces_cons]
      simp only [List.getD_cons_succ]
      rw [ih (ci + 1) i (by simp only [List.length_cons] at h; omega),
          show ci + 1 + i = ci + (i + 1) by omega]

theorem packPieces_mem (total : Nat) :
    ∀ (ps : List (List Nat)) (ci : Nat) (blk : List Chunk),
      blk ∈ packPieces total ci ps →
      ∃ p ∈ ps, ∃ ci2, blk = [Chunk.mk (chunkTypeOf ci2 total) p] := by
  intro ps
  induction ps with
  | nil => intro ci blk h; simp [packPieces] at h
  | cons p t ih =>
    intro ci blk h
    rw [packPieces_cons] at h
    rcases List.mem_cons.mp h with rfl | h2
    · exact ⟨p, List.mem_cons_self _ _, ci, rfl⟩
    · obtain ⟨q, hq, ci2, rfl⟩ := ih (ci + 1) blk h2
      exact ⟨q, List.mem_cons_of_mem _ hq, ci2, rfl⟩

theorem chunkTypeOf_ne_null (ci nc : Nat) : chunkTypeOf ci nc ≠ ChunkType.null := by
  rw [chunkTypeOf]
  split
  · simp
  · split
    · simp
    · split <;> simp

/-- Well-formedness of a packed layout for block size `bs`: every block is
non-empty and fits, chunks are non-empty, fit a block, and are never `Null`,
and every non-trailing block has no room for a further chunk. -/
structure packWF (bs : Nat) (L : List (List Chunk)) : Prop where
  chunk_bounds : ∀ blk ∈ L, ∀ c ∈ blk,
    1 ≤ c.payload.length ∧ chunkSize c ≤ bs ∧ c.ctype ≠ ChunkType.null
  blocks_ne : ∀ blk ∈ L, blk ≠ []
  blocks_fit : ∀ blk ∈ L, blockUsed blk ≤ bs
  full_blocks : ∀ i, i + 1 < L.length → bs ≤ blockUsed (L.getD i []) + NUM_HEADER_BYTES

theorem packWF_nil (bs : Nat) : packWF bs [] := by
  constructor <;> intro blk h <;> simp at h

/-- A non-trivial trailing block forces the layout to be non-empty. -/
theorem last_used_pos_ne_nil (L : List (List Chunk))
    (h : 0 < blockUsed (L.getLast?.getD [])) : L ≠ [] := by
  intro h0
  subst h0
  simp [blockUsed] at h

/-- In a well-formed layout, a clean trailing block forces emptiness. -/
theorem clean_imp_nil (bs : Nat) (L : List (List Chunk)) (hwf : packWF bs L)
    (h : blockUsed (L.getLast?.getD []) = 0) : L = [] := by
  by_contra hne
  have hlast := List.getLast?_eq_getLast L hne
  have hmem : L.getLast?.getD [] ∈ L := by
    rw [hlast]
    exact List.getLast_mem hne
  have hbne := hwf.blocks_ne _ hmem
  obtain ⟨c, hc⟩ := List.exists_mem_of_ne_nil _ hbne
  have := hwf.chunk_bounds _ hmem c hc
  have hsz : chunkSize c ≤ blockUsed (L.getLast?.getD []) := by
    rw [blockUsed]
    exact List.single_le_sum (by intro x hx; omega) _ (List.mem_map_of_mem _ hc)
  simp only [chunkSize, NUM_HEADER_BYTES] at hsz
  omega

theorem getD_dropLast {α : Type} (l : List α) (i : Nat) (d : α)
    (h : i < l.length - 1) : l.dropLast.getD i d = l.getD i d := by
  rw [List.dropLast_eq_take]
  simp only [List.getD_eq_getElem?_getD]
  rw [List.getElem?_take_of_lt h]

theorem getD_last_eq {α : Type} (l : List α) (d : α) (h : l ≠ []) :
    l.getD (l.length - 1) d = l.getLast?.getD d := by
  have hpos := List.length_pos.mpr h
  rw [List.getLast?_eq_getLast l h, List.getLast_eq_getElem]
  simp only [List.getD_eq_getElem?_getD, Option.getD_some]
  rw [List.getElem?_eq_getElem (by omega)]
  rfl

/-- Appending fresh single-chunk piece blocks to a well-formed layout keeps
it well formed, provided the junction block is already airtight and all but
the last piece fill a block exactly. -/
theorem packWF_append_pieces (bs : Nat) (hbs : 10 ≤ bs)
    (X : List (List Chunk)) (ps : List (List Nat)) (total ci : Nat)
    (hX : packWF bs X)
    (hjunction : ps ≠ [] → X ≠ [] → bs ≤ blockUsed (X.getLast?.getD []) + NUM_HEADER_BYTES)
    (hp : ∀ p ∈ ps, 1 ≤ p.length ∧ p.length ≤ bs - NUM_HEADER_BYTES)
    (hfull : ∀ i, i + 1 < ps.length → (ps.getD i []).length = bs - NUM_HEADER_BYTES) :
    packWF bs (X ++ packPieces total ci ps) := by
  constructor
  · intro blk hblk c hc
    rcases List.mem_append.mp hblk with hx | hpc
    · exact hX.chunk_bounds blk hx c hc
    · obtain ⟨p, hpm, ci2, rfl⟩ := packPieces_mem total ps ci blk hpc
      obtain ⟨h1, h2⟩ := hp p hpm
      rcases List.mem_singleton.mp hc with rfl
      refine ⟨h1, ?_, chunkTypeOf_ne_null ci2 total⟩
      simp only [chunkSize, NUM_HEADER_BYTES] at *
      omega
  · intro blk hblk
    rcases List.mem_append.mp hblk with hx | hpc
    · exact hX.blocks_ne blk hx
    · obtain ⟨p, hpm, ci2, rfl⟩ := packPieces_mem total ps ci blk hpc
      simp
  · intro blk hblk
    rcases List.mem_append.mp hblk with hx | hpc
    · exact hX.blocks_fit blk hx
    · obtain ⟨p, hpm, ci2, rfl⟩ := packPieces_mem total ps ci blk hpc
      obtain ⟨h1, h2⟩ := hp p hpm
      rw [blockUsed_single]
      simp only [chunkSize, NUM_HEADER_BYTES] at *
      omega
  · intro i hi
    rw [List.length_append, packPieces_length] at hi
    rcases Nat.lt_or_ge (i + 1) X.length with hlt | hge
    · rw [getD_append_left_any _ _ _ _ (by omega)]
      exact hX.full_blocks i hlt
    · rcases Nat.lt_or_ge i X.length with hlt2 | hge2
      · have hXne : X ≠ [] := by
          intro h0
          rw [h0] at hlt2
          simp at hlt2
        have hpne : ps ≠ [] := by
          intro h0
          rw [h0] at hi
          simp at hi
          omega
        have hiX : i = X.length - 1 := by omega
        rw [getD_append_left_any _ _ _ _ hlt2, hiX, getD_last_eq _ _ hXne]
        exact hjunction hpne hXne
      · have hq : i - X.length + 1 < ps.length := by omega
        rw [getD_append_right_any _ _ _ _ hge2,
            packPieces_getD total ps ci (i - X.length) (by omega),
            blockUsed_single]
        have := hfull (i - X.length) hq
        simp only [chunkSize, NUM_HEADER_BYTES] at *
        omega

theorem getLast_getD_mem {α : Type} (l : List α) (d : α) (h : l ≠ []) :
    l.getLast?.getD d ∈ l := by
  rw [List.getLast?_eq_getLast l h]
  exact List.getLast_mem h

/-- Appending one chunk to the trailing block keeps a layout well formed
when the chunk fits. -/
theorem packWF_modifyLast (bs : Nat) (L : List (List Chunk)) (c : Chunk)
    (hwf : packWF bs L) (hL : L ≠ [])
    (hc1 : 1 ≤ c.payload.length) (hcn : c.ctype ≠ ChunkType.null)
    (hfit : blockUsed (L.getLast?.getD []) + chunkSize c ≤ bs) :
    packWF bs (modifyLastBlock (fun cs => cs ++ [c]) L) := by
  rw [modifyLastBlock_eq _ L hL]
  have hlastmem := getLast_getD_mem L [] hL
  have husednn : 0 ≤ blockUsed (L.getLast?.getD []) := Nat.zero_le _
  constructor
  · intro blk hblk c2 hc2
    rcases List.mem_append.mp hblk with hd | hx
    · exact hwf.chunk_bounds blk (List.dropLast_subset L hd) c2 hc2
    · rcases List.mem_singleton.mp hx with rfl
      rcases List.mem_append.mp hc2 with hold | hnew
      · exact hwf.chunk_bounds _ hlastmem c2 hold
      · rcases List.mem_singleton.mp hnew with rfl
        exact ⟨hc1, by omega, hcn⟩
  · intro blk hblk
    rcases List.mem_append.mp hblk with hd | hx
    · exact hwf.blocks_ne blk (List.dropLast_subset L hd)
    · rcases List.mem_singleton.mp hx with rfl
      simp
  · intro blk hblk
    rcases List.mem_append.mp hblk with hd | hx
    · exact hwf.blocks_fit blk (List.dropLast_subset L hd)
    · rcases List.mem_singleton.mp hx with rfl
      rw [blockUsed_append, blockUsed_single]
      omega
  · intro i hi
    rw [List.length_append, List.length_singleton, List.length_dropLast] at hi
    have hpos := List.length_pos.mpr hL
    have hiD : i < L.dropLast.length := by rw [List.length_dropLast]; omega
    rw [getD_append_left_any _ _ _ _ hiD, getD_dropLast _ _ _ (by omega)]
    exact hwf.full_blocks i (by omega)

/-- Per-message packing preserves layout well-formedness. -/
theorem packMsg_WF (bs : Nat) (hbs : 10 ≤ bs) (L : List (List Chunk)) (m : List Nat)
    (hm : 1 ≤ m.length) (hwf : packWF bs L) : packWF bs (packMsg bs L m) := by
  have hn : 0 < bs - NUM_HEADER_BYTES := by simp only [NUM_HEADER_BYTES]; omega
  simp only [packMsg]
  set u := blockUsed (L.getLast?.getD []) with hu
  by_cases hcond : 0 < u ∧ u + NUM_HEADER_BYTES < bs
  · rw [if_pos hcond]
    have hL : L ≠ [] := last_used_pos_ne_nil L hcond.1
    obtain ⟨hdirty, hhungry⟩ := hcond
    simp only [NUM_HEADER_BYTES] at hhungry
    by_cases hsize : m.length ≤ bs - u - NUM_HEADER_BYTES
    · rw [if_pos hsize]
      simp only [NUM_HEADER_BYTES] at hsize
      refine packWF_modifyLast bs L (Chunk.mk .full m) hwf hL hm (by simp) ?_
      simp only [chunkSize, NUM_HEADER_BYTES]
      omega
    · rw [if_neg hsize]
      simp only [NUM_HEADER_BYTES] at hsize
      apply packWF_append_pieces bs hbs _ _ _ _ ?_ ?_ ?_ ?_
      · refine packWF_modifyLast bs L (Chunk.mk .start (m.take (bs - u - NUM_HEADER_BYTES)))
          hwf hL (by simp only [List.length_take, NUM_HEADER_BYTES]; omega) (by simp) ?_
        simp only [chunkSize, List.length_take, NUM_HEADER_BYTES]
        omega
      · intro _ hXne
        rw [modifyLastBlock_eq _ L hL, getLast_concat_getD,
            blockUsed_append, blockUsed_single]
        simp only [chunkSize, List.length_take, NUM_HEADER_BYTES]
        omega
      · exact listChunks_piece_bounds _ hn _
      · intro i hi
        exact listChunks_full _ hn _ i hi
  · rw [if_neg hcond]
    apply packWF_append_pieces bs hbs _ _ _ _ hwf ?_ ?_ ?_
    · intro hpne hLne
      rcases Nat.eq_zero_or_pos u with hz | hupos
      · exact absurd (clean_imp_nil bs L hwf hz) hLne
      · have hle : ¬ (u + NUM_HEADER_BYTES < bs) := fun hlt => hcond ⟨hupos, hlt⟩
        omega
    · exact listChunks_piece_bounds _ hn _
    · intro i hi
      exact listChunks_full _ hn _ i hi

theorem last_block_le (bs : Nat) (L : List (List Chunk)) (hwf : packWF bs L) :
    blockUsed (L.getLast?.getD []) ≤ bs := by
  rcases eq_or_ne L [] with rfl | hne
  · simp [blockUsed]
  · exact hwf.blocks_fit _ (getLast_getD_mem L [] hne)

/-- Rewriting the dirty trailing block with one more chunk: the writer seeks
back one block, rewrites it in place, and mirrors the layout whose last
block has the chunk appended.  The file length does not change. -/
theorem tail_write_mirrors (bs : Nat) (w : SegmentWriter) (L : List (List Chunk))
    (p : List Nat) (ci nc : Nat)
    (hmir : mirrors bs L w) (hwf : packWF bs L)
    (hdirty : 0 < blockUsed (L.getLast?.getD []))
    (hfit : blockUsed (L.getLast?.getD []) + (NUM_HEADER_BYTES + p.length) ≤ bs) :
    mirrors bs (modifyLastBlock
        (fun cs => cs ++ [Chunk.mk (chunkTypeOf ci nc) p]) L)
      ((w.seek_buffer_start).write_chunk p ci nc) ∧
    ((w.seek_buffer_start).write_chunk p ci nc).segment_info = w.segment_info ∧
    ((w.seek_buffer_start).write_chunk p ci nc).file.length = w.file.length := by
  have hL : L ≠ [] := last_used_pos_ne_nil L hdirty
  set last : List Chunk := L.getLast?.getD [] with hlast
  set c : Chunk := Chunk.mk (chunkTypeOf ci nc) p with hc
  have hlast_le : blockUsed last ≤ bs := last_block_le bs L hwf
  have hblen : w.write_buffer.length = bs := by
    rw [hmir.hbuf, blockBytes_length bs _ hlast_le]
  have hdec := layout_decomp L hL
  have hrenderlast : (blockBytes bs last).length = bs := blockBytes_length bs _ hlast_le
  have hfileeq : w.file = renderBlocks bs L.dropLast ++ blockBytes bs last := by
    rw [hmir.hfile]
    conv_lhs => rw [hdec]
    rw [renderBlocks_append, renderBlocks_single]
  have hflen : w.file.length = (renderBlocks bs L.dropLast).length + bs := by
    rw [hfileeq, List.length_append, hrenderlast]
  have hdirty_b : w.is_buffer_dirty = true := by
    have hne : w.buffer_offset ≠ 0 := by
      rw [hmir.hoff]
      exact Nat.pos_iff_ne_zero.mp hdirty
    simp [SegmentWriter.is_buffer_dirty, SegmentWriter.is_buffer_clean, hne]
  have hseek : w.seek_buffer_start = { w with pos := w.pos - bs } := by
    rw [SegmentWriter.seek_buffer_start, if_pos hdirty_b, hblen]
  have hwc := write_chunk_spec (w.seek_buffer_start) p ci nc last bs
    (by rw [hseek]; exact hmir.hbuf) (by rw [hseek]; exact hmir.hoff) hfit
  have husedc : blockUsed (last ++ [c]) ≤ bs := by
    rw [blockUsed_append, blockUsed_single]
    simp only [chunkSize]
    omega
  have hnewlen : (blockBytes bs (last ++ [c])).length = bs :=
    blockBytes_length bs _ husedc
  have hpos2 : w.pos - bs = (renderBlocks bs L.dropLast).length := by
    rw [hmir.hpos, hflen]
    omega
  have hfile2 : overwrite w.file (w.pos - bs) (blockBytes bs (last ++ [c])) =
      renderBlocks bs L.dropLast ++ blockBytes bs (last ++ [c]) := by
    rw [overwrite_tail _ _ _ (by rw [hnewlen, hpos2, hflen]), hpos2, hfileeq,
        List.take_left]
  have hmod : modifyLastBlock (fun cs => cs ++ [c]) L =
      L.dropLast ++ [last ++ [c]] := modifyLastBlock_eq _ L hL
  refine ⟨?_, ?_, ?_⟩
  · rw [hwc, hseek]
    constructor
    · show overwrite w.file (w.pos - bs) (blockBytes bs (last ++ [c])) =
        renderBlocks bs (modifyLastBlock (fun cs => cs ++ [c]) L)
      rw [hfile2, hmod, renderBlocks_append, renderBlocks_single]
    · show w.pos - bs + bs =
        (overwrite w.file (w.pos - bs) (blockBytes bs (last ++ [c]))).length
      rw [hfile2, List.length_append, hnewlen, hpos2]
    · show blockBytes bs (last ++ [c]) =
        blockBytes bs ((modifyLastBlock (fun cs => cs ++ [c]) L).getLast?.getD [])
      rw [hmod, getLast_concat_getD]
    · show blockUsed (last ++ [c]) =
        blockUsed ((modifyLastBlock (fun cs => cs ++ [c]) L).getLast?.getD [])
      rw [hmod, getLast_concat_getD]
    · show w.num_payload_bytes_per_chunk = bs - NUM_HEADER_BYTES
      exact hmir.hnp
  · rw [hwc, hseek]
  · rw [hwc, hseek]
    show (overwrite w.file (w.pos - bs) (blockBytes bs (last ++ [c]))).length = w.file.length
    rw [hfile2, List.length_append, hnewlen, hflen]

/-- One full `write_payload` step: from a writer mirroring a well-formed
layout, a non-empty payload succeeds and the writer mirrors `packMsg` of the
layout, with `segment_info` untouched. -/
theorem write_payload_spec (bs : Nat) (hbs : 10 ≤ bs) (w : SegmentWriter)
    (L : List (List Chunk)) (m : List Nat)
    (hmir : mirrors bs L w) (hwf : packWF bs L) (hm : 0 < m.length) :
    ∃ w1, w.write_payload m = Except.ok w1 ∧ mirrors bs (packMsg bs L m) w1 ∧
      w1.segment_info = w.segment_info := by
  have hL_le : blockUsed (L.getLast?.getD []) ≤ bs := last_block_le bs L hwf
  have hblen : w.write_buffer.length = bs := by
    rw [hmir.hbuf, blockBytes_length bs _ hL_le]
  have hcap : w.buffer_payload_capacity =
      bs - blockUsed (L.getLast?.getD []) - NUM_HEADER_BYTES := by
    rw [SegmentWriter.buffer_payload_capacity]
    simp only [hblen, hmir.hoff]
    split <;> omega
  have hmne : ¬ (m.length = 0) := by omega
  have hcond_iff : (w.is_buffer_hungry && w.is_buffer_dirty) = true ↔
      (0 < blockUsed (L.getLast?.getD []) ∧
        blockUsed (L.getLast?.getD []) + NUM_HEADER_BYTES < bs) := by
    simp only [SegmentWriter.is_buffer_hungry, SegmentWriter.is_buffer_dirty,
      SegmentWriter.is_buffer_clean, hcap, hmir.hoff, Bool.and_eq_true,
      decide_eq_true_eq, Bool.not_eq_true', decide_eq_false_iff_not, NUM_HEADER_BYTES]
    omega
  by_cases hcond : 0 < blockUsed (L.getLast?.getD []) ∧
      blockUsed (L.getLast?.getD []) + NUM_HEADER_BYTES < bs
  · have hcb : (w.is_buffer_hungry && w.is_buffer_dirty) = true := hcond_iff.mpr hcond
    by_cases hfits : m.length ≤ bs - blockUsed (L.getLast?.getD []) - NUM_HEADER_BYTES
    · have hred : w.write_payload m =
          Except.ok ((w.seek_buffer_start).write_chunk m 0 1) := by
        simp [SegmentWriter.write_payload, hcb, hmne, hcap, hfits]
      have hct : chunkTypeOf 0 1 = ChunkType.full := rfl
      have htw := tail_write_mirrors bs w L m 0 1 hmir hwf hcond.1
        (by simp only [NUM_HEADER_BYTES] at hcond hfits ⊢; omega)
      rw [hct] at htw
      refine ⟨_, hred, ?_, htw.2.1⟩
      rw [packMsg]
      simp only [if_pos hcond, if_pos hfits]
      exact htw.1
    · have hred : w.write_payload m =
          Except.ok (SegmentWriter.writeChunksLoop
            ((w.seek_buffer_start).write_chunk
              (m.take (bs - blockUsed (L.getLast?.getD []) - NUM_HEADER_BYTES)) 0 2)
            (listChunks
              ((w.seek_buffer_start).write_chunk
                (m.take (bs - blockUsed (L.getLast?.getD []) - NUM_HEADER_BYTES)) 0 2).num_payload_bytes_per_chunk
              (m.drop (bs - blockUsed (L.getLast?.getD []) - NUM_HEADER_BYTES)))
            0 1
            (1 + ((w.seek_buffer_start).write_chunk
              (m.take (bs - blockUsed (L.getLast?.getD []) - NUM_HEADER_BYTES)) 0 2).num_chunks
              (m.drop (bs - blockUsed (L.getLast?.getD []) - NUM_HEADER_BYTES)))) := by
        have hrem : 0 < (m.drop (bs - blockUsed (L.getLast?.getD []) - NUM_HEADER_BYTES)).length := by
          rw [List.length_drop]
          omega
        simp [SegmentWriter.write_payload, hcb, hmne, hcap, hfits, hrem]
      have hct : chunkTypeOf 0 2 = ChunkType.start := rfl
      set cap : Nat := bs - blockUsed (L.getLast?.getD []) - NUM_HEADER_BYTES with hcapd
      have htw := tail_write_mirrors bs w L (m.take cap) 0 2 hmir hwf hcond.1
        (by simp only [List.length_take, NUM_HEADER_BYTES] at *; omega)
      set w1 := (w.seek_buffer_start).write_chunk (m.take cap) 0 2 with hw1
      have hnp1 : w1.num_payload_bytes_per_chunk = bs - NUM_HEADER_BYTES := htw.1.hnp
      have hnc : w1.num_chunks (m.drop cap) =
          chunksCeil (bs - NUM_HEADER_BYTES) (m.drop cap).length := by
        rw [SegmentWriter.num_chunks, hnp1, chunksCeil]
      have hwf1 : packWF bs (modifyLastBlock
          (fun cs => cs ++ [Chunk.mk (chunkTypeOf 0 2) (m.take cap)]) L) := by
        rw [hct]
        apply packWF_modifyLast bs L _ hwf (last_used_pos_ne_nil L hcond.1)
          (by simp only [List.length_take]; omega) (by simp)
        simp only [chunkSize, List.length_take, NUM_HEADER_BYTES] at *
        omega
      have hlast1 : blockUsed ((modifyLastBlock
          (fun cs => cs ++ [Chunk.mk (chunkTypeOf 0 2) (m.take cap)]) L).getLast?.getD [])
          ≤ bs := last_block_le bs _ hwf1
      have hpieces : ∀ p ∈ listChunks (bs - NUM_HEADER_BYTES) (m.drop cap),
          1 ≤ p.length ∧ NUM_HEADER_BYTES + p.length ≤ bs := by
        intro p hp
        have hb := listChunks_piece_bounds (bs - NUM_HEADER_BYTES)
          (by simp only [NUM_HEADER_BYTES]; omega) (m.drop cap) p hp
        simp only [NUM_HEADER_BYTES] at *
        omega
      have hloop := writeChunksLoop_spec bs (listChunks (bs - NUM_HEADER_BYTES) (m.drop cap))
        w1 (modifyLastBlock (fun cs => cs ++ [Chunk.mk (chunkTypeOf 0 2) (m.take cap)]) L)
        0 1 (1 + chunksCeil (bs - NUM_HEADER_BYTES) (m.drop cap).length)
        htw.1 hlast1 hpieces
      refine ⟨_, hred, ?_, ?_⟩
      · rw [hnp1, hnc]
        rw [packMsg]
        simp only [if_pos hcond, if_neg hfits]
        rw [hct] at hloop
        rw [← hcapd]
        simpa using hloop.1
      · rw [hnp1, hnc]
        exact hloop.2.trans htw.2.1
  · have hcb : (w.is_buffer_hungry && w.is_buffer_dirty) = false := by
      rcases Bool.eq_false_or_eq_true (w.is_buffer_hungry && w.is_buffer_dirty) with h | h
      · exact absurd (hcond_iff.mp h) hcond
      · exact h
    have hred : w.write_payload m =
        Except.ok (SegmentWriter.writeChunksLoop w
          (listChunks w.num_payload_bytes_per_chunk m) 0 0
          (0 + w.num_chunks m)) := by
      simp [SegmentWriter.write_payload, hcb, hmne, hm]
    have hnc : w.num_chunks m = chunksCeil (bs - NUM_HEADER_BYTES) m.length := by
      rw [SegmentWriter.num_chunks, hmir.hnp, chunksCeil]
    have hpieces : ∀ p ∈ listChunks (bs - NUM_HEADER_BYTES) m,
        1 ≤ p.length ∧ NUM_HEADER_BYTES + p.length ≤ bs := by
      intro p hp
      have hb := listChunks_piece_bounds (bs - NUM_HEADER_BYTES)
        (by simp only [NUM_HEADER_BYTES]; omega) m p hp
      simp only [NUM_HEADER_BYTES] at *
      omega
    have hloop := writeChunksLoop_spec bs (listChunks (bs - NUM_HEADER_BYTES) m)
      w L 0 0 (chunksCeil (bs - NUM_HEADER_BYTES) m.length) hmir hL_le hpieces
    refine ⟨_, hred, ?_, ?_⟩
    · rw [hmir.hnp, hnc, Nat.zero_add]
      rw [packMsg]
      simp only [if_neg hcond]
      simpa using hloop.1
    · rw [hmir.hnp, hnc, Nat.zero_add]
      exact hloop.2

/-- Repeated `SegmentWriter::append` over a list of payloads (as
`Topic::produce` drives it while one segment stays open). -/
def SegmentWriter.appendAll (w : SegmentWriter) : List (List Nat) → Except WError SegmentWriter
  | [] => .ok w
  | m :: ms => (w.append m).bind (fun w1 => w1.appendAll ms)

/-- Any run of appends of non-empty payloads succeeds, keeps the writer
mirroring the folded abstract layout (which stays well formed), and adds
the number of messages to `next_offset` while changing nothing else of
`segment_info`. -/
theorem appendAll_spec (bs : Nat) (hbs : 10 ≤ bs) :
    ∀ (ms : List (List Nat)) (w : SegmentWriter) (L : List (List Chunk)),
      mirrors bs L w → packWF bs L → (∀ m ∈ ms, 0 < m.length) →
      ∃ w1, w.appendAll ms = Except.ok w1 ∧
        mirrors bs (ms.foldl (packMsg bs) L) w1 ∧
        packWF bs (ms.foldl (packMsg bs) L) ∧
        w1.segment_info = { w.segment_info with
          next_offset := w.segment_info.next_offset + ms.length } := by
  intro ms
  induction ms with
  | nil =>
    intro w L hmir hwf hne
    exact ⟨w, rfl, hmir, hwf, by simp⟩
  | cons m ms ih =>
    intro w L hmir hwf hne
    obtain ⟨wp, hwp, hmirp, hinfop⟩ :=
      write_payload_spec bs hbs w L m hmir hwf (hne m (List.mem_cons_self _ _))
    have hwfp : packWF bs (packMsg bs L m) :=
      packMsg_WF bs hbs L m (hne m (List.mem_cons_self _ _)) hwf
    set wa : SegmentWriter := { wp with segment_info := { wp.segment_info with
        next_offset := wp.segment_info.next_offset + 1 } } with hwa
    have happ : w.append m = Except.ok wa := by
      rw [SegmentWriter.append, hwp]
      rfl
    have hmira : mirrors bs (packMsg bs L m) wa :=
      ⟨hmirp.hfile, hmirp.hpos, hmirp.hbuf, hmirp.hoff, hmirp.hnp⟩
    obtain ⟨w1, h1, h2, h3, h4⟩ := ih wa (packMsg bs L m) hmira hwfp
      (fun q hq => hne q (List.mem_cons_of_mem _ hq))
    refine ⟨w1, ?_, by simpa using h2, by simpa using h3, ?_⟩
    · rw [SegmentWriter.appendAll, happ]
      exact h1
    · rw [h4, hwa]
      simp only [hinfop]
      rw [SegmentInfo.mk.injEq]
      refine ⟨rfl, rfl, rfl, rfl, ?_⟩
      simp
      omega

/-- Reading the chunk parked at offset `blockUsed pre` of a rendered block
recovers its type, its payload, and the offset just past it; the CRC check
passes because the stored field is the CRC of the same stored bytes. -/
theorem read_message_chunk (bs : Nat) (pre : List Chunk) (c : Chunk) (ext : List Chunk)
    (acc : List Nat)
    (hpos : 0 < c.payload.length)
    (hlen : c.payload.length < 2 ^ 32)
    (hnn : c.ctype ≠ ChunkType.null)
    (hfit : blockUsed (pre ++ [c] ++ ext) ≤ bs) :
    read_message (blockBytes bs (pre ++ [c] ++ ext)) (blockUsed pre) acc =
      some (c.ctype, blockUsed pre + chunkSize c, acc ++ c.payload) := by
  set u := blockUsed pre with hu
  set P : List Nat := (pre.map chunkBytes).flatten with hPd
  have hP : P.length = u := chunksJoin_length pre
  set crcv : Nat := calculate_crc (chunkBody c) with hcrcv
  set R : List Nat := (ext.map chunkBytes).flatten ++
      List.replicate (bs - blockUsed (pre ++ [c] ++ ext)) 0 with hR
  have hbuf : blockBytes bs (pre ++ [c] ++ ext) =
      P ++ (leBytes 4 crcv ++ (leBytes 4 c.payload.length ++
        ([c.ctype.toByte] ++ (c.payload ++ R)))) := by
    simp [blockBytes, chunkBytes, chunkBody, hcrcv, hR, List.append_assoc]
  set buffer : List Nat := blockBytes bs (pre ++ [c] ++ ext) with hbufd
  have hbound : u + chunkSize c ≤ bs := by
    have := blockUsed_append (pre ++ [c]) ext
    have := blockUsed_append pre [c]
    have := blockUsed_single c
    simp only [List.append_assoc] at *
    rw [blockUsed_append pre ([c] ++ ext), blockUsed_append [c] ext, blockUsed_single] at hfit
    omega
  have hblen : buffer.length = bs := blockBytes_length bs _ hfit
  have hsz : chunkSize c = 9 + c.payload.length := by
    simp [chunkSize, NUM_HEADER_BYTES]
  have hcrc_read : readBytesLE 4 buffer (u + CRC_OFFSET) = some crcv := by
    have hs : listSlice buffer (u + CRC_OFFSET) (u + CRC_OFFSET + 4) = leBytes 4 crcv := by
      rw [hbuf, CRC_OFFSET, Nat.add_zero]
      have := slice_join_block P (leBytes 4 crcv)
        (leBytes 4 c.payload.length ++ ([c.ctype.toByte] ++ (c.payload ++ R))) u hP.symm
        (by simp [leBytes_length])
      rw [leBytes_length] at this
      simpa [List.append_assoc] using this
    have hres := readBytesLE_of_slice 4 crcv buffer (u + CRC_OFFSET)
      (by rw [hblen]; simp only [CRC_OFFSET]; omega) hs
    have hlt : crcv < 2 ^ 32 := by rw [hcrcv]; exact calculate_crc_lt _
    rw [show (256 : Nat) ^ 4 = 2 ^ 32 by norm_num] at hres
    rwa [Nat.mod_eq_of_lt hlt] at hres
  have hlen_read : readBytesLE 4 buffer (u + LEN_OFFSET) = some c.payload.length := by
    have hs : listSlice buffer (u + LEN_OFFSET) (u + LEN_OFFSET + 4) =
        leBytes 4 c.payload.length := by
      rw [hbuf, LEN_OFFSET]
      have heq : P ++ (leBytes 4 crcv ++ (leBytes 4 c.payload.length ++
          ([c.ctype.toByte] ++ (c.payload ++ R)))) =
          (P ++ leBytes 4 crcv) ++ (leBytes 4 c.payload.length ++
          ([c.ctype.toByte] ++ (c.payload ++ R))) := by
        simp [List.append_assoc]
      rw [heq]
      have := slice_join_block (P ++ leBytes 4 crcv) (leBytes 4 c.payload.length)
        ([c.ctype.toByte] ++ (c.payload ++ R)) (u + 4)
        (by simp [hP, leBytes_length]) (by simp [leBytes_length])
      rw [leBytes_length] at this
      simpa [List.append_assoc] using this
    have hres := readBytesLE_of_slice 4 c.payload.length buffer (u + LEN_OFFSET)
      (by rw [hblen]; simp only [LEN_OFFSET, hsz] at hbound ⊢; omega) hs
    rw [show (256 : Nat) ^ 4 = 2 ^ 32 by norm_num] at hres
    rwa [Nat.mod_eq_of_lt hlen] at hres
  have htype : buffer.getD (u + TYPE_OFFSET) 0 = c.ctype.toByte := by
    have heq : P ++ (leBytes 4 crcv ++ (leBytes 4 c.payload.length ++
        ([c.ctype.toByte] ++ (c.payload ++ R)))) =
        (P ++ leBytes 4 crcv ++ leBytes 4 c.payload.length) ++
          ([c.ctype.toByte] ++ (c.payload ++ R)) := by
      simp [List.append_assoc]
    have hs : listSlice buffer (u + TYPE_OFFSET) (u + TYPE_OFFSET + 1) =
        [c.ctype.toByte] := by
      rw [hbuf, TYPE_OFFSET, heq]
      have := slice_join_block (P ++ leBytes 4 crcv ++ leBytes 4 c.payload.length)
        [c.ctype.toByte] (c.payload ++ R) (u + 8)
        (by simp [hP, leBytes_length]) (by simp)
      simpa using this
    have hg := slice_getD buffer (u + TYPE_OFFSET) (u + TYPE_OFFSET + 1) 0 (by omega)
    rw [hs] at hg
    simpa using hg.symm
  have hbody_slice : listSlice buffer (u + LEN_OFFSET) (u + PAYLOAD_OFFSET + c.payload.length) =
      chunkBody c := by
    rw [hbuf, LEN_OFFSET, PAYLOAD_OFFSET]
    have heq : P ++ (leBytes 4 crcv ++ (leBytes 4 c.payload.length ++
        ([c.ctype.toByte] ++ (c.payload ++ R)))) =
        (P ++ leBytes 4 crcv) ++ (chunkBody c ++ R) := by
      simp [chunkBody, List.append_assoc]
    rw [heq]
    have := slice_join_block (P ++ leBytes 4 crcv) (chunkBody c) R (u + 4)
      (by simp [hP, leBytes_length]) (by rw [chunkBody_length]; omega)
    rw [chunkBody_length] at this
    rw [show u + 9 + c.payload.length = u + 4 + (5 + c.payload.length) by omega]
    simpa [List.append_assoc] using this
  have hpay_slice : listSlice buffer (u + PAYLOAD_OFFSET)
      (u + PAYLOAD_OFFSET + c.payload.length) = c.payload := by
    rw [hbuf, PAYLOAD_OFFSET]
    have := slice_join_block
      (P ++ leBytes 4 crcv ++ leBytes 4 c.payload.length ++ [c.ctype.toByte])
      c.payload R (u + 9)
      (by simp only [List.length_append, List.length_cons, List.length_nil, hP,
        leBytes_length]) hpos
    simpa [List.append_assoc] using this
  rw [read_message, htype, fromByte_toByte]
  simp only [if_neg hnn, hlen_read, hcrc_read, hbody_slice, hpay_slice]
  rw [if_neg (by simp)]
  rw [hsz]
  simp only [PAYLOAD_OFFSET]
  rw [show u + 9 + c.payload.length = u + (9 + c.payload.length) by omega]

/-- Every byte of a rendered block at or past the packed chunks is zero
(padding, or the out-of-range default). -/
theorem blockBytes_getD_pad (bs : Nat) (cs : List Chunk) (i : Nat)
    (h : blockUsed cs ≤ i) : (blockBytes bs cs).getD i 0 = 0 := by
  rw [blockBytes, getD_append_right_any _ _ _ _ (by rw [chunksJoin_length]; omega),
    chunksJoin_length]
  rcases Nat.lt_or_ge (i - blockUsed cs) (bs - blockUsed cs) with hlt | hge
  · simp [List.getD_eq_getElem?_getD, List.getElem?_replicate, hlt]
  · rw [List.getD_eq_getElem?_getD, List.getElem?_eq_none (by simpa using hge)]
    rfl

/-- Reading at or past the packed chunks of a block sees a `Null` tag and
returns the accumulator with the offset unchanged. -/
theorem read_message_null (bs : Nat) (cs : List Chunk) (off : Nat) (acc : List Nat)
    (hoff : blockUsed cs ≤ off) :
    read_message (blockBytes bs cs) off acc = some (ChunkType.null, off, acc) := by
  rw [read_message, blockBytes_getD_pad bs cs _ (by simp only [TYPE_OFFSET]; omega)]
  rfl

theorem getD_mem {α : Type} (l : List α) (i : Nat) (d : α) (h : i < l.length) :
    l.getD i d ∈ l := by
  rw [List.getD_eq_getElem l d h]
  exact List.getElem_mem h

/-- Decompose a list at index `b` into prefix, element, suffix. -/
theorem list_decomp_at {α : Type} (l : List α) (b : Nat) (d : α) (h : b < l.length) :
    l = l.take b ++ [l.getD b d] ++ l.drop (b + 1) := by
  rw [List.getD_eq_getElem l d h]
  conv_lhs => rw [← List.take_append_drop b l]
  rw [List.drop_eq_getElem_cons h]
  simp

/-- An aligned one-block slice of the rendered file is the rendered block. -/
theorem renderBlocks_slice (bs : Nat) (Lfull : List (List Chunk)) (tail : List Nat)
    (b : Nat) (hb : b < Lfull.length)
    (hfit : ∀ cs ∈ Lfull, blockUsed cs ≤ bs) (hbs : 0 < bs) :
    listSlice (renderBlocks bs Lfull ++ tail) (b * bs) (b * bs + bs) =
      blockBytes bs (Lfull.getD b []) := by
  have hdec := list_decomp_at Lfull b [] hb
  have hfitb : blockUsed (Lfull.getD b []) ≤ bs := hfit _ (getD_mem _ _ _ hb)
  have hlenb : (blockBytes bs (Lfull.getD b [])).length = bs :=
    blockBytes_length bs _ hfitb
  have hpre : (renderBlocks bs (Lfull.take b)).length = b * bs := by
    rw [renderBlocks_length bs _ (fun cs hcs => hfit cs (List.mem_of_mem_take hcs))]
    rw [List.length_take, Nat.min_eq_left (by omega)]
  have hfile : renderBlocks bs Lfull ++ tail =
      renderBlocks bs (Lfull.take b) ++ (blockBytes bs (Lfull.getD b []) ++
        (renderBlocks bs (Lfull.drop (b + 1)) ++ tail)) := by
    conv_lhs => rw [hdec]
    rw [renderBlocks_append, renderBlocks_append, renderBlocks_single]
    simp [List.append_assoc]
  rw [hfile]
  have := slice_join_block (renderBlocks bs (Lfull.take b))
    (blockBytes bs (Lfull.getD b []))
    (renderBlocks bs (Lfull.drop (b + 1)) ++ tail) (b * bs) hpre.symm (by omega)
  rw [hlenb] at this
  simpa [List.append_assoc] using this

/-- Iterator state parked inside block `b` (zero-based) of the rendered
layout at chunk-offset `off`, with the block loaded and the cursor just past
it. -/
def parkedIter (bs : Nat) (Lfull : List (List Chunk)) (b : Nat) (off : Nat) :
    SegmentIterator :=
  { pos := b * bs + bs, buffer := blockBytes bs (Lfull.getD b []), offset := off }

/-- One iteration of the chunk loop from an exhausted buffer parked at the
start of block `b`: the block is loaded and its first chunk consumed. -/
theorem nextLoop_exhausted_step (bs : Nat) (Lfull : List (List Chunk)) (tail : List Nat)
    (hwfF : packWF bs Lfull) (hbs : 10 ≤ bs) (hbs32 : bs ≤ 2 ^ 32)
    (b : Nat) (it : SegmentIterator) (acc : List Nat) (fuel : Nat)
    (c : Chunk) (ext : List Chunk)
    (hpos : it.pos = b * bs) (hblen : it.buffer.length = bs)
    (hexh : bs ≤ it.offset + NUM_HEADER_BYTES)
    (hb : b < Lfull.length)
    (hblk : Lfull.getD b [] = [c] ++ ext) :
    SegmentIterator.nextLoop (renderBlocks bs Lfull ++ tail) (fuel + 1) it acc =
      (match c.ctype with
       | ChunkType.full =>
           some (parkedIter bs Lfull b (chunkSize c), some (acc ++ c.payload))
       | ChunkType.fin =>
           some (parkedIter bs Lfull b (chunkSize c), some (acc ++ c.payload))
       | ChunkType.null => some (parkedIter bs Lfull b (chunkSize c), none)
       | ChunkType.start => SegmentIterator.nextLoop (renderBlocks bs Lfull ++ tail) fuel
           (parkedIter bs Lfull b (chunkSize c)) (acc ++ c.payload)
       | ChunkType.middle => SegmentIterator.nextLoop (renderBlocks bs Lfull ++ tail) fuel
           (parkedIter bs Lfull b (chunkSize c)) (acc ++ c.payload)) := by
  have hflen : (renderBlocks bs Lfull).length = Lfull.length * bs :=
    renderBlocks_length bs Lfull hwfF.blocks_fit
  have hexhb : it.is_buffer_exhausted = true := by
    simp only [SegmentIterator.is_buffer_exhausted, hblen, decide_eq_true_eq]
    exact hexh
  have hslice := renderBlocks_slice bs Lfull tail b hb hwfF.blocks_fit (by omega)
  have hmul : b * bs + bs ≤ Lfull.length * bs := by
    have h1 := Nat.mul_le_mul_right bs (show b + 1 ≤ Lfull.length by omega)
    simpa [Nat.succ_mul] using h1
  have hens : it.ensure_buffer_loaded (renderBlocks bs Lfull ++ tail) =
      ({ it with buffer := blockBytes bs (Lfull.getD b []),
                 pos := b * bs + bs, offset := 0 }, true) := by
    rw [SegmentIterator.ensure_buffer_loaded, if_pos hexhb, SegmentIterator.load_buffer,
        if_pos (by rw [hpos, hblen, List.length_append, hflen]; omega)]
    rw [hpos, hblen, hslice]
  obtain ⟨hc1, hc2, hc3⟩ := hwfF.chunk_bounds (Lfull.getD b []) (getD_mem _ _ _ hb) c
    (by rw [hblk]; exact List.mem_cons_self _ _)
  have hfitb : blockUsed (Lfull.getD b []) ≤ bs := hwfF.blocks_fit _ (getD_mem _ _ _ hb)
  have hread : read_message (blockBytes bs (Lfull.getD b [])) 0 acc =
      some (c.ctype, chunkSize c, acc ++ c.payload) := by
    have := read_message_chunk bs [] c ext acc hc1
      (by simp only [chunkSize, NUM_HEADER_BYTES] at hc2; omega) hc3
      (by rw [show ([] : List Chunk) ++ [c] ++ ext = [c] ++ ext by simp, ← hblk]; exact hfitb)
    rw [hblk]
    simpa [blockUsed] using this
  rw [SegmentIterator.nextLoop, hens]
  simp only [hread]
  cases hcty : c.ctype <;> simp [hcty, parkedIter]

theorem getLast?_cons_ne {α : Type} (c : α) (cs : List α) (h : cs ≠ []) :
    (c :: cs).getLast? = cs.getLast? := by
  cases cs with
  | nil => exact absurd rfl h
  | cons d ds => exact List.getLast?_cons_cons

/-- Reading a chain of single-chunk blocks: each interior block holds one
`Start`/`Middle` chunk, the final block begins with a `Full`/`End` chunk;
the loop loads each block in turn, accumulates the payloads and stops after
the final chunk. -/
theorem nextLoop_chain (bs : Nat) (Lfull : List (List Chunk)) (tail : List Nat)
    (hwfF : packWF bs Lfull) (hbs : 10 ≤ bs) (hbs32 : bs ≤ 2 ^ 32) :
    ∀ (cs : List Chunk) (b : Nat) (it : SegmentIterator) (acc : List Nat) (fuel : Nat),
      cs ≠ [] →
      cs.length < fuel →
      it.pos = b * bs →
      it.buffer.length = bs →
      bs ≤ it.offset + NUM_HEADER_BYTES →
      b + cs.length ≤ Lfull.length →
      (∀ i, i + 1 < cs.length →
        Lfull.getD (b + i) [] = [cs.getD i (Chunk.mk ChunkType.null [])] ∧
        ((cs.getD i (Chunk.mk ChunkType.null [])).ctype = ChunkType.start ∨
         (cs.getD i (Chunk.mk ChunkType.null [])).ctype = ChunkType.middle)) →
      (∃ ext, Lfull.getD (b + cs.length - 1) [] =
          cs.getLast?.getD (Chunk.mk ChunkType.null []) :: ext) →
      ((cs.getLast?.getD (Chunk.mk ChunkType.null [])).ctype = ChunkType.full ∨
       (cs.getLast?.getD (Chunk.mk ChunkType.null [])).ctype = ChunkType.fin) →
      SegmentIterator.nextLoop (renderBlocks bs Lfull ++ tail) fuel it acc =
        some (parkedIter bs Lfull (b + cs.length - 1)
                (chunkSize (cs.getLast?.getD (Chunk.mk ChunkType.null []))),
              some (acc ++ (cs.map Chunk.payload).flatten)) := by
  intro cs
  induction cs with
  | nil => intro b it acc fuel hne; exact absurd rfl hne
  | cons c cs ih =>
    intro b it acc fuel _ hfuel hpos hblen hexh hlen hmid hlast hlastty
    obtain ⟨fuel0, rfl⟩ : ∃ f0, fuel = f0 + 1 := ⟨fuel - 1, by omega⟩
    have hbF : b < Lfull.length := by
      simp only [List.length_cons] at hlen
      omega
    rcases eq_or_ne cs [] with hcs | hcsne
    · subst hcs
      obtain ⟨ext, hblk⟩ := hlast
      simp only [List.length_cons, List.length_nil, Nat.add_sub_cancel,
        List.getLast?_singleton, Option.getD_some] at hblk hlastty ⊢
      have hstep := nextLoop_exhausted_step bs Lfull tail hwfF hbs hbs32 b it acc fuel0
        c ext hpos hblen hexh hbF (by simpa using hblk)
      rw [hstep]
      rcases hlastty with h | h <;> rw [h] <;> simp [show b + 1 - 1 = b by omega]
    · obtain ⟨hblk0, hty0⟩ := hmid 0
        (by simp only [List.length_cons]; have := List.length_pos.mpr hcsne; omega)
      simp only [Nat.add_zero, List.getD_cons_zero] at hblk0 hty0
      have hstep := nextLoop_exhausted_step bs Lfull tail hwfF hbs hbs32 b it acc fuel0
        c [] hpos hblen hexh hbF (by simpa using hblk0)
      rw [hstep]
      have hfitb : blockUsed (Lfull.getD b []) ≤ bs := hwfF.blocks_fit _ (getD_mem _ _ _ hbF)
      have hnext_blen : (blockBytes bs (Lfull.getD b [])).length = bs :=
        blockBytes_length bs _ hfitb
      have hfull : bs ≤ blockUsed (Lfull.getD b []) + NUM_HEADER_BYTES := by
        apply hwfF.full_blocks b
        simp only [List.length_cons] at hlen
        have : 0 < cs.length := List.length_pos.mpr hcsne
        omega
      have hused : blockUsed (Lfull.getD b []) = chunkSize c := by
        rw [hblk0, blockUsed_single]
      have hrec := ih (b + 1) (parkedIter bs Lfull b (chunkSize c)) (acc ++ c.payload) fuel0
        hcsne
        (by simp only [List.length_cons] at hfuel; omega)
        (by simp [parkedIter, Nat.succ_mul])
        (by simp only [parkedIter]; exact hnext_blen)
        (by simp only [parkedIter]; rw [← hused]; exact hfull)
        (by simp only [List.length_cons] at hlen; omega)
        (by
          intro i hi
          have := hmid (i + 1) (by simp only [List.length_cons]; omega)
          rw [show b + (i + 1) = b + 1 + i by omega] at this
          simpa using this)
        (by
          obtain ⟨ext, hblk⟩ := hlast
          refine ⟨ext, ?_⟩
          rw [show b + 1 + cs.length - 1 = b + (c :: cs).length - 1 by simp only [List.length_cons]; omega, hblk,
              getLast?_cons_ne c cs hcsne])
        (by rwa [getLast?_cons_ne c cs hcsne] at hlastty)
      rcases hty0 with h | h <;> rw [h] <;>
        · rw [hrec]
          rw [getLast?_cons_ne c cs hcsne,
             show b + 1 + cs.length - 1 = b + (c :: cs).length - 1 by simp only [List.length_cons]; omega]
          simp [List.append_assoc]

/-- `L` is a packing-step ancestor of `Lfull`: every interior block is
final, and the last block may since have grown by further chunks. -/
def layoutExtends (L Lfull : List (List Chunk)) : Prop :=
  L.length ≤ Lfull.length ∧
  (∀ i, i + 1 < L.length → Lfull.getD i [] = L.getD i []) ∧
  (L ≠ [] → ∃ ext, Lfull.getD (L.length - 1) [] = L.getLast?.getD [] ++ ext)

theorem layoutExtends_refl (L : List (List Chunk)) : layoutExtends L L := by
  refine ⟨le_refl _, fun i _ => rfl, fun h => ⟨[], ?_⟩⟩
  rw [getD_last_eq L [] h, List.append_nil]

theorem layoutExtends_trans (L M F : List (List Chunk))
    (h1 : layoutExtends L M) (h2 : layoutExtends M F) : layoutExtends L F := by
  obtain ⟨hl1, he1, hp1⟩ := h1
  obtain ⟨hl2, he2, hp2⟩ := h2
  refine ⟨le_trans hl1 hl2, ?_, ?_⟩
  · intro i hi
    rw [he2 i (by omega), he1 i hi]
  · intro hne
    have hMne : M ≠ [] := by
      intro h0
      subst h0
      have := List.length_pos.mpr hne
      simp only [List.length_nil] at hl1
      omega
    obtain ⟨e1, hpe1⟩ := hp1 hne
    rcases Nat.lt_or_ge L.length M.length with hlt | hge
    · refine ⟨e1, ?_⟩
      rw [he2 (L.length - 1) (by have := List.length_pos.mpr hne; omega), hpe1]
    · have hLM : L.length = M.length := by omega
      obtain ⟨e2, hpe2⟩ := hp2 hMne
      refine ⟨e1 ++ e2, ?_⟩
      rw [hLM, hpe2, ← getD_last_eq M [] hMne, ← hLM, hpe1]
      simp [List.append_assoc]

theorem getD_concat_last {α : Type} (l : List α) (x d : α) :
    (l ++ [x]).getD l.length d = x := by
  rw [getD_append_right_any _ _ _ _ (le_refl _)]
  simp

/-- One packing step only extends the layout. -/
theorem packMsg_extends (bs : Nat) (L : List (List Chunk)) (m : List Nat) :
    layoutExtends L (packMsg bs L m) := by
  rcases eq_or_ne L [] with rfl | hLne
  · exact ⟨by simp, fun i hi => by simp at hi, fun h => absurd rfl h⟩
  · have hn : 0 < L.length := List.length_pos.mpr hLne
    rw [packMsg]
    set u := blockUsed (L.getLast?.getD []) with hu
    by_cases hcond : 0 < u ∧ u + NUM_HEADER_BYTES < bs
    · rw [if_pos hcond]
      by_cases hfits : m.length ≤ bs - u - NUM_HEADER_BYTES
      · rw [if_pos hfits]
        rw [modifyLastBlock_eq _ L hLne]
        refine ⟨by simp [List.length_dropLast]; omega, ?_, ?_⟩
        · intro i hi
          rw [getD_append_left_any _ _ _ _ (by simp [List.length_dropLast]; omega),
              getD_dropLast _ _ _ (by omega)]
        · intro _
          refine ⟨[Chunk.mk ChunkType.full m], ?_⟩
          have hdl : L.dropLast.length = L.length - 1 := List.length_dropLast L
          rw [show L.length - 1 = L.dropLast.length by omega, getD_concat_last]
      · rw [if_neg hfits]
        rw [modifyLastBlock_eq _ L hLne]
        refine ⟨?_, ?_, ?_⟩
        · simp [List.length_dropLast]
          omega
        · intro i hi
          rw [List.append_assoc, getD_append_left_any _ _ _ _ (by simp [List.length_dropLast]; omega),
              getD_dropLast _ _ _ (by omega)]
        · intro _
          refine ⟨[Chunk.mk ChunkType.start (m.take (bs - u - NUM_HEADER_BYTES))], ?_⟩
          have hdl : L.dropLast.length = L.length - 1 := List.length_dropLast L
          rw [List.append_assoc, show L.length - 1 = L.dropLast.length by omega,
              getD_append_right_any _ _ _ _ (le_refl _)]
          simp
    · rw [if_neg hcond]
      refine ⟨by simp, ?_, ?_⟩
      · intro i hi
        rw [getD_append_left_any _ _ _ _ (by omega)]
      · intro _
        refine ⟨[], ?_⟩
        rw [getD_append_left_any _ _ _ _ (by omega), getD_last_eq L [] hLne,
            List.append_nil]

/-- Folding further messages only extends the layout. -/
theorem packFold_extends (bs : Nat) :
    ∀ (ms : List (List Nat)) (L : List (List Chunk)),
      layoutExtends L (ms.foldl (packMsg bs) L) := by
  intro ms
  induction ms with
  | nil => intro L; exact layoutExtends_refl L
  | cons m ms ih =>
    intro L
    exact layoutExtends_trans _ _ _ (packMsg_extends bs L m)
      (by simpa using ih (packMsg bs L m))

/-- The chunks of the fresh-block pieces, one per block of `packPieces`. -/
def pieceChunks (total : Nat) : Nat → List (List Nat) → List Chunk
  | _, [] => []
  | ci, p :: ps => Chunk.mk (chunkTypeOf ci total) p :: pieceChunks total (ci + 1) ps

theorem packPieces_eq_map (total : Nat) :
    ∀ (ci : Nat) (ps : List (List Nat)),
      packPieces total ci ps = (pieceChunks total ci ps).map (fun c => [c]) := by
  intro ci ps
  induction ps generalizing ci with
  | nil => rfl
  | cons p ps ih => simp [packPieces, pieceChunks, ih]

theorem pieceChunks_length (total : Nat) :
    ∀ (ci : Nat) (ps : List (List Nat)), (pieceChunks total ci ps).length = ps.length := by
  intro ci ps
  induction ps generalizing ci with
  | nil => rfl
  | cons p ps ih => simp [pieceChunks, ih]

theorem pieceChunks_getD (total : Nat) :
    ∀ (ps : List (List Nat)) (ci i : Nat) (d : Chunk), i < ps.length →
      (pieceChunks total ci ps).getD i d =
        Chunk.mk (chunkTypeOf (ci + i) total) (ps.getD i []) := by
  intro ps
  induction ps with
  | nil => intro ci i d h; simp at h
  | cons p ps ih =>
    intro ci i d h
    cases i with
    | zero => simp [pieceChunks]
    | succ i =>
      simp only [pieceChunks, List.getD_cons_succ]
      rw [ih (ci + 1) i d (by simp only [List.length_cons] at h; omega),
          show ci + 1 + i = ci + (i + 1) by omega]

theorem pieceChunks_payloads (total : Nat) :
    ∀ (ci : Nat) (ps : List (List Nat)),
      (pieceChunks total ci ps).map Chunk.payload = ps := by
  intro ci ps
  induction ps generalizing ci with
  | nil => rfl
  | cons p ps ih => simp [pieceChunks, ih]

theorem pieceChunks_ne_nil (total ci : Nat) (ps : List (List Nat)) (h : ps ≠ []) :
    pieceChunks total ci ps ≠ [] := by
  cases ps with
  | nil => exact absurd rfl h
  | cons p ps => simp [pieceChunks]

theorem chunkTypeOf_middle (i n : Nat) (h1 : 0 < i) (h2 : i + 1 < n) :
    chunkTypeOf i n = ChunkType.middle := by
  rw [chunkTypeOf, if_neg (by omega), if_neg (by omega), if_neg (by omega)]

theorem chunkTypeOf_fin (i n : Nat) (h1 : 0 < i) (h2 : i + 1 = n) :
    chunkTypeOf i n = ChunkType.fin := by
  rw [chunkTypeOf, if_neg (by omega), if_neg (by omega), if_pos h2]

theorem chunkTypeOf_start (n : Nat) (h : 1 < n) :
    chunkTypeOf 0 n = ChunkType.start := by
  rw [chunkTypeOf, if_neg (by omega), if_pos rfl]

/-- The stored type byte of the chunk at offset `blockUsed pre`. -/
theorem blockBytes_type_byte (bs : Nat) (pre : List Chunk) (c : Chunk) (ext : List Chunk) :
    (blockBytes bs (pre ++ [c] ++ ext)).getD (blockUsed pre + TYPE_OFFSET) 0 =
      c.ctype.toByte := by
  have hP : ((pre.map chunkBytes).flatten).length = blockUsed pre := chunksJoin_length pre
  have hbuf : blockBytes bs (pre ++ [c] ++ ext) =
      ((pre.map chunkBytes).flatten ++ leBytes 4 (calculate_crc (chunkBody c)) ++
        leBytes 4 c.payload.length) ++
      ([c.ctype.toByte] ++ (c.payload ++ ((ext.map chunkBytes).flatten ++
        List.replicate (bs - blockUsed (pre ++ [c] ++ ext)) 0))) := by
    simp [blockBytes, chunkBytes, chunkBody, List.append_assoc]
  rw [hbuf, getD_append_right_any _ _ _ _
    (by simp only [List.length_append, hP, leBytes_length, TYPE_OFFSET]; omega)]
  simp only [List.length_append, hP, leBytes_length, TYPE_OFFSET]
  rw [show blockUsed pre + 8 - (blockUsed pre + 4 + 4) = 0 by omega]
  rfl

/-- One iteration of the chunk loop on a chunk already inside the loaded
block: no load happens and the chunk at the parked offset is consumed. -/
theorem nextLoop_inblock_step (bs : Nat) (Lfull : List (List Chunk)) (tail : List Nat)
    (hwfF : packWF bs Lfull) (hbs : 10 ≤ bs) (hbs32 : bs ≤ 2 ^ 32)
    (b : Nat) (pre : List Chunk) (c : Chunk) (ext : List Chunk)
    (acc : List Nat) (fuel : Nat)
    (hb : b < Lfull.length)
    (hblk : Lfull.getD b [] = pre ++ [c] ++ ext) :
    SegmentIterator.nextLoop (renderBlocks bs Lfull ++ tail) (fuel + 1)
        (parkedIter bs Lfull b (blockUsed pre)) acc =
      (match c.ctype with
       | ChunkType.full =>
           some (parkedIter bs Lfull b (blockUsed pre + chunkSize c),
                 some (acc ++ c.payload))
       | ChunkType.fin =>
           some (parkedIter bs Lfull b (blockUsed pre + chunkSize c),
                 some (acc ++ c.payload))
       | ChunkType.null =>
           some (parkedIter bs Lfull b (blockUsed pre + chunkSize c), none)
       | ChunkType.start => SegmentIterator.nextLoop (renderBlocks bs Lfull ++ tail) fuel
           (parkedIter bs Lfull b (blockUsed pre + chunkSize c)) (acc ++ c.payload)
       | ChunkType.middle => SegmentIterator.nextLoop (renderBlocks bs Lfull ++ tail) fuel
           (parkedIter bs Lfull b (blockUsed pre + chunkSize c)) (acc ++ c.payload)) := by
  have hfitb : blockUsed (Lfull.getD b []) ≤ bs := hwfF.blocks_fit _ (getD_mem _ _ _ hb)
  obtain ⟨hc1, hc2, hc3⟩ := hwfF.chunk_bounds (Lfull.getD b []) (getD_mem _ _ _ hb) c
    (by rw [hblk]; simp)
  have hblen : (blockBytes bs (Lfull.getD b [])).length = bs :=
    blockBytes_length bs _ hfitb
  have hused_le : blockUsed pre + chunkSize c ≤ blockUsed (Lfull.getD b []) := by
    rw [hblk, blockUsed_append, blockUsed_append, blockUsed_single]
    omega
  have hcsz : 10 ≤ chunkSize c := by
    simp only [chunkSize, NUM_HEADER_BYTES]
    omega
  have hexh : (parkedIter bs Lfull b (blockUsed pre)).is_buffer_exhausted = false := by
    simp only [SegmentIterator.is_buffer_exhausted, parkedIter, hblen,
      decide_eq_false_iff_not, NUM_HEADER_BYTES]
    omega
  have hens : (parkedIter bs Lfull b (blockUsed pre)).ensure_buffer_loaded
      (renderBlocks bs Lfull ++ tail) = (parkedIter bs Lfull b (blockUsed pre), true) := by
    rw [SegmentIterator.ensure_buffer_loaded, hexh]
    rfl
  have hread : read_message (blockBytes bs (Lfull.getD b [])) (blockUsed pre) acc =
      some (c.ctype, blockUsed pre + chunkSize c, acc ++ c.payload) := by
    have := read_message_chunk bs pre c ext acc hc1
      (by simp only [chunkSize, NUM_HEADER_BYTES] at hc2; omega) hc3
      (by rw [← hblk]; exact hfitb)
    rw [hblk]
    exact this
  rw [SegmentIterator.nextLoop, hens]
  simp only [parkedIter] at hread ⊢
  simp only [hread]


theorem packPieces_ne_nil (total ci : Nat) (ps : List (List Nat)) (h : ps ≠ []) :
    packPieces total ci ps ≠ [] := by
  cases ps with
  | nil => exact absurd rfl h
  | cons p ps => simp [packPieces]

/-- A well-formed non-empty layout has a dirty trailing block. -/
theorem blockUsed_last_pos (bs : Nat) (L : List (List Chunk)) (hwf : packWF bs L)
    (h : L ≠ []) : 0 < blockUsed (L.getLast?.getD []) := by
  by_contra h0
  push_neg at h0
  exact h (clean_imp_nil bs L hwf (by omega))

/-- Iterator state parked at the end of the consumed layout prefix `L`
inside the full rendered layout `Lfull`. -/
def parkedState (bs : Nat) (Lfull L : List (List Chunk)) : SegmentIterator :=
  if L.length = 0 then SegmentIterator.new bs
  else parkedIter bs Lfull (L.length - 1) (blockUsed (L.getLast?.getD []))

theorem pred_mul_add (n bs : Nat) (h : 0 < n) : (n - 1) * bs + bs = n * bs := by
  obtain ⟨n0, rfl⟩ : ∃ n0, n = n0 + 1 := ⟨n - 1, by omega⟩
  simp [Nat.succ_mul]

/-- `SegmentIterator::next`, parked at the end of consumed prefix `L` of the
full on-disk layout, yields exactly the message whose packing extended `L`,
and parks at the end of the extended prefix. -/
theorem next_reads_msg (bs : Nat) (hbs : 10 ≤ bs) (hbs32 : bs ≤ 2 ^ 32)
    (L Lfull : List (List Chunk)) (m : List Nat) (tail : List Nat)
    (hm : 0 < m.length)
    (hwfL : packWF bs L) (hwfF : packWF bs Lfull)
    (hext : layoutExtends (packMsg bs L m) Lfull) :
    SegmentIterator.next (renderBlocks bs Lfull ++ tail) (parkedState bs Lfull L) =
      some (parkedState bs Lfull (packMsg bs L m), some m) := by
  have hnpb : 0 < bs - NUM_HEADER_BYTES := by simp only [NUM_HEADER_BYTES]; omega
  have hflen : (renderBlocks bs Lfull).length = Lfull.length * bs :=
    renderBlocks_length bs Lfull hwfF.blocks_fit
  have hFlef : Lfull.length ≤ (renderBlocks bs Lfull ++ tail).length := by
    rw [List.length_append, hflen]
    have := Nat.le_mul_of_pos_right Lfull.length (show 0 < bs by omega)
    omega
  have hLF : layoutExtends L Lfull :=
    layoutExtends_trans _ _ _ (packMsg_extends bs L m) hext
  set u := blockUsed (L.getLast?.getD []) with hu
  set n := L.length with hn
  by_cases hcond : 0 < u ∧ u + NUM_HEADER_BYTES < bs
  · -- tail fill of the dirty trailing block
    have hLne : L ≠ [] := last_used_pos_ne_nil L hcond.1
    have hnpos : 0 < n := List.length_pos.mpr hLne
    have hcond9 : u + 9 < bs := by
      have := hcond.2
      simpa [NUM_HEADER_BYTES] using this
    have hn1F : n - 1 < Lfull.length := by
      have := hLF.1
      omega
    have hfit1 : blockUsed (Lfull.getD (n - 1) []) ≤ bs :=
      hwfF.blocks_fit _ (getD_mem _ _ _ hn1F)
    have hblen1 : (blockBytes bs (Lfull.getD (n - 1) [])).length = bs :=
      blockBytes_length bs _ hfit1
    have hpark : parkedState bs Lfull L = parkedIter bs Lfull (n - 1) u := by
      rw [parkedState, if_neg (by omega)]
    have hexh : (parkedIter bs Lfull (n - 1) u).is_buffer_exhausted = false := by
      simp only [SegmentIterator.is_buffer_exhausted, parkedIter, hblen1,
        decide_eq_false_iff_not, NUM_HEADER_BYTES]
      omega
    by_cases hfits : m.length ≤ bs - u - NUM_HEADER_BYTES
    · -- single Full chunk appended in place
      have hpack : packMsg bs L m =
          modifyLastBlock (fun cs => cs ++ [Chunk.mk ChunkType.full m]) L := by
        rw [packMsg]
        simp only [if_pos hcond, if_pos hfits]
      have hLextlen : (packMsg bs L m).length = n := by
        rw [hpack, modifyLastBlock_length]
      have hLextne : packMsg bs L m ≠ [] := by
        intro h0
        rw [h0] at hLextlen
        simp only [List.length_nil] at hLextlen
        omega
      have hlastext : (packMsg bs L m).getLast?.getD [] =
          L.getLast?.getD [] ++ [Chunk.mk ChunkType.full m] := by
        rw [hpack, modifyLastBlock_eq _ L hLne, getLast_concat_getD]
      obtain ⟨e2, hpe2⟩ := hext.2.2 hLextne
      rw [hLextlen, hlastext] at hpe2
      have hstale : (parkedIter bs Lfull (n - 1) u).is_stale = some false := by
        rw [SegmentIterator.is_stale]
        simp only [parkedIter]
        rw [hu, hpe2, blockBytes_type_byte bs _ _ e2, fromByte_toByte]
        rfl
      rw [hpark, SegmentIterator.next]
      simp only [hexh, Bool.not_false, if_true, hstale]
      set F := (renderBlocks bs Lfull ++ tail).length +
        (parkedIter bs Lfull (n - 1) u).buffer.length + 2 with hF
      obtain ⟨F0, hF0⟩ : ∃ F0, F = F0 + 1 := ⟨F - 1, by omega⟩
      rw [hF0, hu]
      rw [nextLoop_inblock_step bs Lfull tail hwfF hbs hbs32 (n - 1)
        (L.getLast?.getD []) (Chunk.mk ChunkType.full m) e2 [] F0 hn1F hpe2]
      rw [parkedState, if_neg (by rw [hLextlen]; omega), hLextlen, hlastext,
        blockUsed_append, blockUsed_single]
      simp
    · -- Start chunk in place, then fresh blocks
      have hrest_ne : m.drop (bs - u - NUM_HEADER_BYTES) ≠ [] := by
        intro h0
        have := congrArg List.length h0
        simp only [List.length_drop, List.length_nil] at this
        simp only [NUM_HEADER_BYTES] at this hfits
        omega
      set cap := bs - u - NUM_HEADER_BYTES with hcap
      set rest := m.drop cap with hrest
      set ps := listChunks (bs - NUM_HEADER_BYTES) rest with hps
      set total := 1 + chunksCeil (bs - NUM_HEADER_BYTES) rest.length with htotal
      have hpack : packMsg bs L m =
          modifyLastBlock (fun cs => cs ++ [Chunk.mk ChunkType.start (m.take cap)]) L ++
            packPieces total 1 ps := by
        rw [packMsg]
        simp only [if_pos hcond, if_neg hfits]
      have hk : ps.length = chunksCeil (bs - NUM_HEADER_BYTES) rest.length := by
        rw [hps, listChunks_length _ hnpb]
      have hkpos : 0 < ps.length := by
        rw [hps, listChunks_cons_eq _ hnpb rest hrest_ne]
        simp
      have htotk : total = 1 + ps.length := by rw [htotal, hk]
      have hplen : (pieceChunks total 1 ps).length = ps.length := pieceChunks_length total 1 ps
      have hLextlen : (packMsg bs L m).length = n + ps.length := by
        rw [hpack, List.length_append, modifyLastBlock_length, packPieces_length]
      have hLextne : packMsg bs L m ≠ [] := by
        intro h0
        rw [h0] at hLextlen
        simp only [List.length_nil] at hLextlen
        omega
      have hnkF : n + ps.length ≤ Lfull.length := by
        have := hext.1
        rw [hLextlen] at this
        exact this
      have hblk1 : Lfull.getD (n - 1) [] =
          L.getLast?.getD [] ++ [Chunk.mk ChunkType.start (m.take cap)] := by
        rw [hext.2.1 (n - 1) (by rw [hLextlen]; omega), hpack,
            getD_append_left_any _ _ _ _ (by rw [modifyLastBlock_length]; omega),
            modifyLastBlock_eq _ L hLne,
            show n - 1 = L.dropLast.length by simp only [List.length_dropLast, ← hn],
            getD_concat_last]
      have hblk1e : Lfull.getD (n - 1) [] =
          L.getLast?.getD [] ++ [Chunk.mk ChunkType.start (m.take cap)] ++ [] := by
        rw [List.append_nil]
        exact hblk1
      have htakelen : (m.take cap).length = cap := by
        rw [List.length_take]
        simp only [hcap, NUM_HEADER_BYTES] at hfits ⊢
        omega
      have hstale : (parkedIter bs Lfull (n - 1) u).is_stale = some false := by
        rw [SegmentIterator.is_stale]
        simp only [parkedIter]
        rw [hu, hblk1e, blockBytes_type_byte bs _ _ [], fromByte_toByte]
        rfl
      rw [hpark, SegmentIterator.next]
      simp only [hexh, Bool.not_false, if_true, hstale]
      set F := (renderBlocks bs Lfull ++ tail).length +
        (parkedIter bs Lfull (n - 1) u).buffer.length + 2 with hF
      have hFbig : ps.length + 1 < F := by
        rw [hF]
        have h1 : ps.length ≤ Lfull.length := by omega
        omega
      obtain ⟨F0, hF0⟩ : ∃ F0, F = F0 + 1 := ⟨F - 1, by omega⟩
      rw [hF0, hu]
      rw [nextLoop_inblock_step bs Lfull tail hwfF hbs hbs32 (n - 1)
        (L.getLast?.getD []) (Chunk.mk ChunkType.start (m.take cap)) [] [] F0 hn1F hblk1e]
      have hchsz : blockUsed (L.getLast?.getD []) +
          chunkSize (Chunk.mk ChunkType.start (m.take cap)) = bs := by
        simp only [chunkSize, htakelen, ← hu]
        simp only [hcap, NUM_HEADER_BYTES] at hcond9 ⊢
        omega
      show SegmentIterator.nextLoop (renderBlocks bs Lfull ++ tail) F0
        (parkedIter bs Lfull (n - 1) (blockUsed (L.getLast?.getD []) +
          chunkSize (Chunk.mk ChunkType.start (m.take cap)))) ([] ++ m.take cap) = _
      rw [hchsz]
      have hcsne : pieceChunks total 1 ps ≠ [] :=
        pieceChunks_ne_nil total 1 ps (by intro h0; rw [h0] at hkpos; simp at hkpos)
      have hlastc : (pieceChunks total 1 ps).getLast?.getD (Chunk.mk ChunkType.null []) =
          Chunk.mk (chunkTypeOf (1 + (ps.length - 1)) total) (ps.getD (ps.length - 1) []) := by
        rw [← getD_last_eq _ _ hcsne, hplen,
            pieceChunks_getD total ps 1 (ps.length - 1) _ (by omega)]
      have hlastLext : (packMsg bs L m).getLast?.getD [] =
          [Chunk.mk (chunkTypeOf (1 + (ps.length - 1)) total) (ps.getD (ps.length - 1) [])] := by
        rw [hpack, List.getLast?_append_of_ne_nil _
              (packPieces_ne_nil total 1 ps (by intro h0; rw [h0] at hkpos; simp at hkpos)),
            ← getD_last_eq _ _
              (packPieces_ne_nil total 1 ps (by intro h0; rw [h0] at hkpos; simp at hkpos)),
            packPieces_length,
            packPieces_getD total ps 1 (ps.length - 1) (by omega)]
      obtain ⟨e2, hpe2⟩ := hext.2.2 hLextne
      rw [hLextlen, hlastLext] at hpe2
      have hchain := nextLoop_chain bs Lfull tail hwfF hbs hbs32
        (pieceChunks total 1 ps) n (parkedIter bs Lfull (n - 1) bs)
        ([] ++ m.take cap) F0
        hcsne
        (by rw [hplen]; omega)
        (by simp only [parkedIter]; exact pred_mul_add n bs hnpos)
        (by simp only [parkedIter]; exact hblen1)
        (by simp only [parkedIter, NUM_HEADER_BYTES]; omega)
        (by rw [hplen]; exact hnkF)
        (by
          intro i hi
          rw [hplen] at hi
          constructor
          · rw [hext.2.1 (n + i) (by rw [hLextlen]; omega), hpack,
              getD_append_right_any _ _ _ _ (by rw [modifyLastBlock_length]; omega),
              modifyLastBlock_length, show n + i - n = i by omega,
              packPieces_getD total ps 1 i (by omega),
              pieceChunks_getD total ps 1 i _ (by omega)]
          · rw [pieceChunks_getD total ps 1 i _ (by omega)]
            right
            show chunkTypeOf (1 + i) total = ChunkType.middle
            exact chunkTypeOf_middle (1 + i) total (by omega) (by omega)
        )
        (by
          refine ⟨e2, ?_⟩
          rw [hplen, hlastc, show n + ps.length - 1 = n + ps.length - 1 from rfl]
          rw [hpe2]
          simp
        )
        (by
          rw [hlastc]
          right
          show chunkTypeOf (1 + (ps.length - 1)) total = ChunkType.fin
          exact chunkTypeOf_fin _ _ (by omega) (by omega)
        )
      rw [hchain]
      rw [parkedState, if_neg (by rw [hLextlen]; omega), hLextlen, hlastLext,
        blockUsed_single, hplen, hlastc]
      have hmsg : ([] ++ m.take cap) ++
          ((pieceChunks total 1 ps).map Chunk.payload).flatten = m := by
        rw [pieceChunks_payloads, hps, listChunks_flatten _ hnpb, hrest]
        simp
      rw [hmsg]
  · -- message goes entirely to fresh blocks
    set ps := listChunks (bs - NUM_HEADER_BYTES) m with hps
    set total := chunksCeil (bs - NUM_HEADER_BYTES) m.length with htotal
    have hpack : packMsg bs L m = L ++ packPieces total 0 ps := by
      rw [packMsg]
      simp only [if_neg hcond]
    have hmne : m ≠ [] := by
      intro h0
      rw [h0] at hm
      simp at hm
    have hk : ps.length = total := by rw [hps, htotal, listChunks_length _ hnpb]
    have hkpos : 0 < ps.length := by
      rw [hps, listChunks_cons_eq _ hnpb m hmne]
      simp
    have hplen : (pieceChunks total 0 ps).length = ps.length := pieceChunks_length total 0 ps
    have hpsne : ps ≠ [] := by
      intro h0
      rw [h0] at hkpos
      simp at hkpos
    have hcsne : pieceChunks total 0 ps ≠ [] := pieceChunks_ne_nil total 0 ps hpsne
    have hppne : packPieces total 0 ps ≠ [] := packPieces_ne_nil total 0 ps hpsne
    have hLextlen : (packMsg bs L m).length = n + ps.length := by
      rw [hpack, List.length_append, packPieces_length]
    have hLextne : packMsg bs L m ≠ [] := by
      intro h0
      rw [h0] at hLextlen
      simp only [List.length_nil] at hLextlen
      omega
    have hnkF : n + ps.length ≤ Lfull.length := by
      have := hext.1
      rw [hLextlen] at this
      exact this
    have hexh : (parkedState bs Lfull L).is_buffer_exhausted = true ∧
        (parkedState bs Lfull L).pos = n * bs ∧
        (parkedState bs Lfull L).buffer.length = bs := by
      rcases eq_or_ne L [] with hLnil | hLne
      · rw [parkedState, if_pos (by simp only [hn, hLnil, List.length_nil])]
        refine ⟨?_, ?_, ?_⟩
        · simp [SegmentIterator.new, SegmentIterator.is_buffer_exhausted, NUM_HEADER_BYTES]
        · simp only [SegmentIterator.new]
          rw [hn, hLnil]
          simp
        · simp [SegmentIterator.new]
      · have hnpos : 0 < n := List.length_pos.mpr hLne
        have hupos : 0 < u := blockUsed_last_pos bs L hwfL hLne
        have hube : bs ≤ u + 9 := by
          rcases Nat.lt_or_ge (u + 9) bs with hlt | hge
          · exact absurd ⟨hupos, by simpa [NUM_HEADER_BYTES] using hlt⟩ hcond
          · exact hge
        have hn1F : n - 1 < Lfull.length := by
          have := hLF.1
          omega
        have hblen1 : (blockBytes bs (Lfull.getD (n - 1) [])).length = bs :=
          blockBytes_length bs _ (hwfF.blocks_fit _ (getD_mem _ _ _ hn1F))
        rw [parkedState, if_neg (by omega)]
        refine ⟨?_, ?_, ?_⟩
        · simp only [SegmentIterator.is_buffer_exhausted, parkedIter, hblen1,
            decide_eq_true_eq, NUM_HEADER_BYTES]
          omega
        · simp only [parkedIter]
          exact pred_mul_add n bs hnpos
        · simp only [parkedIter]
          exact hblen1
    rw [SegmentIterator.next]
    rw [if_neg (by rw [hexh.1]; simp)]
    set F := (renderBlocks bs Lfull ++ tail).length +
      (parkedState bs Lfull L).buffer.length + 2 with hF
    have hFbig : ps.length < F := by
      rw [hF]
      have h1 : ps.length ≤ Lfull.length := by omega
      omega
    have hlastc : (pieceChunks total 0 ps).getLast?.getD (Chunk.mk ChunkType.null []) =
        Chunk.mk (chunkTypeOf (0 + (ps.length - 1)) total) (ps.getD (ps.length - 1) []) := by
      rw [← getD_last_eq _ _ hcsne, hplen,
          pieceChunks_getD total ps 0 (ps.length - 1) _ (by omega)]
    have hlastLext : (packMsg bs L m).getLast?.getD [] =
        [Chunk.mk (chunkTypeOf (0 + (ps.length - 1)) total) (ps.getD (ps.length - 1) [])] := by
      rw [hpack, List.getLast?_append_of_ne_nil _ hppne,
          ← getD_last_eq _ _ hppne, packPieces_length,
          packPieces_getD total ps 0 (ps.length - 1) (by omega)]
    obtain ⟨e2, hpe2⟩ := hext.2.2 hLextne
    rw [hLextlen, hlastLext] at hpe2
    have hchain := nextLoop_chain bs Lfull tail hwfF hbs hbs32
      (pieceChunks total 0 ps) n (parkedState bs Lfull L) [] F
      hcsne
      (by rw [hplen]; omega)
      hexh.2.1
      hexh.2.2
      (by
        rcases eq_or_ne L [] with hLnil | hLne
        · rw [parkedState, if_pos (by simp only [hn, hLnil, List.length_nil])]
          simp only [SegmentIterator.new, NUM_HEADER_BYTES]
          omega
        · have hnpos : 0 < n := List.length_pos.mpr hLne
          have hupos : 0 < u := blockUsed_last_pos bs L hwfL hLne
          have hube : bs ≤ u + 9 := by
            rcases Nat.lt_or_ge (u + 9) bs with hlt | hge
            · exact absurd ⟨hupos, by simpa [NUM_HEADER_BYTES] using hlt⟩ hcond
            · exact hge
          rw [parkedState, if_neg (by omega)]
          simp only [parkedIter, NUM_HEADER_BYTES]
          omega
      )
      (by rw [hplen]; exact hnkF)
      (by
        intro i hi
        rw [hplen] at hi
        constructor
        · rw [hext.2.1 (n + i) (by rw [hLextlen]; omega), hpack,
            getD_append_right_any _ _ _ _ (by omega),
            show n + i - L.length = i by rw [← hn]; omega,
            packPieces_getD total ps 0 i (by omega),
            pieceChunks_getD total ps 0 i _ (by omega)]
        · rw [pieceChunks_getD total ps 0 i _ (by omega)]
          rcases Nat.eq_zero_or_pos i with hi0 | hipos
          · left
            show chunkTypeOf (0 + i) total = ChunkType.start
            rw [hi0]
            exact chunkTypeOf_start total (by omega)
          · right
            show chunkTypeOf (0 + i) total = ChunkType.middle
            exact chunkTypeOf_middle (0 + i) total (by omega) (by omega)
      )
      (by
        refine ⟨e2, ?_⟩
        rw [hplen, hlastc, hpe2]
        simp
      )
      (by
        rw [hlastc]
        rcases Nat.lt_or_ge 1 ps.length with hgt | hle
        · right
          show chunkTypeOf (0 + (ps.length - 1)) total = ChunkType.fin
          exact chunkTypeOf_fin _ _ (by omega) (by omega)
        · left
          show chunkTypeOf (0 + (ps.length - 1)) total = ChunkType.full
          have hps1 : ps.length = 1 := by omega
          rw [hps1, ← hk, hps1]
          rfl
      )
    rw [hchain]
    rw [parkedState, if_neg (by rw [hLextlen]; omega), hLextlen, hlastLext,
      blockUsed_single, hplen, hlastc]
    have hmsg : ([] : List Nat) ++
        ((pieceChunks total 0 ps).map Chunk.payload).flatten = m := by
      rw [pieceChunks_payloads, hps, listChunks_flatten _ hnpb]
      simp
    rw [hmsg]

/-- After the last message, `next` reports end of stream: a clean in-block
position re-reads the (unchanged) block and sees `Null` twice; an exhausted
position either fails to read a whole further block, or — when the block
size is small enough that the footer fills one — reads a block whose type
byte is zero. -/
theorem next_end (bs : Nat) (hbs : 10 ≤ bs) (hbs32 : bs ≤ 2 ^ 32)
    (Lfull : List (List Chunk)) (tail : List Nat)
    (hwfF : packWF bs Lfull)
    (htail : tail.length < bs ∨ tail.getD TYPE_OFFSET 0 = 0) :
    ∃ it1, SegmentIterator.next (renderBlocks bs Lfull ++ tail)
        (parkedState bs Lfull Lfull) = some (it1, none) := by
  have hflen : (renderBlocks bs Lfull).length = Lfull.length * bs :=
    renderBlocks_length bs Lfull hwfF.blocks_fit
  set u := blockUsed (Lfull.getLast?.getD []) with hu
  set n := Lfull.length with hn
  by_cases hstalecase : Lfull ≠ [] ∧ u + NUM_HEADER_BYTES < bs
  · -- in-block position: Null, reload, still Null
    obtain ⟨hLne, hroom⟩ := hstalecase
    have hnpos : 0 < n := List.length_pos.mpr hLne
    have hlastblk : Lfull.getD (n - 1) [] = Lfull.getLast?.getD [] :=
      getD_last_eq Lfull [] hLne
    have hfit1 : blockUsed (Lfull.getD (n - 1) []) ≤ bs :=
      hwfF.blocks_fit _ (getD_mem _ _ _ (by omega))
    have hblen1 : (blockBytes bs (Lfull.getD (n - 1) [])).length = bs :=
      blockBytes_length bs _ hfit1
    have hpark : parkedState bs Lfull Lfull = parkedIter bs Lfull (n - 1) u := by
      rw [parkedState, if_neg (by omega)]
    have hexh : (parkedIter bs Lfull (n - 1) u).is_buffer_exhausted = false := by
      simp only [SegmentIterator.is_buffer_exhausted, parkedIter, hblen1,
        decide_eq_false_iff_not, NUM_HEADER_BYTES]
      simp only [NUM_HEADER_BYTES] at hroom
      omega
    have hstale : (parkedIter bs Lfull (n - 1) u).is_stale = some true := by
      rw [SegmentIterator.is_stale]
      simp only [parkedIter]
      rw [hu, hlastblk, blockBytes_getD_pad bs _ _ (by omega)]
      rfl
    have hmul : (n - 1) * bs + bs = n * bs := pred_mul_add n bs hnpos
    have hreload : (parkedIter bs Lfull (n - 1) u).reload_buffer
        (renderBlocks bs Lfull ++ tail) = some (parkedIter bs Lfull (n - 1) u) := by
      rw [SegmentIterator.reload_buffer,
        if_pos (by
          constructor
          · simp only [parkedIter, hblen1]
            omega
          · simp only [parkedIter, List.length_append, hflen, ← hn]
            omega)]
      simp only [parkedIter, hblen1, Nat.add_sub_cancel]
      rw [renderBlocks_slice bs Lfull tail (n - 1) (by omega) hwfF.blocks_fit (by omega), hmul]
    rw [hpark, SegmentIterator.next]
    simp only [hexh, Bool.not_false, if_true, hstale, hreload]
    exact ⟨parkedIter bs Lfull (n - 1) u, rfl⟩
  · -- exhausted position: try to load a further block
    have hexh : (parkedState bs Lfull Lfull).is_buffer_exhausted = true ∧
        (parkedState bs Lfull Lfull).pos = n * bs ∧
        (parkedState bs Lfull Lfull).buffer.length = bs := by
      rcases eq_or_ne Lfull [] with hLnil | hLne
      · rw [parkedState, if_pos (by simp only [hn, hLnil, List.length_nil])]
        refine ⟨?_, ?_, ?_⟩
        · simp [SegmentIterator.new, SegmentIterator.is_buffer_exhausted, NUM_HEADER_BYTES]
        · simp only [SegmentIterator.new]
          rw [hn, hLnil]
          simp
        · simp [SegmentIterator.new]
      · have hnpos : 0 < n := List.length_pos.mpr hLne
        have hube : bs ≤ u + NUM_HEADER_BYTES := by
          rcases Nat.lt_or_ge (u + NUM_HEADER_BYTES) bs with hlt | hge
          · exact absurd ⟨hLne, hlt⟩ hstalecase
          · exact hge
        have hblen1 : (blockBytes bs (Lfull.getD (n - 1) [])).length = bs :=
          blockBytes_length bs _ (hwfF.blocks_fit _ (getD_mem _ _ _ (by omega)))
        rw [parkedState, if_neg (by omega)]
        refine ⟨?_, ?_, ?_⟩
        · simp only [SegmentIterator.is_buffer_exhausted, parkedIter, hblen1,
            decide_eq_true_eq]
          exact hube
        · simp only [parkedIter]
          exact pred_mul_add n bs hnpos
        · simp only [parkedIter]
          exact hblen1
    rw [SegmentIterator.next]
    rw [if_neg (by rw [hexh.1]; simp)]
    set it0 := parkedState bs Lfull Lfull with hit0
    set F := (renderBlocks bs Lfull ++ tail).length + it0.buffer.length + 2 with hF
    obtain ⟨F0, hF0⟩ : ∃ F0, F = F0 + 1 := ⟨F - 1, by omega⟩
    rw [hF0, SegmentIterator.nextLoop]
    have hexhb : it0.is_buffer_exhausted = true := hexh.1
    rcases Nat.lt_or_ge tail.length bs with hshort | hlong
    · -- no full further block: load fails, end of stream
      have hload : it0.load_buffer (renderBlocks bs Lfull ++ tail) = (it0, false) := by
        rw [SegmentIterator.load_buffer, if_neg (by
          rw [hexh.2.1, hexh.2.2, List.length_append, hflen]
          omega)]
      rw [SegmentIterator.ensure_buffer_loaded, if_pos hexhb, hload]
      exact ⟨it0, rfl⟩
    · -- the footer fills a block whose type byte is Null
      have htail0 : tail.getD TYPE_OFFSET 0 = 0 := by
        rcases htail with h | h
        · omega
        · exact h
      have hslice : listSlice (renderBlocks bs Lfull ++ tail) (n * bs) (n * bs + bs) =
          tail.take bs := by
        rw [listSlice, show n * bs = (renderBlocks bs Lfull).length by rw [hflen, hn],
          List.drop_left, Nat.add_sub_cancel_left]
      have hload : it0.load_buffer (renderBlocks bs Lfull ++ tail) =
          ({ it0 with buffer := tail.take bs, pos := n * bs + bs, offset := 0 }, true) := by
        rw [SegmentIterator.load_buffer, if_pos (by
          rw [hexh.2.1, hexh.2.2, List.length_append, hflen]
          omega)]
        rw [hexh.2.1, hexh.2.2, hslice]
      rw [SegmentIterator.ensure_buffer_loaded, if_pos hexhb, hload]
      have hreadnull : read_message (tail.take bs) 0 [] =
          some (ChunkType.null, 0, []) := by
        rw [read_message]
        have hgd : (tail.take bs).getD (0 + TYPE_OFFSET) 0 = 0 := by
          simp only [Nat.zero_add, List.getD_eq_getElem?_getD]
          rw [List.getElem?_take_of_lt (by simp only [TYPE_OFFSET]; omega)]
          simpa [List.getD_eq_getElem?_getD] using htail0
        rw [hgd]
        rfl
      simp only [hreadnull]
      exact ⟨{ it0 with buffer := tail.take bs, pos := n * bs + bs, offset := 0 }, rfl⟩

theorem packFold_WF (bs : Nat) (hbs : 10 ≤ bs) :
    ∀ (ms : List (List Nat)) (L : List (List Chunk)), packWF bs L →
      (∀ m ∈ ms, 0 < m.length) → packWF bs (ms.foldl (packMsg bs) L) := by
  intro ms
  induction ms with
  | nil => intro L hwf _; exact hwf
  | cons m ms ih =>
    intro L hwf hne
    simp only [List.foldl_cons]
    exact ih (packMsg bs L m) (packMsg_WF bs hbs L m (hne m (List.mem_cons_self _ _)) hwf)
      (fun q hq => hne q (List.mem_cons_of_mem _ hq))

theorem packAll_cons (bs : Nat) (m : List Nat) (ms : List (List Nat)) :
    packAll bs (m :: ms) = ms.foldl (packMsg bs) (packMsg bs [] m) := rfl

/-- A writer that went through `appendAll` still mirrors a layout whose
blocks it wrote wholesale. -/
theorem appendAll_new_spec (bs : Nat) (hbs : 10 ≤ bs) (info : SegmentInfo)
    (hbsz : info.buffer_size = bs) (ms : List (List Nat))
    (hne : ∀ m ∈ ms, 0 < m.length) :
    ∃ w1, (SegmentWriter.new info).appendAll ms = Except.ok w1 ∧
      mirrors bs (packAll bs ms) w1 ∧ packWF bs (packAll bs ms) ∧
      w1.segment_info = { info with next_offset := info.next_offset + ms.length } := by
  have hmir : mirrors bs [] (SegmentWriter.new info) := by
    rw [← hbsz]
    exact mirrors_new info
  obtain ⟨w1, h1, h2, h3, h4⟩ := appendAll_spec bs hbs ms (SegmentWriter.new info) []
    hmir (packWF_nil bs) hne
  exact ⟨w1, h1, h2, h3, by rw [h4]; rfl⟩

/-- `Topic::produce` on a topic with an open segment delegates to the
writer; iterated, it is `appendAll`. -/
theorem produceAll_open (ms : List (List Nat)) :
    ∀ (t : Topic) (w : SegmentWriter), t.open_segment = some w →
      t.produceAll ms = (w.appendAll ms).map
        (fun w1 => { t with open_segment := some w1 }) := by
  induction ms with
  | nil =>
    intro t w hw
    show Except.ok t = _
    rw [SegmentWriter.appendAll]
    show Except.ok t = Except.ok { t with open_segment := some w }
    cases t
    simp only [Topic.mk.injEq] at hw ⊢
    simp [hw]
  | cons m ms ih =>
    intro t w hw
    show (t.produce m).bind (fun t1 => t1.produceAll ms) = _
    rw [Topic.produce, hw]
    cases happ : w.append m with
    | error e =>
      show Except.error e = _
      rw [SegmentWriter.appendAll, happ]
      rfl
    | ok w1 =>
      show ({ t with open_segment := some w1 } : Topic).produceAll ms = _
      rw [SegmentWriter.appendAll, happ]
      exact ih { t with open_segment := some w1 } w1 rfl

theorem overwrite_pad_step (A : List Nat) (k : Nat) (d : List Nat) (h : d.length ≤ k) :
    overwrite (A ++ List.replicate k 0) A.length d =
      (A ++ d) ++ List.replicate (k - d.length) 0 := by
  rw [overwrite, List.take_left, List.drop_append, List.drop_replicate]

/-- The footer bytes laid down by `append_footer` over a zeroed buffer:
magic byte, then the four descriptor fields in little-endian. -/
def footerBytes (info : SegmentInfo) : List Nat :=
  leBytes 1 FOOTER_MAGIC_BYTE ++ leBytes 8 info.index ++ leBytes 8 info.buffer_size ++
    leBytes 8 info.start_offset ++ leBytes 8 info.next_offset

theorem footerBytes_length (info : SegmentInfo) : (footerBytes info).length = 33 := by
  simp [footerBytes, leBytes_length]

theorem append_footer_shape (w : SegmentWriter) :
    w.append_footer (List.replicate FOOTER_BYTE_COUNT 0) = footerBytes w.segment_info := by
  have h1 : writeBytesLE 1 FOOTER_MAGIC_BYTE (List.replicate 33 0) 0 =
      leBytes 1 FOOTER_MAGIC_BYTE ++ List.replicate 32 0 := by
    rw [writeBytesLE_eq_overwrite 1 _ _ 0 (by simp)]
    have := overwrite_pad_step [] 33 (leBytes 1 FOOTER_MAGIC_BYTE) (by simp [leBytes_length])
    simpa [leBytes_length] using this
  have h2 : writeBytesLE 8 w.segment_info.index
      (leBytes 1 FOOTER_MAGIC_BYTE ++ List.replicate 32 0) 1 =
      (leBytes 1 FOOTER_MAGIC_BYTE ++ leBytes 8 w.segment_info.index) ++
        List.replicate 24 0 := by
    rw [writeBytesLE_eq_overwrite 8 _ _ 1 (by simp [leBytes_length])]
    have := overwrite_pad_step (leBytes 1 FOOTER_MAGIC_BYTE) 32
      (leBytes 8 w.segment_info.index) (by simp [leBytes_length])
    simpa [leBytes_length] using this
  have h3 : writeBytesLE 8 w.segment_info.buffer_size
      ((leBytes 1 FOOTER_MAGIC_BYTE ++ leBytes 8 w.segment_info.index) ++
        List.replicate 24 0) 9 =
      ((leBytes 1 FOOTER_MAGIC_BYTE ++ leBytes 8 w.segment_info.index) ++
        leBytes 8 w.segment_info.buffer_size) ++ List.replicate 16 0 := by
    rw [writeBytesLE_eq_overwrite 8 _ _ 9 (by simp [leBytes_length])]
    have := overwrite_pad_step
      (leBytes 1 FOOTER_MAGIC_BYTE ++ leBytes 8 w.segment_info.index) 24
      (leBytes 8 w.segment_info.buffer_size) (by simp [leBytes_length])
    simpa [leBytes_length] using this
  have h4 : writeBytesLE 8 w.segment_info.start_offset
      (((leBytes 1 FOOTER_MAGIC_BYTE ++ leBytes 8 w.segment_info.index) ++
        leBytes 8 w.segment_info.buffer_size) ++ List.replicate 16 0) 17 =
      (((leBytes 1 FOOTER_MAGIC_BYTE ++ leBytes 8 w.segment_info.index) ++
        leBytes 8 w.segment_info.buffer_size) ++ leBytes 8 w.segment_info.start_offset) ++
        List.replicate 8 0 := by
    rw [writeBytesLE_eq_overwrite 8 _ _ 17 (by simp [leBytes_length])]
    have := overwrite_pad_step
      ((leBytes 1 FOOTER_MAGIC_BYTE ++ leBytes 8 w.segment_info.index) ++
        leBytes 8 w.segment_info.buffer_size) 16
      (leBytes 8 w.segment_info.start_offset) (by simp [leBytes_length])
    simpa [leBytes_length] using this
  have h5 : writeBytesLE 8 w.segment_info.next_offset
      ((((leBytes 1 FOOTER_MAGIC_BYTE ++ leBytes 8 w.segment_info.index) ++
        leBytes 8 w.segment_info.buffer_size) ++ leBytes 8 w.segment_info.start_offset) ++
        List.replicate 8 0) 25 =
      ((((leBytes 1 FOOTER_MAGIC_BYTE ++ leBytes 8 w.segment_info.index) ++
        leBytes 8 w.segment_info.buffer_size) ++ leBytes 8 w.segment_info.start_offset) ++
        leBytes 8 w.segment_info.next_offset) ++ List.replicate 0 0 := by
    rw [writeBytesLE_eq_overwrite 8 _ _ 25 (by simp [leBytes_length])]
    have := overwrite_pad_step
      (((leBytes 1 FOOTER_MAGIC_BYTE ++ leBytes 8 w.segment_info.index) ++
        leBytes 8 w.segment_info.buffer_size) ++ leBytes 8 w.segment_info.start_offset) 8
      (leBytes 8 w.segment_info.next_offset) (by simp [leBytes_length])
    simpa [leBytes_length] using this
  rw [SegmentWriter.append_footer]
  simp only [FOOTER_BYTE_COUNT, FOOTER_MAGIC_OFFSET, FOOTER_INDEX_OFFSET,
    FOOTER_BUFFER_SIZE_OFFSET, FOOTER_START_INDEX_OFFSET, FOOTER_NEXT_INDEX_OFFSET]
  rw [h1, h2, h3, h4, h5]
  simp [footerBytes, List.append_assoc]

/-- `write_footer` from a cursor at end of file appends exactly the footer. -/
theorem write_footer_file (w : SegmentWriter) (hpos : w.pos = w.file.length) :
    (w.write_footer).file = w.file ++ footerBytes w.segment_info := by
  rw [SegmentWriter.write_footer]
  simp only [append_footer_shape]
  rw [hpos, overwrite_end]

theorem write_footer_info (w : SegmentWriter) :
    (w.write_footer).segment_info = w.segment_info := rfl

/-- `SegmentInfo::from_file` recovers the descriptor from a file ending in
its footer, as long as every field fits an unsigned 64-bit integer. -/
theorem from_file_footer (path : String) (file : List Nat) (info : SegmentInfo)
    (hidx : info.index < 2 ^ 64) (hbsz : info.buffer_size < 2 ^ 64)
    (hso : info.start_offset < 2 ^ 64) (hno : info.next_offset < 2 ^ 64) :
    SegmentInfo.from_file path (file ++ footerBytes info) =
      some { info with path := path } := by
  have hm64 : (256 : Nat) ^ 8 = 2 ^ 64 := by norm_num
  have hlen : (file ++ footerBytes info).length = file.length + 33 := by
    rw [List.length_append, footerBytes_length]
  have hslice : listSlice (file ++ footerBytes info) file.length (file.length + 33) =
      footerBytes info := by
    have := slice_join_block file (footerBytes info) [] file.length rfl
      (by rw [footerBytes_length]; omega)
    rw [footerBytes_length] at this
    simpa using this
  have hF : footerBytes info =
      leBytes 1 FOOTER_MAGIC_BYTE ++ (leBytes 8 info.index ++ (leBytes 8 info.buffer_size ++
        (leBytes 8 info.start_offset ++ leBytes 8 info.next_offset))) := by
    simp [footerBytes, List.append_assoc]
  have hr0 : readBytesLE 1 (footerBytes info) 0 = some FOOTER_MAGIC_BYTE := by
    have hs : listSlice (footerBytes info) 0 (0 + 1) = leBytes 1 FOOTER_MAGIC_BYTE := by
      rw [hF]
      have := slice_join_block [] (leBytes 1 FOOTER_MAGIC_BYTE)
        (leBytes 8 info.index ++ (leBytes 8 info.buffer_size ++
          (leBytes 8 info.start_offset ++ leBytes 8 info.next_offset))) 0 rfl
        (by simp [leBytes_length])
      rw [leBytes_length] at this
      simpa using this
    have := readBytesLE_of_slice 1 FOOTER_MAGIC_BYTE (footerBytes info) 0
      (by rw [footerBytes_length]; omega) hs
    simpa [FOOTER_MAGIC_BYTE] using this
  have hr1 : readBytesLE 8 (footerBytes info) 1 = some info.index := by
    have hs : listSlice (footerBytes info) 1 (1 + 8) = leBytes 8 info.index := by
      rw [hF]
      have := slice_join_block (leBytes 1 FOOTER_MAGIC_BYTE) (leBytes 8 info.index)
        (leBytes 8 info.buffer_size ++ (leBytes 8 info.start_offset ++
          leBytes 8 info.next_offset)) 1 (by simp [leBytes_length])
        (by simp [leBytes_length])
      rw [leBytes_length] at this
      simpa [List.append_assoc] using this
    have := readBytesLE_of_slice 8 info.index (footerBytes info) 1
      (by rw [footerBytes_length]; omega) hs
    rwa [hm64, Nat.mod_eq_of_lt hidx] at this
  have hr2 : readBytesLE 8 (footerBytes info) 9 = some info.buffer_size := by
    have hs : listSlice (footerBytes info) 9 (9 + 8) = leBytes 8 info.buffer_size := by
      rw [hF]
      have := slice_join_block (leBytes 1 FOOTER_MAGIC_BYTE ++ leBytes 8 info.index)
        (leBytes 8 info.buffer_size)
        (leBytes 8 info.start_offset ++ leBytes 8 info.next_offset) 9
        (by simp [leBytes_length]) (by simp [leBytes_length])
      rw [leBytes_length] at this
      simpa [List.append_assoc] using this
    have := readBytesLE_of_slice 8 info.buffer_size (footerBytes info) 9
      (by rw [footerBytes_length]; omega) hs
    rwa [hm64, Nat.mod_eq_of_lt hbsz] at this
  have hr3 : readBytesLE 8 (footerBytes info) 17 = some info.start_offset := by
    have hs : listSlice (footerBytes info) 17 (17 + 8) = leBytes 8 info.start_offset := by
      rw [hF]
      have := slice_join_block
        (leBytes 1 FOOTER_MAGIC_BYTE ++ leBytes 8 info.index ++ leBytes 8 info.buffer_size)
        (leBytes 8 info.start_offset) (leBytes 8 info.next_offset) 17
        (by simp [leBytes_length]) (by simp [leBytes_length])
      rw [leBytes_length] at this
      simpa [List.append_assoc] using this
    have := readBytesLE_of_slice 8 info.start_offset (footerBytes info) 17
      (by rw [footerBytes_length]; omega) hs
    rwa [hm64, Nat.mod_eq_of_lt hso] at this
  have hr4 : readBytesLE 8 (footerBytes info) 25 = some info.next_offset := by
    have hs : listSlice (footerBytes info) 25 (25 + 8) = leBytes 8 info.next_offset := by
      rw [hF]
      have := slice_join_block
        (leBytes 1 FOOTER_MAGIC_BYTE ++ leBytes 8 info.index ++ leBytes 8 info.buffer_size ++
          leBytes 8 info.start_offset) (leBytes 8 info.next_offset) [] 25
        (by simp [leBytes_length]) (by simp [leBytes_length])
      rw [leBytes_length] at this
      simpa [List.append_assoc] using this
    have := readBytesLE_of_slice 8 info.next_offset (footerBytes info) 25
      (by rw [footerBytes_length]) hs
    rwa [hm64, Nat.mod_eq_of_lt hno] at this
  rw [SegmentInfo.from_file, if_neg (by rw [hlen]; simp only [FOOTER_BYTE_COUNT]; omega)]
  rw [show (file ++ footerBytes info).length - FOOTER_BYTE_COUNT = file.length by
        rw [hlen]; simp only [FOOTER_BYTE_COUNT]; omega,
      show (file ++ footerBytes info).length = file.length + 33 from hlen, hslice]
  simp only [FOOTER_MAGIC_OFFSET, FOOTER_INDEX_OFFSET, FOOTER_BUFFER_SIZE_OFFSET,
    FOOTER_START_INDEX_OFFSET, FOOTER_NEXT_INDEX_OFFSET, hr0, hr1, hr2, hr3, hr4]
  rw [if_neg (by simp [FOOTER_MAGIC_BYTE])]

theorem Fs.read_write (fs : Fs) (p : String) (c : List Nat) :
    (fs.write p c).read p = some c := by
  simp [Fs.read, Fs.write, List.find?]

theorem packAll_snoc (bs : Nat) (ms : List (List Nat)) (m : List Nat) :
    packAll bs (ms ++ [m]) = packMsg bs (packAll bs ms) m := by
  rw [packAll, List.foldl_append]
  rfl

theorem packAll_chain (bs : Nat) (done : List (List Nat)) (m : List Nat)
    (rest : List (List Nat)) :
    packAll bs (done ++ m :: rest) =
      rest.foldl (packMsg bs) (packAll bs (done ++ [m])) := by
  rw [show done ++ m :: rest = (done ++ [m]) ++ rest by simp, packAll, List.foldl_append]
  rfl

theorem parkedState_nil (bs : Nat) (Lfull : List (List Chunk)) :
    parkedState bs Lfull [] = SegmentIterator.new bs := by
  simp [parkedState]

/-- Driving the topic iterator over a single parked segment yields exactly
the remaining messages, then `None`. -/
theorem collect_one_segment (bs : Nat) (hbs : 10 ≤ bs) (hbs32 : bs ≤ 2 ^ 32)
    (info : SegmentInfo) (fs : Fs) (file : List Nat) (tail : List Nat)
    (ms : List (List Nat)) (hmne : ∀ m ∈ ms, 0 < m.length)
    (hread : fs.read info.path = some file)
    (hfile : file = renderBlocks bs (packAll bs ms) ++ tail)
    (htail : tail.length < bs ∨ tail.getD TYPE_OFFSET 0 = 0) :
    ∀ (rest done : List (List Nat)) (fuel : Nat),
      ms = done ++ rest →
      rest.length + 1 ≤ fuel →
      TopicIterator.collect fs fuel
        { segments := [], segment_iter :=
            some (info, parkedState bs (packAll bs ms) (packAll bs done)) } = some rest := by
  intro rest
  induction rest with
  | nil =>
    intro done fuel hms hfuel
    obtain ⟨f0, rfl⟩ : ∃ f0, fuel = f0 + 1 := ⟨fuel - 1, by omega⟩
    have hdone : done = ms := by rw [hms, List.append_nil]
    subst hdone
    obtain ⟨it1, hit1⟩ := next_end bs hbs hbs32 (packAll bs done) tail
      (packFold_WF bs hbs done [] (packWF_nil bs) hmne) htail
    rw [hfile] at hread
    simp only [TopicIterator.collect, TopicIterator.next, hread, hit1,
      TopicIterator.advance]
  | cons m rest ih =>
    intro done fuel hms hfuel
    obtain ⟨f0, rfl⟩ : ∃ f0, fuel = f0 + 1 := ⟨fuel - 1, by omega⟩
    have hdonene : ∀ q ∈ done, 0 < q.length := by
      intro q hq
      exact hmne q (by rw [hms]; exact List.mem_append_left _ hq)
    have hmpos : 0 < m.length := hmne m (by rw [hms]; simp)
    have hwfL : packWF bs (packAll bs done) :=
      packFold_WF bs hbs done [] (packWF_nil bs) hdonene
    have hwfF : packWF bs (packAll bs ms) :=
      packFold_WF bs hbs ms [] (packWF_nil bs) hmne
    have hext : layoutExtends (packMsg bs (packAll bs done) m) (packAll bs ms) := by
      rw [hms, packAll_chain, ← packAll_snoc]
      exact packFold_extends bs rest (packAll bs (done ++ [m]))
    have hstep := next_reads_msg bs hbs hbs32 (packAll bs done) (packAll bs ms) m tail
      hmpos hwfL hwfF hext
    rw [hfile] at hread
    simp only [TopicIterator.collect, TopicIterator.next, hread, hstep]
    rw [← packAll_snoc]
    rw [ih (done ++ [m]) f0 (by rw [hms]; simp) (by
      simp only [List.length_cons] at hfuel
      omega)]
    rfl

/-- On a fresh topic, `produceAll` creates the index-0 segment writer and
delegates every append to it. -/
theorem produceAll_fresh (dir : String) (bs : Nat) (ms : List (List Nat)) (hne : ms ≠ []) :
    (Topic.newFresh dir bs).produceAll ms =
      ((SegmentWriter.new (SegmentInfo.new (dir ++ "/" ++ ("segment_" ++ pad9 0)) 0 0 bs)).appendAll
          ms).map
        (fun w1 => { Topic.newFresh dir bs with open_segment := some w1 }) := by
  cases ms with
  | nil => exact absurd rfl hne
  | cons m ms =>
    show ((Topic.newFresh dir bs).produce m).bind (fun t1 => t1.produceAll ms) = _
    rw [Topic.produce]
    show (((SegmentWriter.new (SegmentInfo.new (dir ++ "/" ++ ("segment_" ++ pad9 0)) 0
        ((Topic.newFresh dir bs).accumulatedPriorMessages) bs)).append m).map
        (fun w1 => { Topic.newFresh dir bs with open_segment := some w1 })).bind
        (fun t1 => t1.produceAll ms) = _
    have hacc : (Topic.newFresh dir bs).accumulatedPriorMessages = 0 := rfl
    rw [hacc]
    set w0 := SegmentWriter.new
      (SegmentInfo.new (dir ++ "/" ++ ("segment_" ++ pad9 0)) 0 0 bs) with hw0
    cases happ : w0.append m with
    | error e =>
      rw [SegmentWriter.appendAll, happ]
      rfl
    | ok w1 =>
      rw [SegmentWriter.appendAll, happ]
      show ({ Topic.newFresh dir bs with open_segment := some w1 } : Topic).produceAll ms = _
      rw [produceAll_open ms _ w1 rfl]
      rfl

/-- Round trip of a fresh topic: produce all messages, close once, iterate:
exactly the produced messages come back, in order, then `None`. -/
theorem topic_round_trip (dir : String) (bs : Nat) (hbs : 10 ≤ bs)
    (hbs32 : bs ≤ 2 ^ 32) (hbs64 : bs < 2 ^ 64)
    (ms : List (List Nat)) (hne : ms ≠ []) (hmne : ∀ m ∈ ms, 0 < m.length) (fs0 : Fs) :
    ∃ t1, (Topic.newFresh dir bs).produceAll ms = Except.ok t1 ∧
      TopicIterator.collect ((t1.close fs0).2) (ms.length + 2)
        ((t1.close fs0).1).iter = some ms := by
  set info0 := SegmentInfo.new (dir ++ "/" ++ ("segment_" ++ pad9 0)) 0 0 bs with hinfo0
  have hbsz : info0.buffer_size = bs := rfl
  obtain ⟨w1, happ, hmir, hwf, hsnap⟩ := appendAll_new_spec bs hbs info0 hbsz ms hmne
  set t1 : Topic := { Topic.newFresh dir bs with open_segment := some w1 } with ht1
  refine ⟨t1, ?_, ?_⟩
  · rw [produceAll_fresh dir bs ms hne, happ]
    rfl
  · set snap := w1.segment_info with hsnapd
    have hclose : t1.close fs0 =
        ({ t1 with open_segment := none, segments := [snap] },
         fs0.write (w1.write_footer).segment_info.path (w1.write_footer).file) := by
      rw [Topic.close]
      rfl
    have hwfile : (w1.write_footer).file =
        renderBlocks bs (packAll bs ms) ++ footerBytes snap := by
      rw [write_footer_file w1 hmir.hpos, hmir.hfile]
    have hwpath : (w1.write_footer).segment_info.path = snap.path := rfl
    rw [hclose]
    show TopicIterator.collect
      (fs0.write (w1.write_footer).segment_info.path (w1.write_footer).file)
      (ms.length + 2) (TopicIterator.new [snap]) = some ms
    set fs1 := fs0.write (w1.write_footer).segment_info.path (w1.write_footer).file with hfs1
    have hread : fs1.read snap.path = some (renderBlocks bs (packAll bs ms) ++
        footerBytes snap) := by
      rw [hfs1, hwpath.symm, ← hwfile]
      exact Fs.read_write fs0 _ _
    have hsnapbs : snap.buffer_size = bs := by
      rw [hsnap]
      exact hbsz
    have hsnapidx : snap.index = 0 := by
      rw [hsnap]
      rfl
    obtain ⟨m, ms', rfl⟩ : ∃ m ms', ms = m :: ms' := by
      cases ms with
      | nil => exact absurd rfl hne
      | cons m ms' => exact ⟨m, ms', rfl⟩
    have htail : (footerBytes snap).length < bs ∨
        (footerBytes snap).getD TYPE_OFFSET 0 = 0 := by
      right
      rw [footerBytes, TYPE_OFFSET]
      rw [getD_append_left_any _ _ _ _ (by simp [leBytes_length]),
          getD_append_left_any _ _ _ _ (by simp [leBytes_length]),
          getD_append_left_any _ _ _ _ (by simp [leBytes_length]),
          getD_append_right_any _ _ _ _ (by simp [leBytes_length])]
      simp only [leBytes_length]
      rw [show (8 : Nat) - 1 = 7 by omega, leBytes_getD 8 snap.index 7 (by omega), hsnapidx]
      simp
    -- first step: pop the segment and read its first message
    have hwfF : packWF bs (packAll bs (m :: ms')) :=
      packFold_WF bs hbs (m :: ms') [] (packWF_nil bs) hmne
    have hext1 : layoutExtends (packMsg bs [] m) (packAll bs (m :: ms')) := by
      rw [packAll_cons]
      exact packFold_extends bs ms' (packMsg bs [] m)
    have hstep1 := next_reads_msg bs hbs hbs32 [] (packAll bs (m :: ms')) m
      (footerBytes snap) (hmne m (List.mem_cons_self _ _)) (packWF_nil bs) hwfF hext1
    rw [parkedState_nil] at hstep1
    show TopicIterator.collect fs1 ((m :: ms').length + 2)
      { segments := [snap], segment_iter := none } = some (m :: ms')
    rw [show (m :: ms').length + 2 = ((m :: ms').length + 1) + 1 by omega]
    rw [TopicIterator.collect]
    simp only [TopicIterator.next, TopicIterator.advance, hread, SegmentInfo.iter, hsnapbs,
      hstep1]
    have hfirst : packMsg bs [] m = packAll bs ([] ++ [m]) := by
      rw [packAll_snoc]
      rfl
    rw [hfirst]
    rw [collect_one_segment bs hbs hbs32 snap fs1 _ (footerBytes snap) (m :: ms') hmne
      hread rfl htail ms' ([] ++ [m]) ((m :: ms').length + 1) (by simp)
      (by simp only [List.length_cons]; omega)]
    rfl

/-- The stored CRC field of a packed chunk equals the CRC-32 of the stored
bytes from the length field through the end of the payload — the region
`[LEN_OFFSET, chunk end)`, excluding the CRC field itself and any padding. -/
theorem crc_field_eq (bs : Nat) (pre : List Chunk) (c : Chunk) (ext : List Chunk)
    (hfit : blockUsed (pre ++ [c] ++ ext) ≤ bs) :
    readBytesLE 4 (blockBytes bs (pre ++ [c] ++ ext)) (blockUsed pre + CRC_OFFSET) =
      some (calculate_crc (listSlice (blockBytes bs (pre ++ [c] ++ ext))
        (blockUsed pre + LEN_OFFSET) (blockUsed pre + chunkSize c))) := by
  set u := blockUsed pre with hu
  set P : List Nat := (pre.map chunkBytes).flatten with hPd
  have hP : P.length = u := chunksJoin_length pre
  set crcv : Nat := calculate_crc (chunkBody c) with hcrcv
  set R : List Nat := (ext.map chunkBytes).flatten ++
      List.replicate (bs - blockUsed (pre ++ [c] ++ ext)) 0 with hR
  have hbuf : blockBytes bs (pre ++ [c] ++ ext) =
      P ++ (leBytes 4 crcv ++ (chunkBody c ++ R)) := by
    simp [blockBytes, chunkBytes, hcrcv, hR, List.append_assoc]
  have hbound : u + chunkSize c ≤ bs := by
    rw [List.append_assoc, blockUsed_append pre ([c] ++ ext),
      blockUsed_append [c] ext, blockUsed_single] at hfit
    omega
  have hblen : (blockBytes bs (pre ++ [c] ++ ext)).length = bs := blockBytes_length bs _ hfit
  have hbody_slice : listSlice (blockBytes bs (pre ++ [c] ++ ext))
      (u + LEN_OFFSET) (u + chunkSize c) = chunkBody c := by
    rw [hbuf, LEN_OFFSET]
    have := slice_join_block (P ++ leBytes 4 crcv) (chunkBody c) R (u + 4)
      (by simp [hP, leBytes_length]) (by rw [chunkBody_length]; omega)
    rw [chunkBody_length] at this
    rw [show u + chunkSize c = u + 4 + (5 + c.payload.length) by
      simp only [chunkSize, NUM_HEADER_BYTES]; omega]
    simpa [List.append_assoc] using this
  have hcrc_slice : listSlice (blockBytes bs (pre ++ [c] ++ ext))
      (u + CRC_OFFSET) (u + CRC_OFFSET + 4) = leBytes 4 crcv := by
    rw [hbuf, CRC_OFFSET, Nat.add_zero]
    have := slice_join_block P (leBytes 4 crcv) (chunkBody c ++ R) u hP.symm
      (by simp [leBytes_length])
    rw [leBytes_length] at this
    simpa [List.append_assoc] using this
  have hres := readBytesLE_of_slice 4 crcv (blockBytes bs (pre ++ [c] ++ ext))
    (u + CRC_OFFSET)
    (by rw [hblen]; simp only [CRC_OFFSET, chunkSize, NUM_HEADER_BYTES] at hbound ⊢; omega)
    hcrc_slice
  have hlt : crcv < 2 ^ 32 := by rw [hcrcv]; exact calculate_crc_lt _
  rw [show (256 : Nat) ^ 4 = 2 ^ 32 by norm_num] at hres
  rw [Nat.mod_eq_of_lt hlt] at hres
  rw [hres, hbody_slice]

/-- The first chunk a tail-filling `packMsg` adds to the trailing block. -/
theorem packMsg_tail_chunk (bs : Nat) (L : List (List Chunk)) (m : List Nat)
    (hm : 0 < m.length)
    (hcond : 0 < blockUsed (L.getLast?.getD []) ∧
      blockUsed (L.getLast?.getD []) + NUM_HEADER_BYTES < bs) :
    ∃ c ext, (packMsg bs L m).getD (L.length - 1) [] =
        L.getLast?.getD [] ++ [c] ++ ext ∧ c.ctype ≠ ChunkType.null := by
  have hLne : L ≠ [] := last_used_pos_ne_nil L hcond.1
  have hnpos : 0 < L.length := List.length_pos.mpr hLne
  rw [packMsg]
  by_cases hfits : m.length ≤ bs - blockUsed (L.getLast?.getD []) - NUM_HEADER_BYTES
  · refine ⟨Chunk.mk ChunkType.full m, [], ?_, by simp⟩
    simp only [if_pos hcond, if_pos hfits]
    rw [modifyLastBlock_eq _ L hLne,
      show L.length - 1 = L.dropLast.length by rw [List.length_dropLast],
      getD_concat_last]
    simp
  · refine ⟨Chunk.mk ChunkType.start
      (m.take (bs - blockUsed (L.getLast?.getD []) - NUM_HEADER_BYTES)), [], ?_, by simp⟩
    simp only [if_pos hcond, if_neg hfits]
    rw [getD_append_left_any _ _ _ _ (by rw [modifyLastBlock_length]; omega),
      modifyLastBlock_eq _ L hLne,
      show L.length - 1 = L.dropLast.length by rw [List.length_dropLast],
      getD_concat_last]
    simp

/-- A reader whose loaded copy of the trailing block is stale (it has
consumed everything in it) re-reads the block and proceeds exactly as if it
had loaded the current file contents all along. -/
theorem next_eq_of_reload (bs : Nat) (hbs : 10 ≤ bs)
    (L Lext : List (List Chunk)) (tail : List Nat)
    (hwfL : packWF bs L) (hwfE : packWF bs Lext) (hLne : L ≠ [])
    (hroom : blockUsed (L.getLast?.getD []) + NUM_HEADER_BYTES < bs)
    (hlen : L.length ≤ Lext.length)
    (hchunk : ∃ c ext, Lext.getD (L.length - 1) [] =
        L.getLast?.getD [] ++ [c] ++ ext ∧ c.ctype ≠ ChunkType.null) :
    SegmentIterator.next (renderBlocks bs Lext ++ tail) (parkedState bs L L) =
      SegmentIterator.next (renderBlocks bs Lext ++ tail) (parkedState bs Lext L) := by
  obtain ⟨c, ext, hblk, hcnn⟩ := hchunk
  set u := blockUsed (L.getLast?.getD []) with hu
  set n := L.length with hn
  have hnpos : 0 < n := List.length_pos.mpr hLne
  have hn1L : n - 1 < L.length := by omega
  have hn1E : n - 1 < Lext.length := by omega
  have hfitL : blockUsed (L.getD (n - 1) []) ≤ bs :=
    hwfL.blocks_fit _ (getD_mem _ _ _ hn1L)
  have hfitE : blockUsed (Lext.getD (n - 1) []) ≤ bs :=
    hwfE.blocks_fit _ (getD_mem _ _ _ hn1E)
  have hblenL : (blockBytes bs (L.getD (n - 1) [])).length = bs :=
    blockBytes_length bs _ hfitL
  have hblenE : (blockBytes bs (Lext.getD (n - 1) [])).length = bs :=
    blockBytes_length bs _ hfitE
  have hflen : (renderBlocks bs Lext).length = Lext.length * bs :=
    renderBlocks_length bs Lext hwfE.blocks_fit
  have hparkL : parkedState bs L L = parkedIter bs L (n - 1) u := by
    rw [parkedState, if_neg (by omega)]
  have hparkE : parkedState bs Lext L = parkedIter bs Lext (n - 1) u := by
    rw [parkedState, if_neg (by omega)]
  have hexhL : (parkedIter bs L (n - 1) u).is_buffer_exhausted = false := by
    simp only [SegmentIterator.is_buffer_exhausted, parkedIter, hblenL,
      decide_eq_false_iff_not, NUM_HEADER_BYTES]
    simp only [NUM_HEADER_BYTES] at hroom
    omega
  have hexhE : (parkedIter bs Lext (n - 1) u).is_buffer_exhausted = false := by
    simp only [SegmentIterator.is_buffer_exhausted, parkedIter, hblenE,
      decide_eq_false_iff_not, NUM_HEADER_BYTES]
    simp only [NUM_HEADER_BYTES] at hroom
    omega
  have hstaleL : (parkedIter bs L (n - 1) u).is_stale = some true := by
    rw [SegmentIterator.is_stale]
    simp only [parkedIter]
    rw [hu, getD_last_eq L [] hLne, blockBytes_getD_pad bs _ _ (by omega)]
    rfl
  have htb : c.ctype.toByte ≠ 0 := by
    cases hcc : c.ctype
    · exact absurd hcc hcnn
    all_goals simp [ChunkType.toByte]
  have hstaleE : (parkedIter bs Lext (n - 1) u).is_stale = some false := by
    rw [SegmentIterator.is_stale]
    simp only [parkedIter]
    rw [hu, hblk, blockBytes_type_byte bs _ _ ext, fromByte_toByte]
    simp [hcnn]
  have hmul : (n - 1) * bs + bs = n * bs := pred_mul_add n bs hnpos
  have hreload : (parkedIter bs L (n - 1) u).reload_buffer
      (renderBlocks bs Lext ++ tail) = some (parkedIter bs Lext (n - 1) u) := by
    rw [SegmentIterator.reload_buffer,
      if_pos (by
        constructor
        · simp only [parkedIter, hblenL]
          omega
        · simp only [parkedIter, List.length_append, hflen]
          have h2 := Nat.mul_le_mul_right bs hlen
          omega)]
    simp only [parkedIter, hblenL, Nat.add_sub_cancel]
    rw [renderBlocks_slice bs Lext tail (n - 1) hn1E hwfE.blocks_fit (by omega), hmul]
  rw [hparkL, hparkE, SegmentIterator.next, SegmentIterator.next]
  simp only [hexhL, hexhE, Bool.not_false, if_true, hstaleL, hstaleE, hreload]
  simp only [parkedIter, hblenL, hblenE]

/-- When the directory scan succeeds, the in-memory segment list contains
exactly the entries whose names start with `segment_`, in enumeration
order, each as a fresh descriptor (no footer is read) whose index is the
parse of the name with the marker removed. -/
theorem scanSegments_spec (dir : String) (bs : Nat) :
    ∀ (entries : List String) (segs : List SegmentInfo),
      Topic.scanSegments dir bs entries = some segs →
      segs = (entries.filter (fun n => ("segment_".data).isPrefixOf n.data)).map
        (fun n => SegmentInfo.mk (dir ++ "/" ++ n)
          ((parseNatDigits (stripSegmentMarker n.data)).getD 0) bs 0 0) := by
  intro entries
  induction entries with
  | nil =>
    intro segs h
    rw [Topic.scanSegments] at h
    simp only [Option.some.injEq] at h
    rw [← h]
    rfl
  | cons name rest ih =>
    intro segs h
    rw [Topic.scanSegments] at h
    by_cases hp : (("segment_".data).isPrefixOf name.data) = true
    · rw [if_pos hp] at h
      cases hparse : parseNatDigits (stripSegmentMarker name.data) with
      | none =>
        rw [hparse] at h
        exact absurd h (by simp)
      | some off =>
        rw [hparse] at h
        cases hrec : Topic.scanSegments dir bs rest with
        | none =>
          rw [hrec] at h
          exact absurd h (by simp)
        | some l =>
          rw [hrec] at h
          have h2 : SegmentInfo.mk (dir ++ "/" ++ name) off bs 0 0 :: l = segs := by
            simpa using h
          have hfil : (List.filter (fun n => ("segment_".data).isPrefixOf n.data) (name :: rest))
              = name :: List.filter (fun n => ("segment_".data).isPrefixOf n.data) rest := by
            simp [List.filter_cons, hp]
          rw [← h2, hfil, List.map_cons, ← ih l hrec, hparse]
          rfl
    · rw [if_neg hp] at h
      have hfil : (List.filter (fun n => ("segment_".data).isPrefixOf n.data) (name :: rest))
          = List.filter (fun n => ("segment_".data).isPrefixOf n.data) rest := by
        simp only [List.filter_cons]
        rw [if_neg (by simpa using hp)]
      rw [hfil]
      exact ih segs h

/-- The `&mut self` view of `append`: the source returns `EmptyMessage`
before touching any state, so a failed call leaves the writer as it was. -/
def SegmentWriter.appendRun (w : SegmentWriter) (payload : List Nat) :
    SegmentWriter × Option WError :=
  match w.append payload with
  | Except.ok w1 => (w1, none)
  | Except.error e => (w, some e)

/-- `write_payload` never fails on a non-empty payload. -/
theorem write_payload_ok (w : SegmentWriter) (p : List Nat) (hp : ¬ p.length = 0) :
    ∃ w1, w.write_payload p = Except.ok w1 := by
  cases hw : w.write_payload p with
  | ok w1 => exact ⟨w1, rfl⟩
  | error e =>
    simp only [SegmentWriter.write_payload, if_neg hp] at hw
    split at hw
    all_goals try split at hw
    all_goals try split at hw
    all_goals simp at hw

theorem except_map_ok {ε α β : Type} (f : α → β) (x : Except ε α) (b : β)
    (h : x.map f = Except.ok b) : ∃ a, x = Except.ok a ∧ b = f a := by
  cases x with
  | ok a =>
    refine ⟨a, rfl, ?_⟩
    simp only [Except.map] at h
    cases h
    rfl
  | error e => simp [Except.map] at h

/-- C1: Round trip, corrected: producing the non-empty messages M1..Mn to a
fresh topic and then closing it once makes `iter()` yield exactly M1..Mn in
production order, each byte for byte, and then `None`.  (Without the close
the open segment is not in the queue `iter()` copies, so nothing at all is
yielded — see the counterexample.) -/
theorem claim_C1 (dir : String) (bs : Nat) (hbs : 10 ≤ bs) (hbs32 : bs ≤ 2 ^ 32)
    (hbs64 : bs < 2 ^ 64) (ms : List (List Nat)) (hne : ms ≠ [])
    (hmne : ∀ m ∈ ms, 0 < m.length) (fs0 : Fs) :
    ∃ t1, (Topic.newFresh dir bs).produceAll ms = Except.ok t1 ∧
      TopicIterator.collect ((t1.close fs0).2) (ms.length + 2)
        ((t1.close fs0).1).iter = some ms :=
  topic_round_trip dir bs hbs hbs32 hbs64 ms hne hmne fs0

theorem claim_C1_witness :
    ((10 : Nat) ≤ 64 ∧ (64 : Nat) ≤ 2 ^ 32 ∧ (64 : Nat) < 2 ^ 64 ∧
      ([[0, 1], [1, 2]] : List (List Nat)) ≠ [] ∧
      (∀ m ∈ ([[0, 1], [1, 2]] : List (List Nat)), 0 < m.length)) ∧
    (∃ t1, (Topic.newFresh "t" 64).produceAll [[0, 1], [1, 2]] = Except.ok t1 ∧
      TopicIterator.collect ((t1.close Fs.empty).2)
        (([[0, 1], [1, 2]] : List (List Nat)).length + 2)
        ((t1.close Fs.empty).1).iter = some [[0, 1], [1, 2]]) :=
  ⟨⟨by decide, by decide, by decide, by decide, by decide⟩,
   claim_C1 "t" 64 (by decide) (by decide) (by decide) [[0, 1], [1, 2]] (by decide)
     (by decide) Fs.empty⟩

/-- Against C1 as stated: after producing one message to a fresh topic
without closing, `iter()` yields `None` immediately — the produced message
is not returned, because the open segment is not on the closed-segment
list that `iter()` queues. -/
theorem claim_C1_counterexample :
    ((Topic.newFresh "t" 64).produceAll [[7]]).map
        (fun t1 => TopicIterator.collect Fs.empty 2 t1.iter) =
      Except.ok (some []) := by
  rfl

/-- C2: Directory scan, corrected: a successful `Topic::new` records exactly
the entries whose name merely starts with `segment_` (however many digits
follow), in directory enumeration order — no sort — and builds each
descriptor fresh from the parsed name alone: no footer is read, so
`start_offset` and `next_offset` are zero regardless of file contents. -/
theorem claim_C2 (dir : String) (bs : Nat) (entries : List String) (t : Topic)
    (h : Topic.new dir bs entries = some t) :
    t.segments = (entries.filter (fun n => ("segment_".data).isPrefixOf n.data)).map
      (fun n => SegmentInfo.mk (dir ++ "/" ++ n)
        ((parseNatDigits (stripSegmentMarker n.data)).getD 0) bs 0 0) := by
  rw [Topic.new] at h
  cases hscan : Topic.scanSegments dir bs entries with
  | none =>
    rw [hscan] at h
    exact absurd h (by simp)
  | some segs =>
    rw [hscan] at h
    have h2 : ({ dir := dir, segments := segs, open_segment := none, buffer_size := bs } : Topic) = t := by simpa using h
    rw [← h2]
    exact scanSegments_spec dir bs entries segs hscan

theorem claim_C2_witness :
    Topic.new "d" 64 ["segment_000000007", "junk"] = some
      { dir := "d",
        segments := [SegmentInfo.mk ("d" ++ "/" ++ "segment_000000007") 7 64 0 0],
        open_segment := none, buffer_size := 64 } ∧
    ({ dir := "d",
       segments := [SegmentInfo.mk ("d" ++ "/" ++ "segment_000000007") 7 64 0 0],
       open_segment := none, buffer_size := 64 } : Topic).segments =
      ((["segment_000000007", "junk"] : List String).filter
          (fun n => ("segment_".data).isPrefixOf n.data)).map
        (fun n => SegmentInfo.mk ("d" ++ "/" ++ n)
          ((parseNatDigits (stripSegmentMarker n.data)).getD 0) 64 0 0) :=
  ⟨by decide, claim_C2 "d" 64 ["segment_000000007", "junk"] _ (by decide)⟩

/-- Against C2 as stated: entries enumerated out of index order stay in
enumeration order (no sort by index), and a name with fewer than nine
digits is accepted all the same (no nine-digit pattern check). -/
theorem claim_C2_counterexample :
    (Topic.new "d" 64 ["segment_000000001", "segment_000000000"]).map
        (fun t => t.segments.map (fun s => s.index)) = some [1, 0] ∧
    (Topic.new "d" 64 ["segment_42"]).map
        (fun t => t.segments.map (fun s => s.index)) = some [42] := by
  exact ⟨rfl, rfl⟩

/-- C3: The committed code cannot implement this claim: `Topic::produce`
calls `SegmentInfo::new(&path, next_offset, self.buffer_size)` with three
arguments against the four-parameter signature `SegmentInfo::new(path,
index, start_offset, buffer_size)` of src/segment.rs, so the crate does not
type-check.  With the start offset modelled from the spec
(`start_offset = accumulated_prior_messages`), creation behaves as claimed:
fresh index one past the last (0 for none), path `segment_` plus the padded
index, and the new segment picks up message numbering exactly where the
prior segments stopped. -/
theorem claim_C3 (t : Topic) (m : List Nat) (hm : 0 < m.length)
    (hopen : t.open_segment = none) (hbs : 10 ≤ t.buffer_size) :
    ∃ w1, t.produce m = Except.ok { t with open_segment := some w1 } ∧
      w1.segment_info.index =
        (t.segments.getLast?.map (fun (s : SegmentInfo) => s.index + 1)).getD 0 ∧
      w1.segment_info.path = t.dir ++ "/" ++ ("segment_" ++
        pad9 ((t.segments.getLast?.map (fun (s : SegmentInfo) => s.index + 1)).getD 0)) ∧
      w1.segment_info.start_offset = t.accumulatedPriorMessages ∧
      w1.segment_info.next_offset = t.accumulatedPriorMessages + 1 := by
  set idx := (t.segments.getLast?.map (fun (s : SegmentInfo) => s.index + 1)).getD 0
    with hidx
  set info0 := SegmentInfo.new (t.dir ++ "/" ++ ("segment_" ++ pad9 idx)) idx
    t.accumulatedPriorMessages t.buffer_size with hinfo0
  have hmir : mirrors t.buffer_size [] (SegmentWriter.new info0) := mirrors_new info0
  obtain ⟨wp, hok, _, hinfop⟩ := write_payload_spec t.buffer_size hbs
    (SegmentWriter.new info0) [] m hmir (packWF_nil _) hm
  have happ : (SegmentWriter.new info0).append m = Except.ok
      { wp with segment_info := { wp.segment_info with
          next_offset := wp.segment_info.next_offset + 1 } } := by
    rw [SegmentWriter.append, hok]
    rfl
  have hprod : t.produce m = ((SegmentWriter.new info0).append m).map
      (fun w1 => { t with open_segment := some w1 }) := by
    rw [Topic.produce, hopen]
  refine ⟨{ wp with segment_info := { wp.segment_info with
      next_offset := wp.segment_info.next_offset + 1 } }, ?_, ?_, ?_, ?_, ?_⟩
  · rw [hprod, happ]
    rfl
  · simp only [hinfop]
    rfl
  · simp only [hinfop]
    rfl
  · simp only [hinfop]
    rfl
  · simp only [hinfop]
    rfl

theorem claim_C3_witness :
    ((0 : Nat) < 1 ∧ (Topic.newFresh "d" 16).open_segment = none ∧
      (10 : Nat) ≤ (Topic.newFresh "d" 16).buffer_size) ∧
    (∃ w1, (Topic.newFresh "d" 16).produce [7] =
        Except.ok { Topic.newFresh "d" 16 with open_segment := some w1 } ∧
      w1.segment_info.index =
        (((Topic.newFresh "d" 16).segments.getLast?.map
          (fun (s : SegmentInfo) => s.index + 1)).getD 0) ∧
      w1.segment_info.path = (Topic.newFresh "d" 16).dir ++ "/" ++ ("segment_" ++
        pad9 (((Topic.newFresh "d" 16).segments.getLast?.map
          (fun (s : SegmentInfo) => s.index + 1)).getD 0)) ∧
      w1.segment_info.start_offset = (Topic.newFresh "d" 16).accumulatedPriorMessages ∧
      w1.segment_info.next_offset =
        (Topic.newFresh "d" 16).accumulatedPriorMessages + 1) :=
  ⟨⟨by decide, by decide, by decide⟩,
   claim_C3 (Topic.newFresh "d" 16) [7] (by decide) (by decide) (by decide)⟩

/-- C4: Tail fill.  On a non-empty payload P with the trailing block dirty
and roomy (`buffer_offset + 9 < buffer_size`), the trailing block is
rewritten in place: if P fits the remaining capacity, one `Full` chunk
carrying all of P is packed after the existing chunks and the file length
does not change; otherwise a `Start` chunk carrying exactly the first
`cap = buffer_size - buffer_offset - 9` bytes is packed there and the rest
continues in fresh single-chunk blocks. -/
theorem claim_C4 (bs : Nat) (hbs : 10 ≤ bs) (w : SegmentWriter)
    (L : List (List Chunk)) (m : List Nat)
    (hmir : mirrors bs L w) (hwf : packWF bs L) (hm : 0 < m.length)
    (hdirty : 0 < blockUsed (L.getLast?.getD []))
    (hroom : blockUsed (L.getLast?.getD []) + NUM_HEADER_BYTES < bs) :
    ∃ w1, w.write_payload m = Except.ok w1 ∧
      (m.length ≤ bs - blockUsed (L.getLast?.getD []) - NUM_HEADER_BYTES →
        mirrors bs (modifyLastBlock (fun cs => cs ++ [Chunk.mk ChunkType.full m]) L) w1 ∧
        w1.file.length = w.file.length) ∧
      (¬ m.length ≤ bs - blockUsed (L.getLast?.getD []) - NUM_HEADER_BYTES →
        mirrors bs (modifyLastBlock (fun cs => cs ++ [Chunk.mk ChunkType.start
            (m.take (bs - blockUsed (L.getLast?.getD []) - NUM_HEADER_BYTES))]) L ++
          packPieces (1 + chunksCeil (bs - NUM_HEADER_BYTES)
            ((m.drop (bs - blockUsed (L.getLast?.getD []) - NUM_HEADER_BYTES)).length)) 1
            (listChunks (bs - NUM_HEADER_BYTES)
              (m.drop (bs - blockUsed (L.getLast?.getD []) - NUM_HEADER_BYTES)))) w1) := by
  obtain ⟨w1, hok, hmir1, _⟩ := write_payload_spec bs hbs w L m hmir hwf hm
  have hcond : 0 < blockUsed (L.getLast?.getD []) ∧
      blockUsed (L.getLast?.getD []) + NUM_HEADER_BYTES < bs := ⟨hdirty, hroom⟩
  refine ⟨w1, hok, ?_, ?_⟩
  · intro hfits
    have hpack : packMsg bs L m =
        modifyLastBlock (fun cs => cs ++ [Chunk.mk ChunkType.full m]) L := by
      rw [packMsg]
      simp only [if_pos hcond, if_pos hfits]
    rw [hpack] at hmir1
    refine ⟨hmir1, ?_⟩
    have hwfE : packWF bs (packMsg bs L m) := packMsg_WF bs hbs L m hm hwf
    rw [hpack] at hwfE
    rw [hmir1.hfile, hmir.hfile,
      renderBlocks_length bs _ hwfE.blocks_fit,
      renderBlocks_length bs _ hwf.blocks_fit, modifyLastBlock_length]
  · intro hfits
    have hpack : packMsg bs L m =
        modifyLastBlock (fun cs => cs ++ [Chunk.mk ChunkType.start
          (m.take (bs - blockUsed (L.getLast?.getD []) - NUM_HEADER_BYTES))]) L ++
        packPieces (1 + chunksCeil (bs - NUM_HEADER_BYTES)
          ((m.drop (bs - blockUsed (L.getLast?.getD []) - NUM_HEADER_BYTES)).length)) 1
          (listChunks (bs - NUM_HEADER_BYTES)
            (m.drop (bs - blockUsed (L.getLast?.getD []) - NUM_HEADER_BYTES))) := by
      rw [packMsg]
      simp only [if_pos hcond, if_neg hfits]
    rw [hpack] at hmir1
    exact hmir1

theorem claim_C4_witness :
    ((10 : Nat) ≤ 32 ∧
      mirrors 32 [[Chunk.mk ChunkType.full [5]]]
        { segment_info := SegmentInfo.new "p" 0 0 32,
          file := renderBlocks 32 [[Chunk.mk ChunkType.full [5]]],
          pos := (renderBlocks 32 [[Chunk.mk ChunkType.full [5]]]).length,
          write_buffer := blockBytes 32 [Chunk.mk ChunkType.full [5]],
          buffer_offset := blockUsed [Chunk.mk ChunkType.full [5]],
          num_payload_bytes_per_chunk := 32 - NUM_HEADER_BYTES } ∧
      packWF 32 [[Chunk.mk ChunkType.full [5]]] ∧
      (0 : Nat) < [(9 : Nat)].length ∧
      0 < blockUsed ([[Chunk.mk ChunkType.full [5]]].getLast?.getD []) ∧
      blockUsed ([[Chunk.mk ChunkType.full [5]]].getLast?.getD []) + NUM_HEADER_BYTES < 32) ∧
    (∃ w1,
      SegmentWriter.write_payload
        { segment_info := SegmentInfo.new "p" 0 0 32,
          file := renderBlocks 32 [[Chunk.mk ChunkType.full [5]]],
          pos := (renderBlocks 32 [[Chunk.mk ChunkType.full [5]]]).length,
          write_buffer := blockBytes 32 [Chunk.mk ChunkType.full [5]],
          buffer_offset := blockUsed [Chunk.mk ChunkType.full [5]],
          num_payload_bytes_per_chunk := 32 - NUM_HEADER_BYTES } [9] = Except.ok w1 ∧
      ([(9 : Nat)].length ≤ 32 - blockUsed ([[Chunk.mk ChunkType.full [5]]].getLast?.getD []) - NUM_HEADER_BYTES →
        mirrors 32 (modifyLastBlock (fun cs => cs ++ [Chunk.mk ChunkType.full [9]])
            [[Chunk.mk ChunkType.full [5]]]) w1 ∧
        w1.file.length =
          ({ segment_info := SegmentInfo.new "p" 0 0 32,
             file := renderBlocks 32 [[Chunk.mk ChunkType.full [5]]],
             pos := (renderBlocks 32 [[Chunk.mk ChunkType.full [5]]]).length,
             write_buffer := blockBytes 32 [Chunk.mk ChunkType.full [5]],
             buffer_offset := blockUsed [Chunk.mk ChunkType.full [5]],
             num_payload_bytes_per_chunk := 32 - NUM_HEADER_BYTES } : SegmentWriter).file.length) ∧
      (¬ [(9 : Nat)].length ≤ 32 - blockUsed ([[Chunk.mk ChunkType.full [5]]].getLast?.getD []) - NUM_HEADER_BYTES →
        mirrors 32 (modifyLastBlock (fun cs => cs ++ [Chunk.mk ChunkType.start
            ([9].take (32 - blockUsed ([[Chunk.mk ChunkType.full [5]]].getLast?.getD []) - NUM_HEADER_BYTES))])
            [[Chunk.mk ChunkType.full [5]]] ++
          packPieces (1 + chunksCeil (32 - NUM_HEADER_BYTES)
            (([9].drop (32 - blockUsed ([[Chunk.mk ChunkType.full [5]]].getLast?.getD []) - NUM_HEADER_BYTES)).length)) 1
            (listChunks (32 - NUM_HEADER_BYTES)
              ([9].drop (32 - blockUsed ([[Chunk.mk ChunkType.full [5]]].getLast?.getD []) - NUM_HEADER_BYTES)))) w1)) :=
  ⟨⟨by decide, ⟨rfl, rfl, rfl, rfl, rfl⟩,
    ⟨by decide, by decide, by decide,
      fun i hi => by simp only [List.length_cons, List.length_nil] at hi; omega⟩,
    by decide, by decide, by decide⟩,
   claim_C4 32 (by decide)
     { segment_info := SegmentInfo.new "p" 0 0 32,
       file := renderBlocks 32 [[Chunk.mk ChunkType.full [5]]],
       pos := (renderBlocks 32 [[Chunk.mk ChunkType.full [5]]]).length,
       write_buffer := blockBytes 32 [Chunk.mk ChunkType.full [5]],
       buffer_offset := blockUsed [Chunk.mk ChunkType.full [5]],
       num_payload_bytes_per_chunk := 32 - NUM_HEADER_BYTES }
     [[Chunk.mk ChunkType.full [5]]] [9]
     ⟨rfl, rfl, rfl, rfl, rfl⟩
     ⟨by decide, by decide, by decide,
       fun i hi => by simp only [List.length_cons, List.length_nil] at hi; omega⟩
     (by decide) (by decide) (by decide)⟩

/-- C5: Tail-read coherence on an open segment.  A reader parked inside the
trailing block at a non-exhausted offset sees a `Null` tag there; `next`
seeks back one block, re-reads it and re-checks.  If the writer has not
appended, the re-read tag is still `Null` and `next` reports end of stream;
if the writer has meanwhile packed a message `m`, the same iterator yields
`m` without being recreated. -/
theorem claim_C5 (bs : Nat) (hbs : 10 ≤ bs) (hbs32 : bs ≤ 2 ^ 32)
    (L : List (List Chunk)) (hwf : packWF bs L) (hLne : L ≠ [])
    (hroom : blockUsed (L.getLast?.getD []) + NUM_HEADER_BYTES < bs) :
    (∃ it1, SegmentIterator.next (renderBlocks bs L) (parkedState bs L L) =
        some (it1, none)) ∧
    (∀ m, 0 < m.length →
      SegmentIterator.next (renderBlocks bs (packMsg bs L m)) (parkedState bs L L) =
        some (parkedState bs (packMsg bs L m) (packMsg bs L m), some m)) := by
  constructor
  · obtain ⟨it1, h⟩ := next_end bs hbs hbs32 L [] hwf
      (Or.inl (by simp only [List.length_nil]; omega))
    rw [List.append_nil] at h
    exact ⟨it1, h⟩
  · intro m hm
    have hdirty : 0 < blockUsed (L.getLast?.getD []) := blockUsed_last_pos bs L hwf hLne
    have hwfE : packWF bs (packMsg bs L m) := packMsg_WF bs hbs L m hm hwf
    have heq := next_eq_of_reload bs hbs L (packMsg bs L m) [] hwf hwfE hLne hroom
      (packMsg_extends bs L m).1 (packMsg_tail_chunk bs L m hm ⟨hdirty, hroom⟩)
    have hread := next_reads_msg bs hbs hbs32 L (packMsg bs L m) m [] hm hwf hwfE
      (layoutExtends_refl _)
    rw [List.append_nil] at heq hread
    rw [heq, hread]

theorem claim_C5_witness :
    ((10 : Nat) ≤ 32 ∧ (32 : Nat) ≤ 2 ^ 32 ∧
      packWF 32 [[Chunk.mk ChunkType.full [5]]] ∧
      ([[Chunk.mk ChunkType.full [5]]] : List (List Chunk)) ≠ [] ∧
      blockUsed (([[Chunk.mk ChunkType.full [5]]] : List (List Chunk)).getLast?.getD []) +
        NUM_HEADER_BYTES < 32) ∧
    ((∃ it1, SegmentIterator.next (renderBlocks 32 [[Chunk.mk ChunkType.full [5]]])
        (parkedState 32 [[Chunk.mk ChunkType.full [5]]] [[Chunk.mk ChunkType.full [5]]]) =
        some (it1, none)) ∧
    (∀ m, 0 < m.length →
      SegmentIterator.next (renderBlocks 32 (packMsg 32 [[Chunk.mk ChunkType.full [5]]] m))
          (parkedState 32 [[Chunk.mk ChunkType.full [5]]] [[Chunk.mk ChunkType.full [5]]]) =
        some (parkedState 32 (packMsg 32 [[Chunk.mk ChunkType.full [5]]] m)
          (packMsg 32 [[Chunk.mk ChunkType.full [5]]] m), some m))) :=
  ⟨⟨by decide, by decide,
    ⟨by decide, by decide, by decide,
      fun i hi => by simp only [List.length_cons, List.length_nil] at hi; omega⟩,
    by decide, by decide⟩,
   claim_C5 32 (by decide) (by decide) [[Chunk.mk ChunkType.full [5]]]
     ⟨by decide, by decide, by decide,
       fun i hi => by simp only [List.length_cons, List.length_nil] at hi; omega⟩
     (by decide) (by decide)⟩

/-- C6: CRC integrity.  A chunk written by `write_chunk` stores in its
four-byte CRC field the CRC-32 of exactly the stored region from the length
field through the end of the payload — the CRC field itself and the
post-chunk padding excluded — and `read_message` verifies that same
equation and accepts the chunk. -/
theorem claim_C6 (bs : Nat) (w : SegmentWriter) (p : List Nat) (ci nc : Nat)
    (cs : List Chunk)
    (hbuf : w.write_buffer = blockBytes bs cs)
    (hoff : w.buffer_offset = blockUsed cs)
    (hfit : blockUsed cs + (NUM_HEADER_BYTES + p.length) ≤ bs)
    (hp : 0 < p.length) (hp32 : p.length < 2 ^ 32)
    (hnn : chunkTypeOf ci nc ≠ ChunkType.null) :
    readBytesLE 4 ((w.write_chunk p ci nc).write_buffer) (blockUsed cs + CRC_OFFSET) =
      some (calculate_crc (listSlice ((w.write_chunk p ci nc).write_buffer)
        (blockUsed cs + LEN_OFFSET)
        (blockUsed cs + chunkSize (Chunk.mk (chunkTypeOf ci nc) p)))) ∧
    read_message ((w.write_chunk p ci nc).write_buffer) (blockUsed cs) [] =
      some (chunkTypeOf ci nc,
        blockUsed cs + chunkSize (Chunk.mk (chunkTypeOf ci nc) p), p) := by
  have hwc := write_chunk_spec w p ci nc cs bs hbuf hoff hfit
  have hb : (w.write_chunk p ci nc).write_buffer =
      blockBytes bs (cs ++ [Chunk.mk (chunkTypeOf ci nc) p] ++ []) := by
    rw [hwc]
    simp
  rw [hb]
  have hfit2 : blockUsed (cs ++ [Chunk.mk (chunkTypeOf ci nc) p] ++ []) ≤ bs := by
    rw [List.append_nil, blockUsed_append, blockUsed_single]
    simp only [chunkSize]
    omega
  constructor
  · exact crc_field_eq bs cs _ [] hfit2
  · have := read_message_chunk bs cs (Chunk.mk (chunkTypeOf ci nc) p) [] [] hp hp32
      hnn hfit2
    simpa using this

theorem claim_C6_witness :
    ((SegmentWriter.new (SegmentInfo.new "p" 0 0 32)).write_buffer =
        blockBytes 32 [] ∧
      (SegmentWriter.new (SegmentInfo.new "p" 0 0 32)).buffer_offset = blockUsed [] ∧
      blockUsed ([] : List Chunk) + (NUM_HEADER_BYTES + [(1 : Nat), 2].length) ≤ 32 ∧
      (0 : Nat) < [(1 : Nat), 2].length ∧ [(1 : Nat), 2].length < 2 ^ 32 ∧
      chunkTypeOf 0 1 ≠ ChunkType.null) ∧
    (readBytesLE 4 (((SegmentWriter.new (SegmentInfo.new "p" 0 0 32)).write_chunk
          [1, 2] 0 1).write_buffer) (blockUsed ([] : List Chunk) + CRC_OFFSET) =
      some (calculate_crc (listSlice (((SegmentWriter.new
          (SegmentInfo.new "p" 0 0 32)).write_chunk [1, 2] 0 1).write_buffer)
        (blockUsed ([] : List Chunk) + LEN_OFFSET)
        (blockUsed ([] : List Chunk) + chunkSize (Chunk.mk (chunkTypeOf 0 1) [1, 2])))) ∧
    read_message (((SegmentWriter.new (SegmentInfo.new "p" 0 0 32)).write_chunk
        [1, 2] 0 1).write_buffer) (blockUsed ([] : List Chunk)) [] =
      some (chunkTypeOf 0 1,
        blockUsed ([] : List Chunk) + chunkSize (Chunk.mk (chunkTypeOf 0 1) [1, 2]),
        [1, 2])) :=
  ⟨⟨by simp [SegmentWriter.new, blockBytes_nil, SegmentInfo.new], by decide, by decide,
    by decide, by decide, by decide⟩,
   claim_C6 32 (SegmentWriter.new (SegmentInfo.new "p" 0 0 32)) [1, 2] 0 1 []
     (by simp [SegmentWriter.new, blockBytes_nil, SegmentInfo.new]) (by decide)
     (by decide) (by decide) (by decide) (by decide)⟩

/-- C7: Footer round trip.  Closing the writer appends the 33-byte footer —
magic byte 42, then index, block size, start offset and next offset as
little-endian 64-bit fields — and `SegmentInfo::from_file` on the closed
file returns exactly the descriptor snapshot taken before the close. -/
theorem claim_C7 (w : SegmentWriter) (hpos : w.pos = w.file.length)
    (hidx : w.segment_info.index < 2 ^ 64)
    (hbsz : w.segment_info.buffer_size < 2 ^ 64)
    (hso : w.segment_info.start_offset < 2 ^ 64)
    (hno : w.segment_info.next_offset < 2 ^ 64) :
    (w.write_footer).file = w.file ++ footerBytes w.segment_info ∧
    (footerBytes w.segment_info).length = 33 ∧
    footerBytes w.segment_info = [42] ++ leBytes 8 w.segment_info.index ++
      leBytes 8 w.segment_info.buffer_size ++ leBytes 8 w.segment_info.start_offset ++
      leBytes 8 w.segment_info.next_offset ∧
    SegmentInfo.from_file w.segment_info.path (w.write_footer).file =
      some w.segment_info_snapshot := by
  refine ⟨write_footer_file w hpos, footerBytes_length _, ?_, ?_⟩
  · rw [footerBytes, show leBytes 1 FOOTER_MAGIC_BYTE = [42] by decide]
  · rw [write_footer_file w hpos,
      from_file_footer w.segment_info.path w.file w.segment_info hidx hbsz hso hno]
    rfl

theorem claim_C7_witness :
    ((SegmentWriter.new (SegmentInfo.new "p" 1 2 16)).pos =
        (SegmentWriter.new (SegmentInfo.new "p" 1 2 16)).file.length ∧
      (SegmentWriter.new (SegmentInfo.new "p" 1 2 16)).segment_info.index < 2 ^ 64 ∧
      (SegmentWriter.new (SegmentInfo.new "p" 1 2 16)).segment_info.buffer_size < 2 ^ 64 ∧
      (SegmentWriter.new (SegmentInfo.new "p" 1 2 16)).segment_info.start_offset < 2 ^ 64 ∧
      (SegmentWriter.new (SegmentInfo.new "p" 1 2 16)).segment_info.next_offset < 2 ^ 64) ∧
    (((SegmentWriter.new (SegmentInfo.new "p" 1 2 16)).write_footer).file =
        (SegmentWriter.new (SegmentInfo.new "p" 1 2 16)).file ++
          footerBytes (SegmentWriter.new (SegmentInfo.new "p" 1 2 16)).segment_info ∧
      (footerBytes (SegmentWriter.new (SegmentInfo.new "p" 1 2 16)).segment_info).length = 33 ∧
      footerBytes (SegmentWriter.new (SegmentInfo.new "p" 1 2 16)).segment_info =
        [42] ++ leBytes 8 (SegmentWriter.new (SegmentInfo.new "p" 1 2 16)).segment_info.index ++
        leBytes 8 (SegmentWriter.new (SegmentInfo.new "p" 1 2 16)).segment_info.buffer_size ++
        leBytes 8 (SegmentWriter.new (SegmentInfo.new "p" 1 2 16)).segment_info.start_offset ++
        leBytes 8 (SegmentWriter.new (SegmentInfo.new "p" 1 2 16)).segment_info.next_offset ∧
      SegmentInfo.from_file (SegmentWriter.new (SegmentInfo.new "p" 1 2 16)).segment_info.path
          ((SegmentWriter.new (SegmentInfo.new "p" 1 2 16)).write_footer).file =
        some (SegmentWriter.new (SegmentInfo.new "p" 1 2 16)).segment_info_snapshot) :=
  ⟨⟨rfl, by decide, by decide, by decide, by decide⟩,
   claim_C7 (SegmentWriter.new (SegmentInfo.new "p" 1 2 16)) rfl (by decide) (by decide)
     (by decide) (by decide)⟩

/-- C8: Packing invariant.  Any run of appends of non-empty payloads to a
fresh writer leaves the file (no footer yet) as exactly the rendered
sequence of whole blocks: `k * buffer_size` bytes, where `k` is the number
of blocks the packed chunks occupy. -/
theorem claim_C8 (info : SegmentInfo) (hbs : 10 ≤ info.buffer_size)
    (ms : List (List Nat)) (hne : ∀ m ∈ ms, 0 < m.length) :
    ∃ w1, (SegmentWriter.new info).appendAll ms = Except.ok w1 ∧
      w1.file = renderBlocks info.buffer_size (packAll info.buffer_size ms) ∧
      w1.file.length = (packAll info.buffer_size ms).length * info.buffer_size := by
  obtain ⟨w1, h1, h2, h3, _⟩ := appendAll_new_spec info.buffer_size hbs info rfl ms hne
  exact ⟨w1, h1, h2.hfile, by rw [h2.hfile]; exact renderBlocks_length _ _ h3.blocks_fit⟩

theorem claim_C8_witness :
    ((10 : Nat) ≤ (SegmentInfo.new "p" 0 0 16).buffer_size ∧
      (∀ m ∈ ([[1, 2, 3]] : List (List Nat)), 0 < m.length)) ∧
    (∃ w1, (SegmentWriter.new (SegmentInfo.new "p" 0 0 16)).appendAll [[1, 2, 3]] =
        Except.ok w1 ∧
      w1.file = renderBlocks (SegmentInfo.new "p" 0 0 16).buffer_size
        (packAll (SegmentInfo.new "p" 0 0 16).buffer_size [[1, 2, 3]]) ∧
      w1.file.length = (packAll (SegmentInfo.new "p" 0 0 16).buffer_size [[1, 2, 3]]).length *
        (SegmentInfo.new "p" 0 0 16).buffer_size) :=
  ⟨⟨by decide, by decide⟩,
   claim_C8 (SegmentInfo.new "p" 0 0 16) (by decide) [[1, 2, 3]] (by decide)⟩

/-- C9: Empty payloads are rejected up front: `append` of a zero-length
payload reports `EmptyMessage` before touching anything, so the writer —
file, block buffer, offsets and descriptor alike — is exactly as it was. -/
theorem claim_C9 (w : SegmentWriter) :
    w.appendRun [] = (w, some WError.emptyMessage) := rfl

/-- C10: Frame of `close`.  Closing a topic with no open segment changes
nothing — same segments, same directory, same block size, no footer write —
and therefore a produce followed by two closes pushes exactly one
descriptor. -/
theorem claim_C10 (t : Topic) (fs : Fs) (ht : t.open_segment = none)
    (t0 : Topic) (m : List Nat) (hm : 0 < m.length) (fs1 : Fs) :
    t.close fs = (t, fs) ∧
    ∃ t1, t0.produce m = Except.ok t1 ∧
      (t1.close fs1).1.close (t1.close fs1).2 = t1.close fs1 ∧
      (t1.close fs1).1.segments.length = t0.segments.length + 1 := by
  refine ⟨by rw [Topic.close, ht], ?_⟩
  have hmne : ¬ m.length = 0 := by omega
  cases hop : t0.open_segment with
  | some w0 =>
    obtain ⟨wp, hok⟩ := write_payload_ok w0 m hmne
    have happ : w0.append m = Except.ok { wp with segment_info := { wp.segment_info with
        next_offset := wp.segment_info.next_offset + 1 } } := by
      rw [SegmentWriter.append, hok]
      rfl
    refine ⟨{ t0 with open_segment := some { wp with segment_info := { wp.segment_info with
        next_offset := wp.segment_info.next_offset + 1 } } }, ?_, ?_, ?_⟩
    · rw [Topic.produce, hop, happ]
      rfl
    · rw [Topic.close]
      rw [Topic.close]
    · rw [Topic.close]
      simp
  | none =>
    set w0 := SegmentWriter.new (SegmentInfo.new (t0.dir ++ "/" ++ ("segment_" ++
      pad9 ((t0.segments.getLast?.map (fun (s : SegmentInfo) => s.index + 1)).getD 0)))
      ((t0.segments.getLast?.map (fun (s : SegmentInfo) => s.index + 1)).getD 0)
      t0.accumulatedPriorMessages t0.buffer_size) with hw0
    obtain ⟨wp, hok⟩ := write_payload_ok w0 m hmne
    have happ : w0.append m = Except.ok { wp with segment_info := { wp.segment_info with
        next_offset := wp.segment_info.next_offset + 1 } } := by
      rw [SegmentWriter.append, hok]
      rfl
    refine ⟨{ t0 with open_segment := some { wp with segment_info := { wp.segment_info with
        next_offset := wp.segment_info.next_offset + 1 } } }, ?_, ?_, ?_⟩
    · rw [Topic.produce, hop, happ]
      rfl
    · rw [Topic.close]
      rw [Topic.close]
    · rw [Topic.close]
      simp

theorem claim_C10_witness :
    ((Topic.newFresh "d" 16).open_segment = none ∧ (0 : Nat) < [(7 : Nat)].length) ∧
    ((Topic.newFresh "d" 16).close Fs.empty = (Topic.newFresh "d" 16, Fs.empty) ∧
    ∃ t1, (Topic.newFresh "d" 16).produce [7] = Except.ok t1 ∧
      (t1.close Fs.empty).1.close (t1.close Fs.empty).2 = t1.close Fs.empty ∧
      (t1.close Fs.empty).1.segments.length = (Topic.newFresh "d" 16).segments.length + 1) :=
  ⟨⟨by decide, by decide⟩,
   claim_C10 (Topic.newFresh "d" 16) Fs.empty (by decide) (Topic.newFresh "d" 16) [7]
     (by decide) Fs.empty⟩
